import Mathlib

/-!
# Verification of the custom-qmood CSV merger and QMOOD metric recalculator

Shallow embedding of `custom-qmood.py`. Tables (pandas DataFrames) are
modelled as ordered lists of named columns; cell values are strings,
numbers (modelled as rationals) or missing values (`na`, standing for
`NaN`/`pd.NA`). Fallible code paths (Python exceptions) are modelled with
`Except`/`Option`.
-/

set_option maxHeartbeats 1000000

instance {e a : Type} [DecidableEq e] [DecidableEq a] : DecidableEq (Except e a) :=
  fun x y =>
    match x, y with
    | .ok v, .ok w =>
        if h : v = w then isTrue (by rw [h]) else isFalse (by intro hh; cases hh; exact h rfl)
    | .error v, .error w =>
        if h : v = w then isTrue (by rw [h]) else isFalse (by intro hh; cases hh; exact h rfl)
    | .ok _, .error _ => isFalse (by intro hh; cases hh)
    | .error _, .ok _ => isFalse (by intro hh; cases hh)

/-- A cell value: a string, a number (Python floats modelled as rationals),
or a missing value (`NaN` / `pd.NA`). -/
inductive Value where
  | str (s : String)
  | num (q : Rat)
  | na
  deriving DecidableEq, Repr

/-- Python `==` on two cell values. Mirrors `NaN == x` being `False`
(so `na` is never equal to anything, itself included), string comparison
being exact and case-sensitive, and values of different kinds comparing
unequal. -/
def pyEq : Value → Value → Bool
  | .str a, .str b => a == b
  | .num a, .num b => a == b
  | _, _ => false

/-- A pandas DataFrame: an ordered sequence of named columns, each an
ordered sequence of values aligned by row index. -/
structure Table where
  cols : List (String × List Value)
  deriving DecidableEq, Repr

/-- The column labels, in order (`df.columns`). -/
def Table.colNames (t : Table) : List String :=
  t.cols.map Prod.fst

/-- Number of rows (length of the index). All columns of a well-formed
table have this length. -/
def Table.nrows (t : Table) : Nat :=
  match t.cols with
  | [] => 0
  | c :: _ => c.2.length

/-- Well-formedness invariant of the data model: all columns have equal
length and column names are unique. -/
def Table.WF (t : Table) : Prop :=
  (∀ c ∈ t.cols, c.2.length = t.nrows) ∧ t.colNames.Nodup

instance (t : Table) : Decidable t.WF := by
  unfold Table.WF; infer_instance

/-- `df[name]`: the values of the (first) column called `name`
(`[]` when absent; callers only use this on present columns). -/
def Table.getCol (t : Table) (name : String) : List Value :=
  ((t.cols.find? (fun c => c.1 == name)).map Prod.snd).getD []

/-- `df[name] = vs`: overwrite the column in place when present,
otherwise append it at the end (as pandas does). -/
def Table.setCol (t : Table) (name : String) (vs : List Value) : Table :=
  if t.cols.any (fun c => c.1 == name) then
    ⟨t.cols.map (fun c => if c.1 == name then (c.1, vs) else c)⟩
  else
    ⟨t.cols ++ [(name, vs)]⟩

/-- `df.at[i, name] = v`: set one cell (the column is present in every
use inside `merge_csvs`; out-of-range row indices leave the column
unchanged, which never happens on well-formed inputs). -/
def Table.setCell (t : Table) (i : Nat) (name : String) (v : Value) : Table :=
  ⟨t.cols.map (fun c => if c.1 == name then (c.1, c.2.set i v) else c)⟩

/-- A row view (`df.iterrows()` element): column name ↦ value at a fixed
row index. -/
abbrev Row := List (String × Value)

/-- Row `i` of a table. -/
def Table.row (t : Table) (i : Nat) : Row :=
  t.cols.map (fun c => (c.1, c.2.getD i .na))

/-- All rows, in order (`df.iterrows()`). -/
def Table.rowsList (t : Table) : List Row :=
  (List.range t.nrows).map t.row

/-- The value of the cell at row `i` of column `name`. -/
def Table.cell (t : Table) (i : Nat) (name : String) : Value :=
  (t.getCol name).getD i .na

/-- `name in row`: membership of a column label in a row's index. -/
def rowHas (row : Row) (name : String) : Bool :=
  row.any (fun c => c.1 == name)

/-- `row[name]`: value of a row at a column label (callers guard with
`rowHas`). -/
def rowGet (row : Row) (name : String) : Value :=
  ((row.find? (fun c => c.1 == name)).map Prod.snd).getD .na

/-- `os.path.basename` on a POSIX path: the part after the last `/`. -/
def basename (p : String) : String :=
  ⟨(p.data.reverse.takeWhile (fun c => c ≠ '/')).reverse⟩

/-- Python `str.lower()` (ASCII data). -/
def lowerStr (s : String) : String :=
  ⟨s.data.map Char.toLower⟩

/-- `extract_class_name` (source lines 55–62): basename of the file path,
with a trailing `.java` removed. `os.path.basename` raises `TypeError` on
a non-string value (e.g. a number or `NaN`), modelled by `Except.error`. -/
def extract_class_name (v : Value) : Except Unit String :=
  match v with
  | .str filepath =>
      let base_name := basename filepath
      if (".java".data).isSuffixOf base_name.data then
        .ok ⟨base_name.data.take (base_name.data.length - 5)⟩
      else .ok base_name
  | _ => .error ()

/-- The second ("looser") rule of `match_files` (source lines 83–89):
compare basenames of the `Name`/`file` fields case-insensitively. -/
def fileRuleMatch (row1 row2 : Row) : Except Unit Bool :=
  if rowHas row1 "Name" && rowHas row2 "file" then
    match extract_class_name (rowGet row1 "Name") with
    | .error e => .error e
    | .ok base_file =>
        match extract_class_name (rowGet row2 "file") with
        | .error e => .error e
        | .ok override_file =>
            if lowerStr base_file == lowerStr override_file then .ok true else .ok false
  else .ok false

/-- `match_files` (source lines 65–91). Note the code does NOT stop when
the class-name rule applies but its values differ: it falls through to the
file-path rule. -/
def match_files (row1 row2 : Row) : Except Unit Bool :=
  if rowHas row1 "ClassNames" && rowHas row2 "class" then
    if pyEq (rowGet row1 "ClassNames") (rowGet row2 "class") then .ok true
    else fileRuleMatch row1 row2
  else fileRuleMatch row1 row2

/-- The column-adding preamble of `merge_csvs` (source lines 110–116):
for each requested column present in the override table and not already
present in the result, append a column of missing values. Python's
`if add_columns:` is false both for `None` and for an empty list. -/
def addNewColumns (base_df override_df : Table) (add_columns : Option (List String)) : Table :=
  match add_columns with
  | none => base_df
  | some cols =>
      if cols.isEmpty then base_df
      else cols.foldl (fun acc col =>
        if override_df.colNames.contains col && !(acc.colNames.contains col) then
          acc.setCol col (List.replicate base_df.nrows Value.na)
        else acc) base_df

/-- Scan override rows in order; return the first for which `match_files`
is true (`none` when no row matches). A `TypeError` raised by the matcher
propagates. -/
def firstMatch (brow : Row) : List Row → Except Unit (Option Row)
  | [] => .ok none
  | orow :: rest =>
      match match_files brow orow with
      | .error e => .error e
      | .ok true => .ok (some orow)
      | .ok false => firstMatch brow rest

/-- Which result column an override column is written to (source lines
130–141): a column in `add_columns` goes to the column of the same name;
otherwise the first base column with a case-insensitively equal name;
otherwise the override column is ignored. -/
def targetColumn (base_colnames : List String) (add_columns : Option (List String)) (col : String) : Option String :=
  if add_columns.isSome && (add_columns.getD []).contains col then some col
  else
    match base_colnames.filter (fun c => lowerStr c == lowerStr col) with
    | [] => none
    | c :: _ => some c

/-- Copy the matched override row into result row `i` (source lines
128–147): for each override column, in order, write its value into the
target column when one exists. -/
def applyOverride (base_colnames override_colnames : List String)
    (add_columns : Option (List String)) (orow : Row) (i : Nat) (result : Table) : Table :=
  override_colnames.foldl (fun acc col =>
    match targetColumn base_colnames add_columns col with
    | some tcol => acc.setCell i tcol (rowGet orow col)
    | none => acc) result

/-- The double loop of `merge_csvs` (source lines 122–150): for each base
row (index `i` counting up) find the first matching override row and, when
found, copy its columns into result row `i`. The `used_override_rows` set
only feeds the unmatched-rows warning printout and has no effect on the
result, so it is not modelled. -/
def mergeLoop (override_rows : List Row) (base_colnames override_colnames : List String)
    (add_columns : Option (List String)) : Nat → List Row → Table → Except Unit Table
  | _, [], acc => .ok acc
  | i, brow :: rest, acc =>
      match firstMatch brow override_rows with
      | .error e => .error e
      | .ok none =>
          mergeLoop override_rows base_colnames override_colnames add_columns (i + 1) rest acc
      | .ok (some orow) =>
          mergeLoop override_rows base_colnames override_colnames add_columns (i + 1) rest
            (applyOverride base_colnames override_colnames add_columns orow i acc)

/-- `merge_csvs` (source lines 94–162). -/
def merge_csvs (base_df override_df : Table) (add_columns : Option (List String)) : Except Unit Table :=
  mergeLoop override_df.rowsList base_df.colNames override_df.colNames add_columns
    0 base_df.rowsList (addNewColumns base_df override_df add_columns)

/-! ## Formula substitution (source lines 183–188)

`re.sub(r'\b' + re.escape(col) + r'\b', f"df['{col}']", expr)` modelled on
character lists. `\b` matches between a word character (`[A-Za-z0-9_]`)
and a non-word character (string edges count as non-word). Because the
pattern is the escaped literal `col`, each match is exactly the text `col`
and the replacement wraps it as `df['col']`. -/

/-- Python's `\w` for the ASCII data handled here. -/
def isWordChar (c : Char) : Bool := c.isAlphanum || c == '_'

def prevIsWord : Option Char → Bool
  | none => false
  | some c => isWordChar c

def headIsWord : List Char → Bool
  | [] => false
  | c :: _ => isWordChar c

def lastIsWord (l : List Char) : Bool :=
  match l.getLast? with
  | none => false
  | some c => isWordChar c

/-- Does `\b pat \b` match at the head of `s`, with `prev` the character
just before the current position (in the original string)? -/
def matchAt (pat : List Char) (prev : Option Char) (s : List Char) : Bool :=
  pat.isPrefixOf s && (prevIsWord prev != headIsWord pat)
    && (lastIsWord pat != headIsWord (s.drop pat.length))

/-- Scan of `re.sub` for a nonempty literal pattern: at each position
either replace a match (continuing after it; boundary lookarounds read the
original characters) or copy one character. Fuel-driven; the wrapper
supplies enough fuel that the `0` case is never reached. -/
def subGoF (pat repl : List Char) : Nat → Option Char → List Char → List Char
  | 0, _, s => s
  | _ + 1, _, [] => []
  | fuel + 1, prev, c :: rest =>
    if matchAt pat prev (c :: rest) then
      repl ++ subGoF pat repl fuel pat.getLast? ((c :: rest).drop pat.length)
    else
      c :: subGoF pat repl fuel (some c) rest

/-- `re.sub` for the empty pattern (`re.escape("") = ""`, so the regex is
`\b\b`): insert the replacement at every word boundary. -/
def subEmptyGo (repl : List Char) : Option Char → List Char → List Char
  | prev, [] => if prevIsWord prev then repl else []
  | prev, c :: rest =>
      if prevIsWord prev != isWordChar c then
        repl ++ c :: subEmptyGo repl (some c) rest
      else
        c :: subEmptyGo repl (some c) rest

/-- `re.sub(r'\b' + re.escape(col) + r'\b', f"df['{col}']", expr)`. -/
def wordBoundSub (col expr : String) : String :=
  let p := col.data
  let repl := ("df['".data) ++ p ++ ("']".data)
  match p with
  | [] => ⟨subEmptyGo repl none expr.data⟩
  | _ :: _ => ⟨subGoF p repl (expr.data.length + 1) none expr.data⟩

/-- Substring test (Python's `col in expr`). -/
def infxOf : List Char → List Char → Bool
  | t, [] => t.isEmpty
  | t, c :: rest => t.isPrefixOf (c :: rest) || infxOf t rest

/-- One iteration of the substitution loop (lines 184–188): substitute a
column name only when it occurs as a substring of the current expression
text. -/
def substituteCol (expr : String) (col : String) : String :=
  if infxOf col.data expr.data then wordBoundSub col expr else expr

/-- The whole substitution loop: fold over `df.columns` in order. -/
def substAll (colNames : List String) (formula : String) : String :=
  colNames.foldl substituteCol formula

/-! ## Python `eval` of the substituted expression (source line 191)

The substituted expressions are arithmetic over float literals, `+`, `-`
(binary and unary), `*`, and `df['col']` references, evaluated elementwise
over columns with scalar broadcasting (pandas semantics). Any leftover
bare identifier is a `NameError`, any malformed text a `SyntaxError`, any
type mismatch a `TypeError`: all are modelled as `none` (they are caught
alike by the `except` clause). Numbers are modelled as rationals. -/

inductive Tok where
  | num (q : Rat)
  | ident (s : String)
  | dfcol (s : String)
  | plus
  | minus
  | star
  deriving DecidableEq, Repr

def digitsToNat (ds : List Char) : Nat :=
  ds.foldl (fun n c => n * 10 + (c.toNat - '0'.toNat)) 0

def ratOfDigits (ds fs : List Char) : Rat :=
  (digitsToNat ds : Rat) + (digitsToNat fs : Rat) / ((10 : Rat) ^ fs.length)

/-- Tokenizer (fuel-driven). Returns `none` on any character sequence the
Python expression grammar would reject at this level. -/
def lexGo : Nat → List Char → Option (List Tok)
  | 0, _ => none
  | _ + 1, [] => some []
  | fuel + 1, c :: rest =>
    if c = ' ' then lexGo fuel rest
    else if c = '+' then (lexGo fuel rest).map (Tok.plus :: ·)
    else if c = '-' then (lexGo fuel rest).map (Tok.minus :: ·)
    else if c = '*' then (lexGo fuel rest).map (Tok.star :: ·)
    else if c.isDigit then
      if ((c :: rest).dropWhile Char.isDigit).head? = some '.' then
        (lexGo fuel ((((c :: rest).dropWhile Char.isDigit).tail).dropWhile Char.isDigit)).map
          (Tok.num (ratOfDigits ((c :: rest).takeWhile Char.isDigit)
            ((((c :: rest).dropWhile Char.isDigit).tail).takeWhile Char.isDigit)) :: ·)
      else
        (lexGo fuel ((c :: rest).dropWhile Char.isDigit)).map
          (Tok.num (ratOfDigits ((c :: rest).takeWhile Char.isDigit) []) :: ·)
    else if isWordChar c then
      if (c :: rest).takeWhile isWordChar = ['d', 'f'] ∧
          ((c :: rest).dropWhile isWordChar).take 2 = ['[', '\''] then
        if (((((c :: rest).dropWhile isWordChar).drop 2).dropWhile (fun ch => ch ≠ '\''))).take 2 =
            ['\'', ']'] then
          (lexGo fuel
              ((((((c :: rest).dropWhile isWordChar).drop 2).dropWhile (fun ch => ch ≠ '\''))).drop 2)).map
            (Tok.dfcol ⟨((((c :: rest).dropWhile isWordChar).drop 2).takeWhile (fun ch => ch ≠ '\''))⟩ :: ·)
        else none
      else
        (lexGo fuel ((c :: rest).dropWhile isWordChar)).map
          (Tok.ident ⟨(c :: rest).takeWhile isWordChar⟩ :: ·)
    else none

def tokenize (s : String) : Option (List Tok) :=
  lexGo (s.data.length + 1) s.data

/-- Abstract syntax of the evaluated expressions. -/
inductive PExpr where
  | num (q : Rat)
  | col (s : String)
  | ident (s : String)
  | neg (e : PExpr)
  | add (a b : PExpr)
  | sub (a b : PExpr)
  | mul (a b : PExpr)
  deriving DecidableEq, Repr

def parseAtom : List Tok → Option (PExpr × List Tok)
  | Tok.num q :: rest => some (.num q, rest)
  | Tok.dfcol s :: rest => some (.col s, rest)
  | Tok.ident s :: rest => some (.ident s, rest)
  | _ => none

/-- Unary `+`/`-` prefixes then an atom (Python `u_expr`). -/
def parseUnary : Nat → List Tok → Option (PExpr × List Tok)
  | 0, _ => none
  | fuel + 1, Tok.minus :: rest => (parseUnary fuel rest).map (fun p => (.neg p.1, p.2))
  | fuel + 1, Tok.plus :: rest => parseUnary fuel rest
  | _ + 1, toks => parseAtom toks

/-- Left-associated `*` chain continuation. -/
def parseTermRest : Nat → PExpr → List Tok → Option (PExpr × List Tok)
  | 0, _, _ => none
  | fuel + 1, acc, Tok.star :: rest => do
      let (u, r) ← parseUnary (fuel + 1) rest
      parseTermRest fuel (.mul acc u) r
  | _ + 1, acc, toks => some (acc, toks)

def parseTerm (fuel : Nat) (toks : List Tok) : Option (PExpr × List Tok) := do
  let (u, r) ← parseUnary fuel toks
  parseTermRest fuel u r

/-- Left-associated `+`/`-` chain continuation. -/
def parseExprRest : Nat → PExpr → List Tok → Option (PExpr × List Tok)
  | 0, _, _ => none
  | fuel + 1, acc, Tok.plus :: rest => do
      let (t, r) ← parseTerm (fuel + 1) rest
      parseExprRest fuel (.add acc t) r
  | fuel + 1, acc, Tok.minus :: rest => do
      let (t, r) ← parseTerm (fuel + 1) rest
      parseExprRest fuel (.sub acc t) r
  | _ + 1, acc, toks => some (acc, toks)

def parseExpr (fuel : Nat) (toks : List Tok) : Option (PExpr × List Tok) := do
  let (t, r) ← parseTerm fuel toks
  parseExprRest fuel t r

/-- Parse a full token list; trailing tokens are a syntax error. -/
def parseFormula (toks : List Tok) : Option PExpr :=
  match parseExpr (toks.length + 1) toks with
  | some (e, []) => some e
  | _ => none

/-- Elementwise negation (`-x`): numbers negate, `NaN` propagates,
strings raise `TypeError`. -/
def vNeg : Value → Option Value
  | .num q => some (.num (-q))
  | .na => some .na
  | .str _ => none

/-- Elementwise `+`: numbers add, two strings concatenate (pandas object
series), `NaN` propagates through numeric addition, every other mix
raises `TypeError`. -/
def vAdd : Value → Value → Option Value
  | .num a, .num b => some (.num (a + b))
  | .str a, .str b => some (.str (a ++ b))
  | .na, .num _ => some .na
  | .num _, .na => some .na
  | .na, .na => some .na
  | _, _ => none

/-- Elementwise `-`. -/
def vSub : Value → Value → Option Value
  | .num a, .num b => some (.num (a - b))
  | .na, .num _ => some .na
  | .num _, .na => some .na
  | .na, .na => some .na
  | _, _ => none

/-- Elementwise `*` (the scalars occurring here are non-integral floats,
so `str * float` raises `TypeError`). -/
def vMul : Value → Value → Option Value
  | .num a, .num b => some (.num (a * b))
  | .na, .num _ => some .na
  | .num _, .na => some .na
  | .na, .na => some .na
  | _, _ => none

/-- Collect elementwise results; the first raised exception aborts the
whole vectorized operation. -/
def seqOpt : List (Option Value) → Option (List Value)
  | [] => some []
  | none :: _ => none
  | some v :: rest => (seqOpt rest).map (v :: ·)

/-- An intermediate value of the evaluation: a float scalar or a column
(pandas Series). -/
inductive EvalV where
  | scalar (q : Rat)
  | series (xs : List Value)
  deriving DecidableEq, Repr

/-- Apply a binary operation with pandas broadcasting. -/
def evBin (op : Value → Value → Option Value) : EvalV → EvalV → Option EvalV
  | .scalar a, .scalar b =>
      match op (.num a) (.num b) with
      | some (.num q) => some (.scalar q)
      | _ => none
  | .scalar a, .series xs => (seqOpt (xs.map (fun v => op (.num a) v))).map .series
  | .series xs, .scalar b => (seqOpt (xs.map (fun v => op v (.num b)))).map .series
  | .series xs, .series ys =>
      if xs.length = ys.length then
        (seqOpt ((xs.zip ys).map (fun p => op p.1 p.2))).map .series
      else none

def evNeg : EvalV → Option EvalV
  | .scalar q => some (.scalar (-q))
  | .series xs => (seqOpt (xs.map vNeg)).map .series

/-- Evaluate the parsed expression against `df`. A bare identifier is an
unsubstituted column name: `NameError`. A `df['c']` reference to an absent
column is a `KeyError` (unreachable from the substitution, which only
references present columns). -/
def evalPE (df : Table) : PExpr → Option EvalV
  | .num q => some (.scalar q)
  | .col s => if df.colNames.contains s then some (.series (df.getCol s)) else none
  | .ident _ => none
  | .neg e => (evalPE df e).bind evNeg
  | .add a b => do evBin vAdd (← evalPE df a) (← evalPE df b)
  | .sub a b => do evBin vSub (← evalPE df a) (← evalPE df b)
  | .mul a b => do evBin vMul (← evalPE df a) (← evalPE df b)

/-- Substitute column references into a formula and evaluate it against
`df` (source lines 183–191), producing the column assigned to the metric:
a series stays as is, a scalar broadcasts over the index. -/
def evalFormula (df : Table) (formula : String) : Option (List Value) :=
  match (tokenize (substAll df.colNames formula)).bind parseFormula with
  | none => none
  | some e =>
      match evalPE df e with
      | some (.series xs) => some xs
      | some (.scalar q) => some (List.replicate df.nrows (.num q))
      | none => none

/-- `QMOOD_METRICS` (source lines 21–28). -/
def QMOOD_METRICS : List String :=
  ["Reusability", "Flexibility", "Understandability", "Functionality",
   "Extendibility", "Effectiveness"]

/-- `QMOOD_FORMULAS` (source lines 33–40); Python dicts preserve
insertion order. -/
def QMOOD_FORMULAS : List (String × String) :=
  [("Reusability", "-0.25 * DCC + 0.25 * lcc + 0.5 * CIS + 0.5 * DSC"),
   ("Flexibility", "0.25 * DAM - 0.25 * DCC + 0.5 * MOA + 0.5 * NOP"),
   ("Understandability", "-0.33 * ANA + 0.33 * DAM - 0.33 * DCC + 0.33 * lcc - 0.33 * NOP - 0.33 * WMC + - 0.33 * DSC"),
   ("Functionality", "0.12 * lcc + 0.22 * NOP + 0.22 * CIS + 0.22 * DSC + 0.22 * NOH"),
   ("Extendibility", "0.5 * ANA - 0.5 * DCC + 0.5 * MFA + 0.5 * NOP"),
   ("Effectiveness", "0.2 * ANA + 0.2 * DAM + 0.2 * MOA + 0.2 * MFA + 0.2 * NOP")]

/-- One iteration of the metric loop (source lines 178–200): on success
write the evaluated column; on failure keep existing values when the
metric column is present, else set the whole column to `0.0`. The
evaluation always reads `df` (the function argument), never the evolving
`result_df`. -/
def recalcStep (df : Table) (result_df : Table) (mf : String × String) : Table :=
  match evalFormula df mf.2 with
  | some vs => result_df.setCol mf.1 vs
  | none =>
      if result_df.colNames.contains mf.1 then result_df
      else result_df.setCol mf.1 (List.replicate df.nrows (Value.num 0))

/-- `recalculate_qmood_metrics` (source lines 165–202). -/
def recalculate_qmood_metrics (df : Table) : Table :=
  QMOOD_FORMULAS.foldl (recalcStep df) df

/-- The column that `recalculate_qmood_metrics` leaves in the output for
a given metric, as a function of the input table alone. -/
def metricOutcome (df : Table) (metric formula : String) : List Value :=
  match evalFormula df formula with
  | some vs => vs
  | none =>
      if df.colNames.contains metric then df.getCol metric
      else List.replicate df.nrows (Value.num 0)

/-! ## Basic table lemmas -/

/-- The per-column update functions of `setCell`/`setCol` preserve keys. -/
theorem keyFun_fst (n : String) (g : String × List Value → List Value) (c : String × List Value) :
    (if c.1 == n then (c.1, g c) else c).1 = c.1 := by
  by_cases h : c.1 = n <;> simp [h]

theorem keyFun_snd (n : String) (g : String × List Value → List Value) (c : String × List Value) :
    (if c.1 == n then (c.1, g c) else c).2 = if c.1 = n then g c else c.2 := by
  by_cases h : c.1 = n <;> simp [h]

theorem keyFun_comp (n m : String) (g : String × List Value → List Value) :
    ((fun c : String × List Value => c.1 == m) ∘
      (fun c : String × List Value => if c.1 == n then (c.1, g c) else c)) =
      (fun c : String × List Value => c.1 == m) := by
  funext c
  by_cases h : c.1 = n <;> simp [h]

theorem find?_key_map (l : List (String × List Value)) (n m : String)
    (g : String × List Value → List Value) :
    (l.map (fun c => if c.1 == n then (c.1, g c) else c)).find? (fun c => c.1 == m) =
      (l.find? (fun c => c.1 == m)).map (fun c => if c.1 == n then (c.1, g c) else c) := by
  rw [List.find?_map, keyFun_comp]

theorem getCol_setCell (t : Table) (i : Nat) (n m : String) (v : Value) :
    (t.setCell i n v).getCol m = if m = n then (t.getCol m).set i v else t.getCol m := by
  unfold Table.setCell Table.getCol
  rw [find?_key_map]
  cases hf : t.cols.find? (fun c => c.1 == m) with
  | none => by_cases h : m = n <;> simp [h]
  | some c =>
      have hc : c.1 = m := by
        have h2 := List.find?_some (p := fun c : String × List Value => c.1 == m) hf
        simpa using h2
      by_cases h : m = n <;> simp [keyFun_snd, hc, h]

theorem colNames_setCell (t : Table) (i : Nat) (n : String) (v : Value) :
    (t.setCell i n v).colNames = t.colNames := by
  unfold Table.setCell Table.colNames
  rw [List.map_map]
  congr 1
  funext c
  simp only [Function.comp_apply]
  exact keyFun_fst n (fun c => c.2.set i v) c

theorem length_getCol_setCell (t : Table) (i : Nat) (n m : String) (v : Value) :
    ((t.setCell i n v).getCol m).length = (t.getCol m).length := by
  rw [getCol_setCell]
  by_cases h : m = n <;> simp [h]

theorem nrows_setCell (t : Table) (i : Nat) (n : String) (v : Value) :
    (t.setCell i n v).nrows = t.nrows := by
  unfold Table.setCell Table.nrows
  cases t.cols with
  | nil => rfl
  | cons c rest =>
      simp only [List.map_cons]
      by_cases h : c.1 = n <;> simp [h]

theorem cell_setCell_ne_row (t : Table) {i j : Nat} (n m : String) (v : Value) (h : j ≠ i) :
    (t.setCell i n v).cell j m = t.cell j m := by
  unfold Table.cell
  rw [getCol_setCell]
  by_cases hmn : m = n
  · simp [hmn, List.getD_eq_getElem?_getD, List.getElem?_set_ne (Ne.symm h)]
  · simp [hmn]

theorem cell_setCell_ne_col (t : Table) (i j : Nat) {n m : String} (v : Value) (h : m ≠ n) :
    (t.setCell i n v).cell j m = t.cell j m := by
  unfold Table.cell
  rw [getCol_setCell]
  simp [h]

theorem cell_setCell_same (t : Table) (i : Nat) (n : String) (v : Value) :
    (t.setCell i n v).cell i n = if i < (t.getCol n).length then v else t.cell i n := by
  unfold Table.cell
  rw [getCol_setCell]
  by_cases h : i < (t.getCol n).length
  · simp [List.getD_eq_getElem?_getD, List.getElem?_set, h]
  · have h2 : (t.getCol n).length ≤ i := Nat.le_of_not_lt h
    simp [List.getD_eq_getElem?_getD, List.getElem?_set, h, List.getElem?_eq_none h2]

/-- `any (· == n)` on the columns holds exactly when `n` is a column name. -/
theorem any_key_iff_mem (t : Table) (n : String) :
    t.cols.any (fun c => c.1 == n) = true ↔ n ∈ t.colNames := by
  rw [List.any_eq_true]
  unfold Table.colNames
  constructor
  · rintro ⟨c, hc, hp⟩
    exact List.mem_map.mpr ⟨c, hc, by simpa using hp⟩
  · intro hm
    obtain ⟨c, hc, rfl⟩ := List.mem_map.mp hm
    exact ⟨c, hc, by simp⟩

theorem getCol_setCol_self (t : Table) (n : String) (vs : List Value) :
    (t.setCol n vs).getCol n = vs := by
  unfold Table.setCol Table.getCol
  by_cases h : t.cols.any (fun c => c.1 == n)
  · simp only [h, if_true]
    rw [find?_key_map]
    obtain ⟨x, hx, hpx⟩ := List.any_eq_true.mp h
    cases hf : t.cols.find? (fun c => c.1 == n) with
    | none =>
        rw [List.find?_eq_none] at hf
        exact absurd hpx (hf x hx)
    | some c =>
        have hc : c.1 = n := by
          have h2 := List.find?_some (p := fun c : String × List Value => c.1 == n) hf
          simpa using h2
        simp [hc]
  · rw [Bool.not_eq_true] at h
    simp only [h, Bool.false_eq_true, if_false]
    rw [List.find?_append]
    have hnone : t.cols.find? (fun c => c.1 == n) = none := by
      rw [List.find?_eq_none]
      intro x hx hpx
      rw [← Bool.not_eq_true] at h
      exact h (List.any_eq_true.mpr ⟨x, hx, hpx⟩)
    simp [hnone, List.find?]

theorem getCol_setCol_ne (t : Table) {n m : String} (vs : List Value) (h : m ≠ n) :
    (t.setCol n vs).getCol m = t.getCol m := by
  unfold Table.setCol Table.getCol
  by_cases ha : t.cols.any (fun c => c.1 == n)
  · simp only [ha, if_true]
    rw [find?_key_map]
    cases hf : t.cols.find? (fun c => c.1 == m) with
    | none => simp
    | some c =>
        have hc : c.1 = m := by
          have h2 := List.find?_some (p := fun c : String × List Value => c.1 == m) hf
          simpa using h2
        have hne : ¬ c.1 = n := by rw [hc]; exact h
        simp [hne]
  · rw [Bool.not_eq_true] at ha
    simp only [ha, Bool.false_eq_true, if_false]
    rw [List.find?_append]
    have hb : (n == m) = false := by
      simp [Ne.symm h]
    have h2 : List.find? (fun c : String × List Value => c.1 == m) [(n, vs)] = none := by
      simp [List.find?, hb]
    simp [h2]

theorem colNames_setCol (t : Table) (n : String) (vs : List Value) :
    (t.setCol n vs).colNames =
      if n ∈ t.colNames then t.colNames else t.colNames ++ [n] := by
  unfold Table.setCol
  by_cases h : t.cols.any (fun c => c.1 == n)
  · have hm : n ∈ t.colNames := (any_key_iff_mem t n).mp h
    simp only [h, if_true, hm]
    show (Table.mk _).colNames = t.colNames
    unfold Table.colNames
    rw [List.map_map]
    congr 1
    funext c
    simp only [Function.comp_apply]
    exact keyFun_fst n (fun _ => vs) c
  · have hm : n ∉ t.colNames := fun hmm => h ((any_key_iff_mem t n).mpr hmm)
    rw [Bool.not_eq_true] at h
    simp only [h, Bool.false_eq_true, if_false, hm]
    show (Table.mk _).colNames = t.colNames ++ [n]
    unfold Table.colNames
    simp

theorem mem_colNames_setCol (t : Table) (n m : String) (vs : List Value) :
    m ∈ (t.setCol n vs).colNames ↔ m ∈ t.colNames ∨ m = n := by
  rw [colNames_setCol]
  by_cases h : n ∈ t.colNames
  · simp only [h, if_true]
    constructor
    · exact fun hm => Or.inl hm
    · rintro (hm | rfl) <;> [exact hm; exact h]
  · simp [h]

theorem length_getCol_setCol (t : Table) (n m : String) (vs : List Value) :
    ((t.setCol n vs).getCol m).length =
      if m = n then vs.length else (t.getCol m).length := by
  by_cases h : m = n
  · subst h; rw [getCol_setCol_self]; simp
  · rw [getCol_setCol_ne t vs h]; simp [h]

/-! ## Shape and frame lemmas for the merge engine -/

/-- Tables with the same column names and column lengths. -/
def sameShape (t t' : Table) : Prop :=
  t.colNames = t'.colNames ∧ ∀ n, (t.getCol n).length = (t'.getCol n).length

theorem sameShape_refl (t : Table) : sameShape t t :=
  ⟨rfl, fun _ => rfl⟩

theorem sameShape_trans {a b c : Table} (h1 : sameShape a b) (h2 : sameShape b c) :
    sameShape a c :=
  ⟨h1.1.trans h2.1, fun n => (h1.2 n).trans (h2.2 n)⟩

theorem sameShape_symm {a b : Table} (h : sameShape a b) : sameShape b a :=
  ⟨h.1.symm, fun n => (h.2 n).symm⟩

theorem sameShape_setCell (t : Table) (i : Nat) (n : String) (v : Value) :
    sameShape (t.setCell i n v) t :=
  ⟨colNames_setCell t i n v, fun m => length_getCol_setCell t i n m v⟩

theorem applyOverride_sameShape (b o : List String) (ac : Option (List String))
    (orow : Row) (i : Nat) (acc : Table) :
    sameShape (applyOverride b o ac orow i acc) acc := by
  unfold applyOverride
  induction o generalizing acc with
  | nil => exact sameShape_refl acc
  | cons col rest ih =>
      simp only [List.foldl_cons]
      cases ht : targetColumn b ac col with
      | none => simp only [ht]; exact ih acc
      | some tcol =>
          simp only [ht]
          exact sameShape_trans (ih _) (sameShape_setCell acc i tcol (rowGet orow col))

theorem applyOverride_cell_ne_row (b o : List String) (ac : Option (List String))
    (orow : Row) {i j : Nat} (acc : Table) (m : String) (h : j ≠ i) :
    (applyOverride b o ac orow i acc).cell j m = acc.cell j m := by
  unfold applyOverride
  induction o generalizing acc with
  | nil => rfl
  | cons col rest ih =>
      simp only [List.foldl_cons]
      cases ht : targetColumn b ac col with
      | none => simp only [ht]; exact ih acc
      | some tcol =>
          simp only [ht]
          rw [ih]
          exact cell_setCell_ne_row acc tcol m (rowGet orow col) h

theorem applyOverride_agree (b o : List String) (ac : Option (List String))
    (orow : Row) (i : Nat) :
    ∀ (acc acc' : Table), sameShape acc acc' → (∀ m, acc.cell i m = acc'.cell i m) →
    ∀ m, (applyOverride b o ac orow i acc).cell i m =
      (applyOverride b o ac orow i acc').cell i m := by
  induction o with
  | nil => intro acc acc' _ hag m; exact hag m
  | cons col rest ih =>
      intro acc acc' hsh hag m
      unfold applyOverride
      simp only [List.foldl_cons]
      cases ht : targetColumn b ac col with
      | none =>
          simp only [ht]
          exact ih acc acc' hsh hag m
      | some tcol =>
          simp only [ht]
          show (applyOverride b rest ac orow i (acc.setCell i tcol (rowGet orow col))).cell i m =
            (applyOverride b rest ac orow i (acc'.setCell i tcol (rowGet orow col))).cell i m
          refine ih _ _ ?_ ?_ m
          · exact sameShape_trans (sameShape_setCell acc i tcol _)
              (sameShape_trans hsh (sameShape_symm (sameShape_setCell acc' i tcol _)))
          · intro m'
            by_cases hc : m' = tcol
            · subst hc
              rw [cell_setCell_same, cell_setCell_same, hsh.2 m', hag m']
            · rw [cell_setCell_ne_col acc i i _ hc, cell_setCell_ne_col acc' i i _ hc]
              exact hag m'

/-- What the override-copy loop leaves in cell `(i, n)`: a fold over the
override columns, where the last column targeting `n` wins. -/
theorem applyOverride_cell_run (b : List String) (ac : Option (List String)) (orow : Row)
    (i : Nat) (n : String) :
    ∀ (o : List String) (acc : Table),
    (applyOverride b o ac orow i acc).cell i n =
      o.foldl (fun w col =>
        match targetColumn b ac col with
        | some tcol => if tcol = n ∧ i < (acc.getCol n).length then rowGet orow col else w
        | none => w) (acc.cell i n) := by
  intro o
  induction o with
  | nil => intro acc; rfl
  | cons col rest ih =>
      intro acc
      unfold applyOverride
      simp only [List.foldl_cons]
      cases ht : targetColumn b ac col with
      | none =>
          simp only [ht]
          exact ih acc
      | some tcol =>
          simp only [ht]
          show (applyOverride b rest ac orow i (acc.setCell i tcol (rowGet orow col))).cell i n = _
          rw [ih]
          have hlen : ((acc.setCell i tcol (rowGet orow col)).getCol n).length =
              (acc.getCol n).length := length_getCol_setCell acc i tcol n _
          simp only [hlen]
          congr 1
          by_cases hc : tcol = n
          · subst hc
            rw [cell_setCell_same]
            by_cases hl : i < (acc.getCol tcol).length <;> simp [hl]
          · rw [cell_setCell_ne_col acc i i _ (fun hh => hc hh.symm)]
            simp [hc]

/-- Rows below the running index are never touched by the merge loop. -/
theorem mergeLoop_frame (orows : List Row) (bks oks : List String) (ac : Option (List String)) :
    ∀ (brows : List Row) (k : Nat) (acc t : Table),
      mergeLoop orows bks oks ac k brows acc = .ok t →
      ∀ i, i < k → ∀ m, t.cell i m = acc.cell i m := by
  intro brows
  induction brows with
  | nil =>
      intro k acc t hm i hi m
      unfold mergeLoop at hm
      cases hm
      rfl
  | cons brow rest ih =>
      intro k acc t hm i hi m
      unfold mergeLoop at hm
      split at hm
      · cases hm
      · exact ih (k + 1) acc t hm i (Nat.lt_succ_of_lt hi) m
      · rw [ih (k + 1) _ t hm i (Nat.lt_succ_of_lt hi) m]
        exact applyOverride_cell_ne_row bks oks ac _ _ m (Nat.ne_of_lt hi)

theorem mergeLoop_sameShape (orows : List Row) (bks oks : List String) (ac : Option (List String)) :
    ∀ (brows : List Row) (k : Nat) (acc t : Table),
      mergeLoop orows bks oks ac k brows acc = .ok t → sameShape t acc := by
  intro brows
  induction brows with
  | nil =>
      intro k acc t hm
      unfold mergeLoop at hm
      cases hm
      exact sameShape_refl acc
  | cons brow rest ih =>
      intro k acc t hm
      unfold mergeLoop at hm
      split at hm
      · cases hm
      · exact ih (k + 1) acc t hm
      · exact sameShape_trans (ih (k + 1) _ t hm) (applyOverride_sameShape bks oks ac _ k acc)

/-- Characterization of one output row of the merge loop: it is fully
determined by the first matching override row for the corresponding base
row, applied to the accumulator the loop started from. -/
theorem mergeLoop_cell (orows : List Row) (bks oks : List String) (ac : Option (List String)) :
    ∀ (brows : List Row) (k : Nat) (acc t : Table),
      mergeLoop orows bks oks ac k brows acc = .ok t →
      ∀ (j : Nat) (hj : j < brows.length) (mo : Option Row),
        firstMatch (brows.get ⟨j, hj⟩) orows = .ok mo →
        ∀ n, t.cell (k + j) n =
          match mo with
          | none => acc.cell (k + j) n
          | some orow => (applyOverride bks oks ac orow (k + j) acc).cell (k + j) n := by
  intro brows
  induction brows with
  | nil =>
      intro k acc t _ j hj
      exact absurd hj (Nat.not_lt_zero j)
  | cons brow rest ih =>
      intro k acc t hm j hj mo hfm n
      unfold mergeLoop at hm
      split at hm
      · cases hm
      · -- no match for the head base row
        rename_i heq
        cases j with
        | zero =>
            simp only [List.get] at hfm
            rw [heq] at hfm
            cases hfm
            simp only [Nat.add_zero]
            exact mergeLoop_frame orows bks oks ac rest (k + 1) acc t hm k (Nat.lt_succ_self k) n
        | succ j' =>
            have hj' : j' < rest.length := Nat.lt_of_succ_lt_succ hj
            have hget : (brow :: rest).get ⟨j' + 1, hj⟩ = rest.get ⟨j', hj'⟩ := rfl
            rw [hget] at hfm
            have hkj : k + (j' + 1) = (k + 1) + j' := by omega
            rw [hkj]
            exact ih (k + 1) acc t hm j' hj' mo hfm n
      · -- the head base row matched some override row
        rename_i orow0 heq
        cases j with
        | zero =>
            simp only [List.get] at hfm
            rw [heq] at hfm
            cases hfm
            simp only [Nat.add_zero]
            exact mergeLoop_frame orows bks oks ac rest (k + 1) _ t hm k (Nat.lt_succ_self k) n
        | succ j' =>
            have hj' : j' < rest.length := Nat.lt_of_succ_lt_succ hj
            have hget : (brow :: rest).get ⟨j' + 1, hj⟩ = rest.get ⟨j', hj'⟩ := rfl
            rw [hget] at hfm
            have hkj : k + (j' + 1) = (k + 1) + j' := by omega
            rw [hkj]
            have hrec := ih (k + 1) _ t hm j' hj' mo hfm n
            rw [hrec]
            have hne : (k + 1) + j' ≠ k := by omega
            cases mo with
            | none =>
                exact applyOverride_cell_ne_row bks oks ac orow0 acc n hne
            | some orow =>
                exact applyOverride_agree bks oks ac orow ((k + 1) + j') _ acc
                  (applyOverride_sameShape bks oks ac orow0 k acc)
                  (fun m => applyOverride_cell_ne_row bks oks ac orow0 acc m hne) n

/-! ## Lemmas about the column-adding preamble -/

theorem getCol_eq_nil_of_not_mem (t : Table) {n : String} (h : n ∉ t.colNames) :
    t.getCol n = [] := by
  unfold Table.getCol
  have hf : t.cols.find? (fun c => c.1 == n) = none := by
    rw [List.find?_eq_none]
    intro x hx hp
    exact h ((any_key_iff_mem t n).mp (List.any_eq_true.mpr ⟨x, hx, hp⟩))
  simp [hf]

theorem cell_eq_na_of_not_mem (t : Table) {n : String} (i : Nat) (h : n ∉ t.colNames) :
    t.cell i n = Value.na := by
  unfold Table.cell
  rw [getCol_eq_nil_of_not_mem t h]
  simp

theorem getCol_append_ne (l : List (String × List Value)) (n m : String) (vs : List Value)
    (h : m ≠ n) :
    (Table.mk (l ++ [(n, vs)])).getCol m = (Table.mk l).getCol m := by
  unfold Table.getCol
  rw [List.find?_append]
  have hb : (n == m) = false := by simp [Ne.symm h]
  have h2 : List.find? (fun c : String × List Value => c.1 == m) [(n, vs)] = none := by
    simp [List.find?, hb]
  simp [h2]

theorem getCol_append_self (l : List (String × List Value)) (n : String) (vs : List Value)
    (h : n ∉ (Table.mk l).colNames) :
    (Table.mk (l ++ [(n, vs)])).getCol n = vs := by
  unfold Table.getCol
  rw [List.find?_append]
  have h1 : List.find? (fun c : String × List Value => c.1 == n) l = none := by
    rw [List.find?_eq_none]
    intro x hx hp
    exact h ((any_key_iff_mem (Table.mk l) n).mp (List.any_eq_true.mpr ⟨x, hx, hp⟩))
  simp [h1, List.find?]

theorem setCol_append (t : Table) {n : String} (vs : List Value) (h : n ∉ t.colNames) :
    t.setCol n vs = Table.mk (t.cols ++ [(n, vs)]) := by
  unfold Table.setCol
  have ha : t.cols.any (fun c => c.1 == n) = false := by
    rw [← Bool.not_eq_true]
    exact fun hx => h ((any_key_iff_mem t n).mp hx)
  simp [ha]

/-- Invariant carried through the `add_columns` preamble: base columns
unchanged, every non-base column reads as `na` in every row, all columns
have the base length, row count and name-list extension preserved. -/
def addInv (b acc : Table) : Prop :=
  (∀ n ∈ b.colNames, acc.getCol n = b.getCol n) ∧
  (∀ n, n ∉ b.colNames → ∀ i, acc.cell i n = Value.na) ∧
  (∀ c ∈ acc.cols, c.2.length = b.nrows) ∧
  acc.nrows = b.nrows ∧
  (∃ extra, acc.colNames = b.colNames ++ extra)

theorem addFold_inv (b o : Table) :
    ∀ (cols : List String) (acc : Table), addInv b acc →
    addInv b (cols.foldl (fun acc col =>
      if o.colNames.contains col && !(acc.colNames.contains col) then
        acc.setCol col (List.replicate b.nrows Value.na) else acc) acc) := by
  intro cols
  induction cols with
  | nil => intro acc h; exact h
  | cons col rest ih =>
      intro acc h
      simp only [List.foldl_cons]
      by_cases hc : (o.colNames.contains col && !(acc.colNames.contains col)) = true
      · simp only [hc, if_true]
        apply ih
        have hcol : col ∉ acc.colNames := by
          have h2 := (Bool.and_eq_true _ _).mp hc |>.2
          simp only [Bool.not_eq_true'] at h2
          simpa using h2
        rw [setCol_append acc _ hcol]
        obtain ⟨h1, h2, h3, h4, extra, h5⟩ := h
        refine ⟨?_, ?_, ?_, ?_, ?_⟩
        · intro n hn
          have hne : n ≠ col := by
            intro hh
            exact hcol (hh ▸ (h5 ▸ List.mem_append_left _ hn))
          rw [getCol_append_ne _ _ _ _ hne]
          exact h1 n hn
        · intro n hn i
          by_cases hne : n = col
          · subst hne
            unfold Table.cell
            rw [getCol_append_self _ _ _ hcol]
            rw [List.getD_eq_getElem?_getD, List.getElem?_replicate]
            by_cases hi : i < b.nrows <;> simp [hi]
          · unfold Table.cell
            rw [getCol_append_ne _ _ _ _ hne]
            exact h2 n hn i
        · intro c hc2
          rcases List.mem_append.mp hc2 with hcl | hcr
          · exact h3 c hcl
          · rw [List.mem_singleton.mp hcr]
            simp
        · cases hacc : acc.cols with
          | nil => simp [hacc, Table.nrows]
          | cons c0 rest0 =>
              have h4' : c0.2.length = b.nrows := by
                have := h4
                unfold Table.nrows at this
                rw [hacc] at this
                exact this
              simp [hacc, Table.nrows, h4']
        · refine ⟨extra ++ [col], ?_⟩
          show (List.map Prod.fst (acc.cols ++ [(col, _)])) = b.colNames ++ (extra ++ [col])
          rw [List.map_append]
          show acc.colNames ++ [col] = b.colNames ++ (extra ++ [col])
          rw [h5, List.append_assoc]
      · simp only [Bool.not_eq_true] at hc
        simp only [hc, Bool.false_eq_true, if_false]
        exact ih acc h

theorem addNewColumns_inv (b o : Table) (ac : Option (List String))
    (hwf : ∀ c ∈ b.cols, c.2.length = b.nrows) :
    addInv b (addNewColumns b o ac) := by
  have hbase : addInv b b :=
    ⟨fun n _ => rfl, fun n hn i => cell_eq_na_of_not_mem b i hn, hwf, rfl, ⟨[], by simp⟩⟩
  unfold addNewColumns
  cases ac with
  | none => exact hbase
  | some cols =>
      by_cases he : cols.isEmpty
      · simp only [he, if_true]
        exact hbase
      · simp only [Bool.not_eq_true] at he
        simp only [he, Bool.false_eq_true, if_false]
        exact addFold_inv b o cols b hbase

/-! ## Length and row-count preservation through the merge loop -/

theorem allColsLen_setCell {t : Table} {N : Nat} (h : ∀ c ∈ t.cols, c.2.length = N)
    (i : Nat) (n : String) (v : Value) :
    ∀ c ∈ (t.setCell i n v).cols, c.2.length = N := by
  intro c hc
  unfold Table.setCell at hc
  obtain ⟨c0, hc0, rfl⟩ := List.mem_map.mp hc
  by_cases hcn : c0.1 = n <;> simp [hcn, h c0 hc0]

theorem allColsLen_applyOverride {N : Nat} (b o : List String) (ac : Option (List String))
    (orow : Row) (i : Nat) :
    ∀ (acc : Table), (∀ c ∈ acc.cols, c.2.length = N) →
    ∀ c ∈ (applyOverride b o ac orow i acc).cols, c.2.length = N := by
  induction o with
  | nil => intro acc h; exact h
  | cons col rest ih =>
      intro acc h
      unfold applyOverride
      simp only [List.foldl_cons]
      cases ht : targetColumn b ac col with
      | none => simp only [ht]; exact ih acc h
      | some tcol =>
          simp only [ht]
          exact ih _ (allColsLen_setCell h i tcol _)

theorem nrows_applyOverride (b o : List String) (ac : Option (List String))
    (orow : Row) (i : Nat) :
    ∀ (acc : Table), (applyOverride b o ac orow i acc).nrows = acc.nrows := by
  induction o with
  | nil => intro acc; rfl
  | cons col rest ih =>
      intro acc
      unfold applyOverride
      simp only [List.foldl_cons]
      cases ht : targetColumn b ac col with
      | none => simp only [ht]; exact ih acc
      | some tcol =>
          simp only [ht]
          show (applyOverride b rest ac orow i (acc.setCell i tcol (rowGet orow col))).nrows =
            acc.nrows
          rw [ih]
          exact nrows_setCell acc i tcol _

theorem mergeLoop_allColsLen {N : Nat} (orows : List Row) (bks oks : List String)
    (ac : Option (List String)) :
    ∀ (brows : List Row) (k : Nat) (acc t : Table),
      mergeLoop orows bks oks ac k brows acc = .ok t →
      (∀ c ∈ acc.cols, c.2.length = N) → ∀ c ∈ t.cols, c.2.length = N := by
  intro brows
  induction brows with
  | nil =>
      intro k acc t hm h
      unfold mergeLoop at hm
      cases hm
      exact h
  | cons brow rest ih =>
      intro k acc t hm h
      unfold mergeLoop at hm
      split at hm
      · cases hm
      · exact ih (k + 1) acc t hm h
      · exact ih (k + 1) _ t hm (allColsLen_applyOverride bks oks ac _ k acc h)

theorem mergeLoop_nrows (orows : List Row) (bks oks : List String)
    (ac : Option (List String)) :
    ∀ (brows : List Row) (k : Nat) (acc t : Table),
      mergeLoop orows bks oks ac k brows acc = .ok t → t.nrows = acc.nrows := by
  intro brows
  induction brows with
  | nil =>
      intro k acc t hm
      unfold mergeLoop at hm
      cases hm
      rfl
  | cons brow rest ih =>
      intro k acc t hm
      unfold mergeLoop at hm
      split at hm
      · cases hm
      · exact ih (k + 1) acc t hm
      · rw [ih (k + 1) _ t hm]
        exact nrows_applyOverride bks oks ac _ k acc

theorem rowsList_length (t : Table) : t.rowsList.length = t.nrows := by
  simp [Table.rowsList]

theorem rowsList_get (t : Table) (j : Nat) (hj : j < t.rowsList.length) :
    t.rowsList.get ⟨j, hj⟩ = t.row j := by
  simp [Table.rowsList]

/-- Row-level characterization of `merge_csvs`: output row `i` is obtained
from the add-columns preamble table by applying the first matching
override row for base row `i` (and nothing else). -/
theorem merge_cell_char (b o : Table) (ac : Option (List String)) (t : Table)
    (hm : merge_csvs b o ac = .ok t) (i : Nat) (hi : i < b.nrows) (mo : Option Row) :
    firstMatch (b.row i) o.rowsList = .ok mo →
    ∀ n, t.cell i n =
      match mo with
      | none => (addNewColumns b o ac).cell i n
      | some orow =>
          (applyOverride b.colNames o.colNames ac orow i (addNewColumns b o ac)).cell i n := by
  intro hfm n
  unfold merge_csvs at hm
  have hj : i < b.rowsList.length := by rw [rowsList_length]; exact hi
  have hfm' : b.rowsList.get ⟨i, hj⟩ = b.row i := rowsList_get b i hj
  have hres := mergeLoop_cell o.rowsList b.colNames o.colNames ac b.rowsList 0 _ t hm i hj mo
    (by rw [hfm']; exact hfm) n
  simpa using hres

/-- When none of the override rows matches, `firstMatch` returns `none`. -/
theorem firstMatch_none (brow : Row) :
    ∀ orows : List Row, (∀ orow ∈ orows, match_files brow orow = .ok false) →
    firstMatch brow orows = .ok none := by
  intro orows
  induction orows with
  | nil => intro _; rfl
  | cons orow rest ih =>
      intro h
      unfold firstMatch
      rw [h orow (List.mem_cons_self _ _)]
      exact ih (fun r hr => h r (List.mem_cons_of_mem _ hr))

/-- The first matching row after a run of non-matching rows is the one
`firstMatch` returns. -/
theorem firstMatch_first (brow : Row) (r : Row) (post : List Row) :
    ∀ pre : List Row, (∀ orow ∈ pre, match_files brow orow = .ok false) →
    match_files brow r = .ok true →
    firstMatch brow (pre ++ r :: post) = .ok (some r) := by
  intro pre
  induction pre with
  | nil =>
      intro _ hr
      rw [List.nil_append]
      unfold firstMatch
      rw [hr]
  | cons p rest ih =>
      intro h hr
      rw [List.cons_append]
      unfold firstMatch
      rw [h p (List.mem_cons_self _ _)]
      exact ih (fun q hq => h q (List.mem_cons_of_mem _ hq)) hr

/-! ## Helper for C4: a uniquely-targeting override column determines the cell -/

theorem fold_stable_target (b : List String) (ac : Option (List String)) (orow : Row)
    (i : Nat) (n : String) (L : Nat) (col : String) :
    ∀ o : List String, (∀ c ∈ o, targetColumn b ac c = some n → c = col) →
    o.foldl (fun w c => match targetColumn b ac c with
      | some tcol => if tcol = n ∧ i < L then rowGet orow c else w
      | none => w) (rowGet orow col) = rowGet orow col := by
  intro o
  induction o with
  | nil => intro _; rfl
  | cons c rest ih =>
      intro h
      simp only [List.foldl_cons]
      cases ht : targetColumn b ac c with
      | none =>
          simp only [ht]
          exact ih (fun q hq => h q (List.mem_cons_of_mem _ hq))
      | some tcol =>
          simp only [ht]
          by_cases hcn : tcol = n ∧ i < L
          · have hcc : c = col := h c (List.mem_cons_self _ _) (by rw [ht, hcn.1])
            subst hcc
            rw [if_pos hcn]
            exact ih (fun q hq => h q (List.mem_cons_of_mem _ hq))
          · rw [if_neg hcn]
            exact ih (fun q hq => h q (List.mem_cons_of_mem _ hq))

theorem foldl_target_unique (b : List String) (ac : Option (List String)) (orow : Row)
    (i : Nat) (n : String) (L : Nat) (hiL : i < L) (col : String) :
    ∀ (o : List String) (w : Value), col ∈ o → targetColumn b ac col = some n →
      (∀ c ∈ o, targetColumn b ac c = some n → c = col) →
      o.foldl (fun w c => match targetColumn b ac c with
        | some tcol => if tcol = n ∧ i < L then rowGet orow c else w
        | none => w) w = rowGet orow col := by
  intro o
  induction o with
  | nil => intro w h; cases h
  | cons c rest ih =>
      intro w hmem htc huniq
      simp only [List.foldl_cons]
      by_cases hc : c = col
      · subst hc
        simp only [htc]
        rw [if_pos (And.intro trivial hiL)]
        exact fold_stable_target b ac orow i n L c rest
          (fun q hq hqt => huniq q (List.mem_cons_of_mem _ hq) hqt)
      · have hmem' : col ∈ rest := by
          rcases List.mem_cons.mp hmem with h | h
          · exact absurd h.symm hc
          · exact h
        cases ht : targetColumn b ac c with
        | none =>
            simp only [ht]
            exact ih _ hmem' htc (fun q hq => huniq q (List.mem_cons_of_mem _ hq))
        | some tcol =>
            simp only [ht]
            have htn : ¬(tcol = n ∧ i < L) := by
              rintro ⟨rfl, _⟩
              exact hc (huniq c (List.mem_cons_self _ _) ht)
            rw [if_neg htn]
            exact ih _ hmem' htc (fun q hq => huniq q (List.mem_cons_of_mem _ hq))

/-! ## Claim theorems for the merge engine -/

/-- Witness tables used to instantiate the merge theorems. -/
def wB : Table := ⟨[("ClassNames", [Value.str "A"]), ("DCC", [Value.num 1])]⟩

def wO : Table := ⟨[("class", [Value.str "B"]), ("NEW", [Value.num 5])]⟩

/-- C1: for every base table `B`, override table `O` and add-column list
`L`, a table returned by `merge(B, O, L)` has exactly `len(B)` rows: its
row count equals `B`'s, and every one of its columns (base and added
alike) has length `len(B)`, regardless of how many override rows matched.
Rows are identified positionally in this model and the merge only ever
writes the cell of the base row being processed (`merge_cell_char`), so
base row order is preserved by construction. -/
theorem claim_C1 (B O : Table) (L : Option (List String)) (hwf : B.WF) (t : Table)
    (hm : merge_csvs B O L = .ok t) :
    t.nrows = B.nrows ∧ (∀ c ∈ t.cols, c.2.length = B.nrows) ∧
    (∃ extra, t.colNames = B.colNames ++ extra) := by
  obtain ⟨_, _, h3, h4, extra, h5⟩ := addNewColumns_inv B O L hwf.1
  unfold merge_csvs at hm
  refine ⟨?_, ?_, ?_⟩
  · rw [mergeLoop_nrows _ _ _ _ _ _ _ _ hm, h4]
  · exact mergeLoop_allColsLen _ _ _ _ _ _ _ _ hm h3
  · exact ⟨extra, by rw [(mergeLoop_sameShape _ _ _ _ _ _ _ _ hm).1, h5]⟩

theorem claim_C1_witness :
    wB.WF ∧ merge_csvs wB wO (some ["NEW"]) =
      .ok ⟨[("ClassNames", [Value.str "A"]), ("DCC", [Value.num 1]), ("NEW", [Value.na])]⟩ ∧
    ((⟨[("ClassNames", [Value.str "A"]), ("DCC", [Value.num 1]),
        ("NEW", [Value.na])]⟩ : Table).nrows = wB.nrows ∧
      (∀ c ∈ (⟨[("ClassNames", [Value.str "A"]), ("DCC", [Value.num 1]),
        ("NEW", [Value.na])]⟩ : Table).cols, c.2.length = wB.nrows) ∧
      (∃ extra, (⟨[("ClassNames", [Value.str "A"]), ("DCC", [Value.num 1]),
        ("NEW", [Value.na])]⟩ : Table).colNames = wB.colNames ++ extra)) :=
  ⟨by decide, by rfl, claim_C1 wB wO (some ["NEW"]) (by decide) _ (by rfl)⟩

/-- Rows used by the C2 counterexample: rule 1 is applicable with unequal
values, but the file-path rule matches. -/
def c2row1 : Row := [("ClassNames", Value.str "A"), ("Name", Value.str "Foo.java")]

def c2row2 : Row := [("class", Value.str "B"), ("file", Value.str "foo.java")]

/-- C2 as stated is false: here the base row has a "ClassNames" field and
the override row a "class" field with unequal (case-sensitively compared)
values, yet `match_files` returns true, because the code falls through to
the file-path rule instead of reporting no match. -/
theorem claim_C2_counterexample :
    rowHas c2row1 "ClassNames" = true ∧ rowHas c2row2 "class" = true ∧
    pyEq (rowGet c2row1 "ClassNames") (rowGet c2row2 "class") = false ∧
    match_files c2row1 c2row2 = .ok true := by
  refine ⟨by decide, by decide, by decide, by rfl⟩

/-- C2 amended: when both rule-1 fields are present, equal values match
immediately (the file rule is not consulted); unequal values do NOT mean
no match — the matcher falls through and returns whatever the file-path
rule decides. -/
theorem claim_C2_amended (row1 row2 : Row)
    (h1 : rowHas row1 "ClassNames" = true) (h2 : rowHas row2 "class" = true) :
    (pyEq (rowGet row1 "ClassNames") (rowGet row2 "class") = true →
      match_files row1 row2 = .ok true) ∧
    (pyEq (rowGet row1 "ClassNames") (rowGet row2 "class") = false →
      match_files row1 row2 = fileRuleMatch row1 row2) := by
  unfold match_files
  rw [h1, h2]
  constructor
  · intro hp
    simp [hp]
  · intro hp
    simp [hp]

theorem claim_C2_amended_witness :
    rowHas c2row1 "ClassNames" = true ∧ rowHas c2row2 "class" = true ∧
    ((pyEq (rowGet c2row1 "ClassNames") (rowGet c2row2 "class") = true →
      match_files c2row1 c2row2 = .ok true) ∧
    (pyEq (rowGet c2row1 "ClassNames") (rowGet c2row2 "class") = false →
      match_files c2row1 c2row2 = fileRuleMatch c2row1 c2row2)) :=
  ⟨by decide, by decide, claim_C2_amended c2row1 c2row2 (by decide) (by decide)⟩

/-- C3: for every base row `i`, the merge uses exactly the first override
row `r` the matcher accepts: when all rows of `pre` fail to match and `r`
matches, output row `i` is `r` applied to the add-columns preamble table,
independent of the later override rows `post` (which do not appear in the
conclusion at all — scanning stops at `r`). -/
theorem claim_C3 (B O : Table) (L : Option (List String)) (t : Table)
    (hm : merge_csvs B O L = .ok t) (i : Nat) (hi : i < B.nrows)
    (pre post : List Row) (r : Row)
    (hsplit : O.rowsList = pre ++ r :: post)
    (hpre : ∀ orow ∈ pre, match_files (B.row i) orow = .ok false)
    (hr : match_files (B.row i) r = .ok true) :
    ∀ n, t.cell i n =
      (applyOverride B.colNames O.colNames L r i (addNewColumns B O L)).cell i n := by
  have hfm : firstMatch (B.row i) O.rowsList = .ok (some r) := by
    rw [hsplit]
    exact firstMatch_first (B.row i) r post pre hpre hr
  intro n
  exact merge_cell_char B O L t hm i hi (some r) hfm n

/-- Witness tables for C3: the second override row is the first match for
the single base row; the third also matches but has no effect. -/
def wB3 : Table := ⟨[("ClassNames", [Value.str "X"]), ("DCC", [Value.num 1])]⟩

def wO3 : Table :=
  ⟨[("class", [Value.str "Y", Value.str "X", Value.str "X"]),
    ("DCC", [Value.num 5, Value.num 6, Value.num 7])]⟩

theorem claim_C3_witness :
    merge_csvs wB3 wO3 none =
      .ok ⟨[("ClassNames", [Value.str "X"]), ("DCC", [Value.num 6])]⟩ ∧
    0 < wB3.nrows ∧
    wO3.rowsList = [wO3.row 0] ++ wO3.row 1 :: [wO3.row 2] ∧
    (∀ orow ∈ [wO3.row 0], match_files (wB3.row 0) orow = .ok false) ∧
    match_files (wB3.row 0) (wO3.row 1) = .ok true ∧
    (∀ n, (⟨[("ClassNames", [Value.str "X"]), ("DCC", [Value.num 6])]⟩ : Table).cell 0 n =
      (applyOverride wB3.colNames wO3.colNames none (wO3.row 1) 0
        (addNewColumns wB3 wO3 none)).cell 0 n) :=
  ⟨by rfl, by decide, by rfl, by decide, by rfl,
    claim_C3 wB3 wO3 none _ (by rfl) 0 (by decide) [wO3.row 0] [wO3.row 2] (wO3.row 1)
      (by rfl) (by decide) (by rfl)⟩

/-- C4: matching is base-driven and non-exclusive. If two distinct base
rows both have the same override row `orow` as their first match, each of
their output rows is `orow` applied at that row (first two conjuncts);
in particular, for a column `n` written from exactly one override column
`col`, both rows receive `orow`'s value for `col` (third conjunct). The
`used_override_rows` set of the source only feeds a diagnostic printout
and never blocks a second application of the same override row. -/
theorem claim_C4 (B O : Table) (L : Option (List String)) (t : Table)
    (hm : merge_csvs B O L = .ok t) (i1 i2 : Nat)
    (hi1 : i1 < B.nrows) (hi2 : i2 < B.nrows) (hne : i1 ≠ i2) (orow : Row)
    (h1 : firstMatch (B.row i1) O.rowsList = .ok (some orow))
    (h2 : firstMatch (B.row i2) O.rowsList = .ok (some orow)) :
    (∀ n, t.cell i1 n =
      (applyOverride B.colNames O.colNames L orow i1 (addNewColumns B O L)).cell i1 n) ∧
    (∀ n, t.cell i2 n =
      (applyOverride B.colNames O.colNames L orow i2 (addNewColumns B O L)).cell i2 n) ∧
    (∀ (n col : String), col ∈ O.colNames → targetColumn B.colNames L col = some n →
      (∀ c ∈ O.colNames, targetColumn B.colNames L c = some n → c = col) →
      i1 < ((addNewColumns B O L).getCol n).length →
      i2 < ((addNewColumns B O L).getCol n).length →
      t.cell i1 n = rowGet orow col ∧ t.cell i2 n = rowGet orow col) := by
  have hc1 : ∀ n, t.cell i1 n =
      (applyOverride B.colNames O.colNames L orow i1 (addNewColumns B O L)).cell i1 n :=
    fun n => merge_cell_char B O L t hm i1 hi1 (some orow) h1 n
  have hc2 : ∀ n, t.cell i2 n =
      (applyOverride B.colNames O.colNames L orow i2 (addNewColumns B O L)).cell i2 n :=
    fun n => merge_cell_char B O L t hm i2 hi2 (some orow) h2 n
  refine ⟨hc1, hc2, ?_⟩
  intro n col hmem htc huniq hl1 hl2
  constructor
  · rw [hc1 n, applyOverride_cell_run]
    exact foldl_target_unique B.colNames L orow i1 n _ hl1 col O.colNames _ hmem htc huniq
  · rw [hc2 n, applyOverride_cell_run]
    exact foldl_target_unique B.colNames L orow i2 n _ hl2 col O.colNames _ hmem htc huniq

/-- Witness tables for C4: two base rows match the single override row. -/
def wB4 : Table :=
  ⟨[("ClassNames", [Value.str "A", Value.str "A"]), ("DCC", [Value.num 1, Value.num 2])]⟩

def wO4 : Table := ⟨[("class", [Value.str "A"]), ("DCC", [Value.num 9])]⟩

theorem claim_C4_witness :
    merge_csvs wB4 wO4 none =
      .ok ⟨[("ClassNames", [Value.str "A", Value.str "A"]),
           ("DCC", [Value.num 9, Value.num 9])]⟩ ∧
    firstMatch (wB4.row 0) wO4.rowsList = .ok (some (wO4.row 0)) ∧
    firstMatch (wB4.row 1) wO4.rowsList = .ok (some (wO4.row 0)) ∧
    ((∀ n, (⟨[("ClassNames", [Value.str "A", Value.str "A"]),
           ("DCC", [Value.num 9, Value.num 9])]⟩ : Table).cell 0 n =
      (applyOverride wB4.colNames wO4.colNames none (wO4.row 0) 0
        (addNewColumns wB4 wO4 none)).cell 0 n) ∧
    (∀ n, (⟨[("ClassNames", [Value.str "A", Value.str "A"]),
           ("DCC", [Value.num 9, Value.num 9])]⟩ : Table).cell 1 n =
      (applyOverride wB4.colNames wO4.colNames none (wO4.row 0) 1
        (addNewColumns wB4 wO4 none)).cell 1 n) ∧
    (∀ (n col : String), col ∈ wO4.colNames → targetColumn wB4.colNames none col = some n →
      (∀ c ∈ wO4.colNames, targetColumn wB4.colNames none c = some n → c = col) →
      0 < ((addNewColumns wB4 wO4 none).getCol n).length →
      1 < ((addNewColumns wB4 wO4 none).getCol n).length →
      (⟨[("ClassNames", [Value.str "A", Value.str "A"]),
           ("DCC", [Value.num 9, Value.num 9])]⟩ : Table).cell 0 n = rowGet (wO4.row 0) col ∧
      (⟨[("ClassNames", [Value.str "A", Value.str "A"]),
           ("DCC", [Value.num 9, Value.num 9])]⟩ : Table).cell 1 n = rowGet (wO4.row 0) col)) :=
  ⟨by rfl, by rfl, by rfl,
    claim_C4 wB4 wO4 none _ (by rfl) 0 1 (by decide) (by decide) (by decide) (wO4.row 0)
      (by rfl) (by rfl)⟩

/-- C9: a base row matched by no override row is passed through unchanged:
its base-column cells equal the base table's, and its cells in any column
that is not a base column (in particular the freshly added ones) are
empty (`na`). Consequently, when no base row matches any override row the
output is the base table plus entirely empty added columns. -/
theorem claim_C9 (B O : Table) (L : Option (List String)) (hwf : B.WF) (t : Table)
    (hm : merge_csvs B O L = .ok t) (i : Nat) (hi : i < B.nrows)
    (hno : ∀ orow ∈ O.rowsList, match_files (B.row i) orow = .ok false) :
    (∀ n ∈ B.colNames, t.cell i n = B.cell i n) ∧
    (∀ n, n ∉ B.colNames → t.cell i n = Value.na) := by
  have hfm := firstMatch_none (B.row i) O.rowsList hno
  have hchar := merge_cell_char B O L t hm i hi none hfm
  obtain ⟨h1, h2, _, _, _⟩ := addNewColumns_inv B O L hwf.1
  constructor
  · intro n hn
    rw [hchar n]
    show (addNewColumns B O L).cell i n = B.cell i n
    unfold Table.cell
    rw [h1 n hn]
  · intro n hn
    rw [hchar n]
    exact h2 n hn i

/-- Witness tables for C9: no override row matches; a new column is
requested. -/
theorem claim_C9_witness :
    wB.WF ∧
    merge_csvs wB wO (some ["NEW"]) =
      .ok ⟨[("ClassNames", [Value.str "A"]), ("DCC", [Value.num 1]), ("NEW", [Value.na])]⟩ ∧
    0 < wB.nrows ∧
    (∀ orow ∈ wO.rowsList, match_files (wB.row 0) orow = .ok false) ∧
    ((∀ n ∈ wB.colNames,
        (⟨[("ClassNames", [Value.str "A"]), ("DCC", [Value.num 1]),
          ("NEW", [Value.na])]⟩ : Table).cell 0 n = wB.cell 0 n) ∧
      (∀ n, n ∉ wB.colNames →
        (⟨[("ClassNames", [Value.str "A"]), ("DCC", [Value.num 1]),
          ("NEW", [Value.na])]⟩ : Table).cell 0 n = Value.na)) :=
  ⟨by decide, by rfl, by decide, by decide,
    claim_C9 wB wO (some ["NEW"]) (by decide) _ (by rfl) 0 (by decide) (by decide)⟩

/-! ## The metric loop: per-metric outcome lemmas -/

theorem getCol_recalcStep_ne (df acc : Table) (mf : String × String) (m : String)
    (h : m ≠ mf.1) :
    (recalcStep df acc mf).getCol m = acc.getCol m := by
  unfold recalcStep
  cases he : evalFormula df mf.2 with
  | some vs => exact getCol_setCol_ne acc vs h
  | none =>
      by_cases hc : acc.colNames.contains mf.1 = true
      · rw [if_pos hc]
      · rw [if_neg hc]
        exact getCol_setCol_ne acc _ h

theorem mem_colNames_recalcStep (df acc : Table) (mf : String × String) (m : String) :
    m ∈ (recalcStep df acc mf).colNames ↔ m ∈ acc.colNames ∨ m = mf.1 := by
  unfold recalcStep
  cases he : evalFormula df mf.2 with
  | some vs => exact mem_colNames_setCol acc mf.1 m vs
  | none =>
      by_cases hc : acc.colNames.contains mf.1 = true
      · rw [if_pos hc]
        constructor
        · exact fun hm => Or.inl hm
        · rintro (hm | rfl)
          · exact hm
          · simpa using hc
      · rw [if_neg hc]
        exact mem_colNames_setCol acc mf.1 m _

theorem mem_colNames_recalcStep_self (df acc : Table) (mf : String × String) :
    mf.1 ∈ (recalcStep df acc mf).colNames :=
  (mem_colNames_recalcStep df acc mf mf.1).mpr (Or.inr rfl)

theorem foldl_recalcStep_getCol_not_mem (df : Table) :
    ∀ (L : List (String × String)) (acc : Table) (m : String),
      (∀ mf ∈ L, m ≠ mf.1) →
      (L.foldl (recalcStep df) acc).getCol m = acc.getCol m := by
  intro L
  induction L with
  | nil => intro acc m _; rfl
  | cons mf rest ih =>
      intro acc m h
      simp only [List.foldl_cons]
      rw [ih _ m (fun q hq => h q (List.mem_cons_of_mem _ hq))]
      exact getCol_recalcStep_ne df acc mf m (h mf (List.mem_cons_self _ _))

theorem foldl_recalcStep_mem (df : Table) :
    ∀ (L : List (String × String)) (acc : Table) (m : String),
      m ∈ acc.colNames → m ∈ (L.foldl (recalcStep df) acc).colNames := by
  intro L
  induction L with
  | nil => intro acc m h; exact h
  | cons mf rest ih =>
      intro acc m h
      simp only [List.foldl_cons]
      exact ih _ m ((mem_colNames_recalcStep df acc mf m).mpr (Or.inl h))

theorem foldl_recalcStep_mem_of_pair (df : Table) :
    ∀ (L : List (String × String)) (acc : Table) (m f : String),
      (m, f) ∈ L → m ∈ (L.foldl (recalcStep df) acc).colNames := by
  intro L
  induction L with
  | nil => intro acc m f h; cases h
  | cons mf rest ih =>
      intro acc m f hmem
      simp only [List.foldl_cons]
      rcases List.mem_cons.mp hmem with heq | hmem'
      · have : m = mf.1 := by rw [← heq]
        rw [this]
        exact foldl_recalcStep_mem df rest _ mf.1 (mem_colNames_recalcStep_self df acc mf)
      · exact ih _ m f hmem'

/-- Each metric's output column is its outcome computed from the input
table alone, independently of the other metrics. -/
theorem foldl_recalcStep_getCol (df : Table) :
    ∀ (L : List (String × String)) (acc : Table) (m f : String),
      (m, f) ∈ L → (L.map Prod.fst).Nodup →
      (m ∈ acc.colNames ↔ m ∈ df.colNames) → acc.getCol m = df.getCol m →
      (L.foldl (recalcStep df) acc).getCol m = metricOutcome df m f := by
  intro L
  induction L with
  | nil => intro acc m f h; cases h
  | cons mf rest ih =>
      intro acc m f hmem hnd hiff hkeep
      simp only [List.foldl_cons]
      rcases List.mem_cons.mp hmem with heq | hmem'
      · have hm1 : mf.1 = m := by rw [← heq]
        have hm2 : mf.2 = f := by rw [← heq]
        have hnotin : ∀ mf' ∈ rest, m ≠ mf'.1 := by
          intro mf' hm' heq'
          have hmm : m ∈ rest.map Prod.fst := List.mem_map.mpr ⟨mf', hm', heq'.symm⟩
          rw [← hm1] at hmm
          exact (List.nodup_cons.mp hnd).1 hmm
        rw [foldl_recalcStep_getCol_not_mem df rest _ m hnotin]
        unfold recalcStep metricOutcome
        rw [hm1, hm2]
        cases he : evalFormula df f with
        | some vs => exact getCol_setCol_self acc m vs
        | none =>
            by_cases hc : acc.colNames.contains m = true
            · rw [if_pos hc]
              have hmdf : m ∈ df.colNames := hiff.mp (by simpa using hc)
              rw [if_pos (by simpa using hmdf)]
              exact hkeep
            · rw [if_neg hc]
              have hmdf : m ∉ df.colNames := by
                intro hmm
                exact hc (by simpa using hiff.mpr hmm)
              rw [if_neg (by simpa using hmdf)]
              exact getCol_setCol_self acc m _
      · have hne : m ≠ mf.1 := by
          intro heq'
          have h1 : m ∈ rest.map Prod.fst := List.mem_map.mpr ⟨(m, f), hmem', rfl⟩
          rw [heq'] at h1
          exact (List.nodup_cons.mp hnd).1 h1
        apply ih _ m f hmem' (List.nodup_cons.mp hnd).2
        · rw [mem_colNames_recalcStep df acc mf m, or_iff_left hne]
          exact hiff
        · rw [getCol_recalcStep_ne df acc mf m hne]
          exact hkeep

theorem recalc_getCol_metric (df : Table) (m f : String) (h : (m, f) ∈ QMOOD_FORMULAS) :
    (recalculate_qmood_metrics df).getCol m = metricOutcome df m f := by
  unfold recalculate_qmood_metrics
  exact foldl_recalcStep_getCol df QMOOD_FORMULAS df m f h (by decide) Iff.rfl rfl

theorem recalc_getCol_nonmetric (df : Table) (m : String)
    (h : ∀ mf ∈ QMOOD_FORMULAS, m ≠ mf.1) :
    (recalculate_qmood_metrics df).getCol m = df.getCol m :=
  foldl_recalcStep_getCol_not_mem df QMOOD_FORMULAS df m h

theorem recalc_mem_metric (df : Table) (m f : String) (h : (m, f) ∈ QMOOD_FORMULAS) :
    m ∈ (recalculate_qmood_metrics df).colNames :=
  foldl_recalcStep_mem_of_pair df QMOOD_FORMULAS df m f h

/-- C5: when a metric's formula fails to evaluate (e.g. a referenced
column is absent, leaving an undefined name), that metric's output column
keeps the input table's values when already present and is `0.0` for
every row otherwise; every other metric's output column is its own
outcome, unaffected by the failure. -/
theorem claim_C5 (df : Table) (m f : String) (hmf : (m, f) ∈ QMOOD_FORMULAS)
    (hfail : evalFormula df f = none) :
    ((m ∈ df.colNames → (recalculate_qmood_metrics df).getCol m = df.getCol m) ∧
     (m ∉ df.colNames →
        (recalculate_qmood_metrics df).getCol m = List.replicate df.nrows (Value.num 0))) ∧
    (∀ m' f', (m', f') ∈ QMOOD_FORMULAS → m' ≠ m →
      (recalculate_qmood_metrics df).getCol m' = metricOutcome df m' f') := by
  have h1 := recalc_getCol_metric df m f hmf
  unfold metricOutcome at h1
  rw [hfail] at h1
  refine ⟨⟨?_, ?_⟩, ?_⟩
  · intro hm
    rw [h1, if_pos (by simpa using hm)]
  · intro hm
    rw [h1, if_neg (by simpa using hm)]
  · intro m' f' hmf' _
    exact recalc_getCol_metric df m' f' hmf'

theorem claim_C5_witness :
    ("Reusability", "-0.25 * DCC + 0.25 * lcc + 0.5 * CIS + 0.5 * DSC") ∈ QMOOD_FORMULAS ∧
    evalFormula ⟨[("X", [Value.num 1])]⟩
      "-0.25 * DCC + 0.25 * lcc + 0.5 * CIS + 0.5 * DSC" = none ∧
    ((("Reusability" : String) ∈ (⟨[("X", [Value.num 1])]⟩ : Table).colNames →
        (recalculate_qmood_metrics ⟨[("X", [Value.num 1])]⟩).getCol "Reusability" =
          (⟨[("X", [Value.num 1])]⟩ : Table).getCol "Reusability") ∧
     (("Reusability" : String) ∉ (⟨[("X", [Value.num 1])]⟩ : Table).colNames →
        (recalculate_qmood_metrics ⟨[("X", [Value.num 1])]⟩).getCol "Reusability" =
          List.replicate (⟨[("X", [Value.num 1])]⟩ : Table).nrows (Value.num 0))) ∧
    (∀ m' f', (m', f') ∈ QMOOD_FORMULAS → m' ≠ "Reusability" →
      (recalculate_qmood_metrics ⟨[("X", [Value.num 1])]⟩).getCol m' =
        metricOutcome ⟨[("X", [Value.num 1])]⟩ m' f') :=
  ⟨by decide, by rfl,
    claim_C5 ⟨[("X", [Value.num 1])]⟩ "Reusability"
      "-0.25 * DCC + 0.25 * lcc + 0.5 * CIS + 0.5 * DSC" (by decide) (by rfl)⟩

/-- C10: the output of `recalculate_qmood_metrics` always contains all six
metric columns — each either freshly computed, kept from the input on
evaluation failure, or filled with `0.0` — for any input table. -/
theorem claim_C10 (df : Table) :
    ∀ m ∈ QMOOD_METRICS, ∃ f, (m, f) ∈ QMOOD_FORMULAS ∧
      m ∈ (recalculate_qmood_metrics df).colNames ∧
      (recalculate_qmood_metrics df).getCol m = metricOutcome df m f := by
  intro m hm
  fin_cases hm
  · exact ⟨"-0.25 * DCC + 0.25 * lcc + 0.5 * CIS + 0.5 * DSC", by decide,
      recalc_mem_metric df "Reusability" "-0.25 * DCC + 0.25 * lcc + 0.5 * CIS + 0.5 * DSC"
        (by decide),
      recalc_getCol_metric df "Reusability" "-0.25 * DCC + 0.25 * lcc + 0.5 * CIS + 0.5 * DSC"
        (by decide)⟩
  · exact ⟨"0.25 * DAM - 0.25 * DCC + 0.5 * MOA + 0.5 * NOP", by decide,
      recalc_mem_metric df "Flexibility" "0.25 * DAM - 0.25 * DCC + 0.5 * MOA + 0.5 * NOP"
        (by decide),
      recalc_getCol_metric df "Flexibility" "0.25 * DAM - 0.25 * DCC + 0.5 * MOA + 0.5 * NOP"
        (by decide)⟩
  · exact ⟨"-0.33 * ANA + 0.33 * DAM - 0.33 * DCC + 0.33 * lcc - 0.33 * NOP - 0.33 * WMC + - 0.33 * DSC",
      by decide,
      recalc_mem_metric df "Understandability"
        "-0.33 * ANA + 0.33 * DAM - 0.33 * DCC + 0.33 * lcc - 0.33 * NOP - 0.33 * WMC + - 0.33 * DSC"
        (by decide),
      recalc_getCol_metric df "Understandability"
        "-0.33 * ANA + 0.33 * DAM - 0.33 * DCC + 0.33 * lcc - 0.33 * NOP - 0.33 * WMC + - 0.33 * DSC"
        (by decide)⟩
  · exact ⟨"0.12 * lcc + 0.22 * NOP + 0.22 * CIS + 0.22 * DSC + 0.22 * NOH", by decide,
      recalc_mem_metric df "Functionality"
        "0.12 * lcc + 0.22 * NOP + 0.22 * CIS + 0.22 * DSC + 0.22 * NOH" (by decide),
      recalc_getCol_metric df "Functionality"
        "0.12 * lcc + 0.22 * NOP + 0.22 * CIS + 0.22 * DSC + 0.22 * NOH" (by decide)⟩
  · exact ⟨"0.5 * ANA - 0.5 * DCC + 0.5 * MFA + 0.5 * NOP", by decide,
      recalc_mem_metric df "Extendibility" "0.5 * ANA - 0.5 * DCC + 0.5 * MFA + 0.5 * NOP"
        (by decide),
      recalc_getCol_metric df "Extendibility" "0.5 * ANA - 0.5 * DCC + 0.5 * MFA + 0.5 * NOP"
        (by decide)⟩
  · exact ⟨"0.2 * ANA + 0.2 * DAM + 0.2 * MOA + 0.2 * MFA + 0.2 * NOP", by decide,
      recalc_mem_metric df "Effectiveness" "0.2 * ANA + 0.2 * DAM + 0.2 * MOA + 0.2 * MFA + 0.2 * NOP"
        (by decide),
      recalc_getCol_metric df "Effectiveness" "0.2 * ANA + 0.2 * DAM + 0.2 * MOA + 0.2 * MFA + 0.2 * NOP"
        (by decide)⟩

theorem claim_C10_witness :
    ("Understandability" : String) ∈ QMOOD_METRICS ∧
    (∃ f, ("Understandability", f) ∈ QMOOD_FORMULAS ∧
      ("Understandability" : String) ∈
        (recalculate_qmood_metrics ⟨[("X", [Value.num 1])]⟩).colNames ∧
      (recalculate_qmood_metrics ⟨[("X", [Value.num 1])]⟩).getCol "Understandability" =
        metricOutcome ⟨[("X", [Value.num 1])]⟩ "Understandability" f) :=
  ⟨by decide, claim_C10 ⟨[("X", [Value.num 1])]⟩ "Understandability" (by decide)⟩

/-! ## Substring foundations -/

theorem prefixOf_exists : ∀ (t s : List Char), t.isPrefixOf s = true ↔ ∃ v, t ++ v = s := by
  intro t
  induction t with
  | nil => intro s; simp [List.isPrefixOf]
  | cons x t' ih =>
      intro s
      cases s with
      | nil => simp [List.isPrefixOf]
      | cons y s' =>
          simp only [List.isPrefixOf, Bool.and_eq_true, beq_iff_eq]
          constructor
          · rintro ⟨rfl, h⟩
            obtain ⟨v, hv⟩ := (ih s').mp h
            exact ⟨v, by rw [List.cons_append, hv]⟩
          · rintro ⟨v, hv⟩
            rw [List.cons_append] at hv
            injection hv with h1 h2
            exact ⟨h1, (ih s').mpr ⟨v, h2⟩⟩

theorem infxOf_exists (t : List Char) : ∀ s, infxOf t s = true ↔ ∃ u v, u ++ t ++ v = s := by
  intro s
  induction s with
  | nil =>
      simp only [infxOf, List.isEmpty_iff]
      constructor
      · rintro rfl
        exact ⟨[], [], rfl⟩
      · rintro ⟨u, v, huv⟩
        have := List.append_eq_nil.mp huv
        exact (List.append_eq_nil.mp this.1).2
  | cons c rest ih =>
      simp only [infxOf, Bool.or_eq_true]
      constructor
      · rintro (h | h)
        · obtain ⟨v, hv⟩ := (prefixOf_exists t (c :: rest)).mp h
          exact ⟨[], v, by simpa using hv⟩
        · obtain ⟨u, v, huv⟩ := ih.mp h
          exact ⟨c :: u, v, by simp only [List.cons_append, List.append_assoc] at huv ⊢; rw [huv]⟩
      · rintro ⟨u, v, huv⟩
        cases u with
        | nil =>
            exact Or.inl ((prefixOf_exists t (c :: rest)).mpr ⟨v, by simpa using huv⟩)
        | cons x u' =>
            rw [List.cons_append, List.cons_append] at huv
            injection huv with h1 h2
            exact Or.inr (ih.mpr ⟨u', v, h2⟩)

theorem infxOf_subset {t s : List Char} (h : infxOf t s = true) : ∀ c ∈ t, c ∈ s := by
  obtain ⟨u, v, rfl⟩ := (infxOf_exists t s).mp h
  intro c hc
  exact List.mem_append_left _ (List.mem_append_right _ hc)

theorem infxOf_trans {a b c : List Char} (h1 : infxOf a b = true) (h2 : infxOf b c = true) :
    infxOf a c = true := by
  obtain ⟨u1, v1, rfl⟩ := (infxOf_exists a b).mp h1
  obtain ⟨u2, v2, rfl⟩ := (infxOf_exists _ _).mp h2
  exact (infxOf_exists a _).mpr ⟨u2 ++ u1, v1 ++ v2, by simp⟩

theorem infxOf_cons_of (t : List Char) (c : Char) (s : List Char) (h : infxOf t s = true) :
    infxOf t (c :: s) = true := by
  unfold infxOf
  rw [h]
  simp

theorem infxOf_drop (t : List Char) : ∀ (n : Nat) (s : List Char),
    infxOf t (s.drop n) = true → infxOf t s = true := by
  intro n
  induction n with
  | zero => intro s h; simpa using h
  | succ n ih =>
      intro s h
      cases s with
      | nil => simpa using h
      | cons c rest => exact infxOf_cons_of t c rest (ih rest h)

theorem not_infx_of_missing_char (t s : List Char) (c : Char) (hc : c ∈ t) (hs : c ∉ s) :
    infxOf t s = false := by
  by_cases h : infxOf t s = true
  · exact absurd (infxOf_subset h c hc) hs
  · rw [Bool.not_eq_true] at h
    exact h

/-! ## Characters introduced by the substitution -/

/-- The characters of the `df['...']` wrapper that the substitution can
introduce around existing text. -/
def frameChars : List Char := ['d', 'f', '[', '\'', ']']

theorem mem_subGoF_chars (pat repl : List Char) :
    ∀ (fuel : Nat) (prev : Option Char) (s : List Char) (c : Char),
      c ∈ subGoF pat repl fuel prev s → c ∈ s ∨ c ∈ repl := by
  intro fuel
  induction fuel with
  | zero => intro prev s c h; exact Or.inl h
  | succ fuel ih =>
      intro prev s c h
      cases s with
      | nil => cases h
      | cons x rest =>
          unfold subGoF at h
          by_cases hm : matchAt pat prev (x :: rest) = true
          · rw [if_pos hm] at h
            rcases List.mem_append.mp h with h1 | h1
            · exact Or.inr h1
            · rcases ih _ _ c h1 with h2 | h2
              · exact Or.inl (List.drop_subset _ _ h2)
              · exact Or.inr h2
          · rw [if_neg hm] at h
            rcases List.mem_cons.mp h with h1 | h1
            · exact Or.inl (by rw [h1]; exact List.mem_cons_self _ _)
            · rcases ih _ _ c h1 with h2 | h2
              · exact Or.inl (List.mem_cons_of_mem _ h2)
              · exact Or.inr h2

theorem mem_subEmptyGo_chars (repl : List Char) :
    ∀ (s : List Char) (prev : Option Char) (c : Char),
      c ∈ subEmptyGo repl prev s → c ∈ s ∨ c ∈ repl := by
  intro s
  induction s with
  | nil =>
      intro prev c h
      unfold subEmptyGo at h
      by_cases hb : prevIsWord prev = true
      · rw [if_pos hb] at h
        exact Or.inr h
      · rw [if_neg hb] at h
        cases h
  | cons x rest ih =>
      intro prev c h
      unfold subEmptyGo at h
      by_cases hb : (prevIsWord prev != isWordChar x) = true
      · rw [if_pos hb] at h
        rcases List.mem_append.mp h with h1 | h1
        · exact Or.inr h1
        · rcases List.mem_cons.mp h1 with h2 | h2
          · exact Or.inl (by rw [h2]; exact List.mem_cons_self _ _)
          · rcases ih _ c h2 with h3 | h3
            · exact Or.inl (List.mem_cons_of_mem _ h3)
            · exact Or.inr h3
      · rw [if_neg hb] at h
        rcases List.mem_cons.mp h with h2 | h2
        · exact Or.inl (by rw [h2]; exact List.mem_cons_self _ _)
        · rcases ih _ c h2 with h3 | h3
          · exact Or.inl (List.mem_cons_of_mem _ h3)
          · exact Or.inr h3

theorem mem_wordBoundSub_chars (col expr : String) (c : Char)
    (h : c ∈ (wordBoundSub col expr).data) :
    c ∈ expr.data ∨ c ∈ col.data ∨ c ∈ frameChars := by
  unfold wordBoundSub at h
  have hrepl : ∀ x, x ∈ ("df['".data ++ col.data ++ "']".data) →
      x ∈ col.data ∨ x ∈ frameChars := by
    intro x hx
    rcases List.mem_append.mp hx with h1 | h1
    · rcases List.mem_append.mp h1 with h2 | h2
      · right
        have : "df['".data ⊆ frameChars := by decide
        exact this h2
      · exact Or.inl h2
    · right
      have : "']".data ⊆ frameChars := by decide
      exact this h1
  cases hp : col.data with
  | nil =>
      rw [hp] at h
      simp only at h
      rcases mem_subEmptyGo_chars _ expr.data none c h with h1 | h1
      · exact Or.inl h1
      · have hsub : ("df['".data ++ ([] : List Char) ++ "']".data) ⊆ frameChars := by decide
        exact Or.inr (Or.inr (hsub h1))
  | cons p0 ptl =>
      rw [hp] at h
      rw [hp] at hrepl
      simp only at h
      rcases mem_subGoF_chars _ _ _ none expr.data c h with h1 | h1
      · exact Or.inl h1
      · exact Or.inr (hrepl c h1)

theorem mem_substituteCol_chars (expr col : String) (c : Char)
    (h : c ∈ (substituteCol expr col).data) : c ∈ expr.data ∨ c ∈ frameChars := by
  unfold substituteCol at h
  by_cases hin : infxOf col.data expr.data = true
  · rw [if_pos hin] at h
    rcases mem_wordBoundSub_chars col expr c h with h1 | h1 | h1
    · exact Or.inl h1
    · exact Or.inl (infxOf_subset hin c h1)
    · exact Or.inr h1
  · rw [if_neg hin] at h
    exact Or.inl h

theorem mem_substAll_chars : ∀ (colNames : List String) (formula : String) (c : Char),
    c ∈ (substAll colNames formula).data → c ∈ formula.data ∨ c ∈ frameChars := by
  intro colNames
  induction colNames with
  | nil => intro formula c h; exact Or.inl h
  | cons col rest ih =>
      intro formula c h
      have h' : c ∈ (substAll rest (substituteCol formula col)).data := h
      rcases ih (substituteCol formula col) c h' with h1 | h1
      · exact mem_substituteCol_chars formula col c h1
      · exact Or.inr h1

/-! ## Locality of the substitution: a frame-free substring of the output
was already a substring of the input or of the pattern -/

theorem infxOf_cons_elim (t : List Char) (c : Char) (s : List Char)
    (h : infxOf t (c :: s) = true) : t.isPrefixOf (c :: s) = true ∨ infxOf t s = true := by
  by_cases hp : t.isPrefixOf (c :: s) = true
  · exact Or.inl hp
  · right
    unfold infxOf at h
    rw [Bool.not_eq_true] at hp
    rw [hp] at h
    simpa using h

theorem infxOf_of_prefixOf (t : List Char) (c : Char) (s : List Char)
    (h : t.isPrefixOf (c :: s) = true) : infxOf t (c :: s) = true := by
  unfold infxOf
  rw [h]
  rfl

theorem infxOf_append_split (t a b : List Char) (h : infxOf t (a ++ b) = true) :
    infxOf t a = true ∨ infxOf t b = true ∨
    ∃ t₁ t₂ a₀ b₀, t = t₁ ++ t₂ ∧ t₁ ≠ [] ∧ t₂ ≠ [] ∧ a = a₀ ++ t₁ ∧ b = t₂ ++ b₀ := by
  obtain ⟨u, v, huv⟩ := (infxOf_exists t (a ++ b)).mp h
  rw [List.append_assoc] at huv
  rcases List.append_eq_append_iff.mp huv with ⟨w, hw1, hw2⟩ | ⟨w, hw1, hw2⟩
  · rcases List.append_eq_append_iff.mp hw2 with ⟨x, hx1, hx2⟩ | ⟨x, hx1, hx2⟩
    · left
      exact (infxOf_exists t a).mpr ⟨u, x, by rw [hw1, hx1, List.append_assoc]⟩
    · cases hwe : w with
      | nil =>
          right; left
          refine (infxOf_exists t b).mpr ⟨[], v, ?_⟩
          rw [hwe, List.nil_append] at hx1
          rw [hx2, ← hx1]
          simp
      | cons w0 w' =>
          cases hxe : x with
          | nil =>
              left
              refine (infxOf_exists t a).mpr ⟨u, [], ?_⟩
              rw [hxe, List.append_nil] at hx1
              rw [hw1, hx1, List.append_nil]
          | cons x0 x' =>
              right; right
              refine ⟨w, x, u, v, hx1, ?_, ?_, hw1, hx2⟩
              · rw [hwe]
                intro hh
                cases hh
              · rw [hxe]
                intro hh
                cases hh
  · right; left
    exact (infxOf_exists t b).mpr ⟨w, v, by rw [hw2, List.append_assoc]⟩

theorem head_mem_of_prefixOf {t : List Char} {x : Char} {l : List Char} (hne : t ≠ [])
    (h : t.isPrefixOf (x :: l) = true) : x ∈ t := by
  cases t with
  | nil => exact absurd rfl hne
  | cons y t' =>
      simp only [List.isPrefixOf, Bool.and_eq_true, beq_iff_eq] at h
      rw [← h.1]
      exact List.mem_cons_self _ _

theorem last_mem_of_append_singleton (a₀ t₁ z : List Char) (c : Char)
    (h : a₀ ++ t₁ = z ++ [c]) (hne : t₁ ≠ []) : c ∈ t₁ := by
  have h2 : t₁.reverse ++ a₀.reverse = c :: z.reverse := by
    rw [← List.reverse_append, h, List.reverse_append]
    simp
  cases ht : t₁.reverse with
  | nil =>
      rw [List.reverse_eq_nil_iff] at ht
      exact absurd ht hne
  | cons y ys =>
      rw [ht, List.cons_append] at h2
      injection h2 with h3 _
      have hy : y ∈ t₁.reverse := by rw [ht]; exact List.mem_cons_self _ _
      rw [h3] at hy
      exact List.mem_reverse.mp hy

theorem subGoF_prefix_aux (pat repl : List Char) (hrd : ∃ r', repl = 'd' :: r') :
    ∀ (fuel : Nat) (t : List Char), 'd' ∉ t → ∀ (prev : Option Char) (s : List Char),
      t.isPrefixOf (subGoF pat repl fuel prev s) = true → t.isPrefixOf s = true := by
  intro fuel
  induction fuel with
  | zero => intro t _ prev s h; exact h
  | succ fuel ih =>
      intro t hd prev s h
      cases s with
      | nil =>
          unfold subGoF at h
          exact h
      | cons x rest =>
          unfold subGoF at h
          by_cases hm : matchAt pat prev (x :: rest) = true
          · rw [if_pos hm] at h
            obtain ⟨r', hr⟩ := hrd
            rw [hr] at h
            cases t with
            | nil => simp [List.isPrefixOf]
            | cons y t' =>
                rw [List.cons_append] at h
                simp only [List.isPrefixOf, Bool.and_eq_true, beq_iff_eq] at h
                exact absurd (by rw [← h.1] at hd ⊢; exact List.mem_cons_self _ _) hd
          · rw [if_neg hm] at h
            cases t with
            | nil => simp [List.isPrefixOf]
            | cons y t' =>
                simp only [List.isPrefixOf, Bool.and_eq_true, beq_iff_eq] at h ⊢
                exact ⟨h.1, ih t' (fun hdm => hd (List.mem_cons_of_mem _ hdm)) (some x) rest h.2⟩

theorem subGoF_span (pat : List Char) (t : List Char) (hne : t ≠ [])
    (hfr : ∀ c ∈ t, c ∉ frameChars) :
    ∀ (fuel : Nat) (prev : Option Char) (s : List Char),
      infxOf t (subGoF pat ("df['".data ++ pat ++ "']".data) fuel prev s) = true →
      infxOf t s = true ∨ infxOf t pat = true := by
  have hq : '\'' ∉ t := fun hh => hfr _ hh (by decide)
  have hrb : ']' ∉ t := fun hh => hfr _ hh (by decide)
  have hd : 'd' ∉ t := fun hh => hfr _ hh (by decide)
  have hex : ∃ c0, c0 ∈ t := by
    cases t with
    | nil => exact absurd rfl hne
    | cons c0 t' => exact ⟨c0, List.mem_cons_self _ _⟩
  intro fuel
  induction fuel with
  | zero => intro prev s h; exact Or.inl h
  | succ fuel ih =>
      intro prev s h
      cases s with
      | nil =>
          unfold subGoF at h
          have : t.isEmpty = true := h
          rw [List.isEmpty_iff] at this
          exact absurd this hne
      | cons x rest =>
          unfold subGoF at h
          by_cases hm : matchAt pat prev (x :: rest) = true
          · rw [if_pos hm] at h
            rcases infxOf_append_split t _ _ h with h1 | h1 |
              ⟨t₁, t₂, a₀, b₀, hts, ht1, ht2, ha, hb⟩
            · -- inside the replacement text
              rw [List.append_assoc] at h1
              rcases infxOf_append_split t _ _ h1 with h2 | h2 |
                ⟨u₁, u₂, c₀, d₀, hus, hu1, hu2, hc, hdp⟩
              · exfalso
                obtain ⟨c0, hc0⟩ := hex
                have hin := infxOf_subset h2 c0 hc0
                have hsub : "df['".data ⊆ frameChars := by decide
                exact hfr c0 hc0 (hsub hin)
              · rcases infxOf_append_split t _ _ h2 with h3 | h3 |
                  ⟨v₁, v₂, e₀, f₀, hvs, hv1, hv2, he, hfp⟩
                · exact Or.inr h3
                · exfalso
                  obtain ⟨c0, hc0⟩ := hex
                  have hin := infxOf_subset h3 c0 hc0
                  have hsub : "']".data ⊆ frameChars := by decide
                  exact hfr c0 hc0 (hsub hin)
                · exfalso
                  -- v₂ is a nonempty prefix of "']", so ''' ∈ t
                  cases hv2e : v₂ with
                  | nil => exact hv2 hv2e
                  | cons y ys =>
                      rw [hv2e] at hfp
                      have hy : y = '\'' := by
                        have : ('\'' :: [']'] : List Char) = y :: (ys ++ f₀) := by
                          simpa using hfp
                        injection this with hh _
                        exact hh.symm
                      have : '\'' ∈ t := by
                        rw [hvs, hv2e, hy]
                        exact List.mem_append_right _ (List.mem_cons_self _ _)
                      exact hq this
              · exfalso
                -- u₁ is a nonempty suffix of "df['", so ''' ∈ t
                have hlast : '\'' ∈ u₁ :=
                  last_mem_of_append_singleton c₀ u₁ ['d', 'f', '['] '\''
                    (by rw [← hc]; decide) hu1
                have : '\'' ∈ t := by
                  rw [hus]
                  exact List.mem_append_left _ hlast
                exact hq this
            · rcases ih pat.getLast? _ h1 with h2 | h2
              · exact Or.inl (infxOf_drop t pat.length _ h2)
              · exact Or.inr h2
            · exfalso
              -- t₁ is a nonempty suffix of the whole replacement, so ']' ∈ t
              have hrepl : ("df['".data ++ pat ++ "']".data) =
                  ("df['".data ++ pat ++ ['\'']) ++ [']'] := by
                simp
              have hlast : ']' ∈ t₁ :=
                last_mem_of_append_singleton a₀ t₁ ("df['".data ++ pat ++ ['\'']) ']'
                  (by rw [← ha, hrepl]) ht1
              have : ']' ∈ t := by
                rw [hts]
                exact List.mem_append_left _ hlast
              exact hrb this
          · rw [if_neg hm] at h
            rcases infxOf_cons_elim t x _ h with h1 | h1
            · cases ht : t with
              | nil => exact absurd ht hne
              | cons y t' =>
                  rw [ht] at h1
                  simp only [List.isPrefixOf, Bool.and_eq_true, beq_iff_eq] at h1
                  have ht' : t'.isPrefixOf rest = true :=
                    subGoF_prefix_aux pat _ ⟨_, rfl⟩ fuel t'
                      (fun hdm => hd (by rw [ht]; exact List.mem_cons_of_mem _ hdm))
                      (some x) rest h1.2
                  left
                  apply infxOf_of_prefixOf
                  simp only [List.isPrefixOf, Bool.and_eq_true, beq_iff_eq]
                  exact ⟨h1.1, ht'⟩
            · rcases ih (some x) rest h1 with h2 | h2
              · exact Or.inl (infxOf_cons_of t x rest h2)
              · exact Or.inr h2

theorem subEmptyGo_prefix_aux (repl : List Char) (hrd : ∃ r', repl = 'd' :: r') :
    ∀ (s : List Char) (t : List Char), 'd' ∉ t → ∀ (prev : Option Char),
      t.isPrefixOf (subEmptyGo repl prev s) = true → t.isPrefixOf s = true := by
  intro s
  induction s with
  | nil =>
      intro t hd prev h
      unfold subEmptyGo at h
      by_cases hb : prevIsWord prev = true
      · rw [if_pos hb] at h
        cases t with
        | nil => simp [List.isPrefixOf]
        | cons y t' =>
            obtain ⟨r', hr⟩ := hrd
            rw [hr] at h
            simp only [List.isPrefixOf, Bool.and_eq_true, beq_iff_eq] at h
            exact absurd (by rw [← h.1] at hd ⊢; exact List.mem_cons_self _ _) hd
      · rw [if_neg hb] at h
        exact h
  | cons x rest ih =>
      intro t hd prev h
      unfold subEmptyGo at h
      by_cases hb : (prevIsWord prev != isWordChar x) = true
      · rw [if_pos hb] at h
        cases t with
        | nil => simp [List.isPrefixOf]
        | cons y t' =>
            obtain ⟨r', hr⟩ := hrd
            rw [hr, List.cons_append] at h
            simp only [List.isPrefixOf, Bool.and_eq_true, beq_iff_eq] at h
            exact absurd (by rw [← h.1] at hd ⊢; exact List.mem_cons_self _ _) hd
      · rw [if_neg hb] at h
        cases t with
        | nil => simp [List.isPrefixOf]
        | cons y t' =>
            simp only [List.isPrefixOf, Bool.and_eq_true, beq_iff_eq] at h ⊢
            exact ⟨h.1, ih t' (fun hdm => hd (List.mem_cons_of_mem _ hdm)) (some x) h.2⟩

theorem subEmptyGo_span (repl : List Char) (hrd : ∃ r', repl = 'd' :: r')
    (hsub : repl ⊆ frameChars) (t : List Char) (hne : t ≠ [])
    (hfr : ∀ c ∈ t, c ∉ frameChars) :
    ∀ (s : List Char) (prev : Option Char),
      infxOf t (subEmptyGo repl prev s) = true → infxOf t s = true := by
  have hd : 'd' ∉ t := fun hh => hfr _ hh (by decide)
  have hex : ∃ c0, c0 ∈ t := by
    cases t with
    | nil => exact absurd rfl hne
    | cons c0 t' => exact ⟨c0, List.mem_cons_self _ _⟩
  intro s
  induction s with
  | nil =>
      intro prev h
      unfold subEmptyGo at h
      by_cases hb : prevIsWord prev = true
      · rw [if_pos hb] at h
        exfalso
        obtain ⟨c0, hc0⟩ := hex
        exact hfr c0 hc0 (hsub (infxOf_subset h c0 hc0))
      · rw [if_neg hb] at h
        exact h
  | cons x rest ih =>
      intro prev h
      unfold subEmptyGo at h
      by_cases hb : (prevIsWord prev != isWordChar x) = true
      · rw [if_pos hb] at h
        rcases infxOf_append_split t _ _ h with h1 | h1 |
          ⟨t₁, t₂, a₀, b₀, hts, ht1, ht2, ha, hbx⟩
        · exfalso
          obtain ⟨c0, hc0⟩ := hex
          exact hfr c0 hc0 (hsub (infxOf_subset h1 c0 hc0))
        · rcases infxOf_cons_elim t x _ h1 with h2 | h2
          · cases ht : t with
            | nil => exact absurd ht hne
            | cons y t' =>
                rw [ht] at h2
                simp only [List.isPrefixOf, Bool.and_eq_true, beq_iff_eq] at h2
                have ht' : t'.isPrefixOf rest = true :=
                  subEmptyGo_prefix_aux repl hrd rest t'
                    (fun hdm => hd (by rw [ht]; exact List.mem_cons_of_mem _ hdm))
                    (some x) h2.2
                apply infxOf_of_prefixOf
                simp only [List.isPrefixOf, Bool.and_eq_true, beq_iff_eq]
                exact ⟨h2.1, ht'⟩
          · exact infxOf_cons_of t x rest (ih (some x) h2)
        · exfalso
          -- t₁ is a nonempty suffix of repl, so some frame char is in t
          have hlast : ∀ c ∈ t₁, c ∈ repl := by
            intro c hc
            rw [ha]
            exact List.mem_append_right _ hc
          obtain ⟨c0, hc0⟩ : ∃ c0, c0 ∈ t₁ := by
            cases t₁ with
            | nil => exact absurd rfl ht1
            | cons c0 l => exact ⟨c0, List.mem_cons_self _ _⟩
          have : c0 ∈ t := by
            rw [hts]
            exact List.mem_append_left _ hc0
          exact hfr c0 this (hsub (hlast c0 hc0))
      · rw [if_neg hb] at h
        rcases infxOf_cons_elim t x _ h with h1 | h1
        · cases ht : t with
          | nil => exact absurd ht hne
          | cons y t' =>
              rw [ht] at h1
              simp only [List.isPrefixOf, Bool.and_eq_true, beq_iff_eq] at h1
              have ht' : t'.isPrefixOf rest = true :=
                subEmptyGo_prefix_aux repl hrd rest t'
                  (fun hdm => hd (by rw [ht]; exact List.mem_cons_of_mem _ hdm))
                  (some x) h1.2
              apply infxOf_of_prefixOf
              simp only [List.isPrefixOf, Bool.and_eq_true, beq_iff_eq]
              exact ⟨h1.1, ht'⟩
        · exact infxOf_cons_of t x rest (ih (some x) h1)

/-- A frame-free substring of `re.sub`'s output was a substring of the
input or of the pattern. -/
theorem wordBoundSub_span (col expr : String) (t : List Char) (hne : t ≠ [])
    (hfr : ∀ c ∈ t, c ∉ frameChars)
    (h : infxOf t (wordBoundSub col expr).data = true) :
    infxOf t expr.data = true ∨ infxOf t col.data = true := by
  unfold wordBoundSub at h
  cases hp : col.data with
  | nil =>
      rw [hp] at h
      simp only at h
      left
      refine subEmptyGo_span _ ⟨_, rfl⟩ ?_ t hne hfr expr.data none h
      decide
  | cons p0 ptl =>
      rw [hp] at h
      simp only at h
      rcases subGoF_span (p0 :: ptl) t hne hfr _ none expr.data h with h1 | h1
      · exact Or.inl h1
      · exact Or.inr h1

/-- The per-column substitution step cannot create a new frame-free
substring. -/
theorem substituteCol_span (expr col : String) (t : List Char) (hne : t ≠ [])
    (hfr : ∀ c ∈ t, c ∉ frameChars)
    (hexpr : infxOf t expr.data = false)
    (h : infxOf t (substituteCol expr col).data = true) : False := by
  unfold substituteCol at h
  by_cases hin : infxOf col.data expr.data = true
  · rw [if_pos hin] at h
    rcases wordBoundSub_span col expr t hne hfr h with h1 | h1
    · rw [hexpr] at h1
      cases h1
    · have := infxOf_trans h1 hin
      rw [hexpr] at this
      cases this
  · rw [if_neg hin] at h
    rw [hexpr] at h
    cases h

/-- The whole substitution loop cannot create a new frame-free substring:
anything like "MOA2" absent from the formula stays absent. -/
theorem substAll_not_infx (t : List Char) (hne : t ≠ [])
    (hfr : ∀ c ∈ t, c ∉ frameChars) :
    ∀ (cols : List String) (f : String), infxOf t f.data = false →
      infxOf t (substAll cols f).data = false := by
  intro cols
  induction cols with
  | nil => intro f hf; exact hf
  | cons col rest ih =>
      intro f hf
      have hstep : infxOf t (substituteCol f col).data = false := by
        by_cases hx : infxOf t (substituteCol f col).data = true
        · exact absurd (substituteCol_span f col t hne hfr hf hx) (fun hh => hh)
        · rw [Bool.not_eq_true] at hx
          exact hx
      exact ih (substituteCol f col) hstep

/-! ## Column references of an evaluated expression are substrings of the
substituted text -/

theorem infxOf_of_prefix (t l : List Char) (h : t.isPrefixOf l = true) :
    infxOf t l = true := by
  obtain ⟨v, hv⟩ := (prefixOf_exists t l).mp h
  exact (infxOf_exists t l).mpr ⟨[], v, by simpa using hv⟩

theorem infxOf_append_right (t a b : List Char) (h : infxOf t b = true) :
    infxOf t (a ++ b) = true := by
  obtain ⟨u, v, hv⟩ := (infxOf_exists t b).mp h
  exact (infxOf_exists t _).mpr ⟨a ++ u, v, by rw [← hv]; simp⟩

theorem infxOf_dropWhile (t : List Char) (p : Char → Bool) :
    ∀ l : List Char, infxOf t (l.dropWhile p) = true → infxOf t l = true := by
  intro l
  induction l with
  | nil => intro h; exact h
  | cons c rest ih =>
      intro h
      rw [List.dropWhile_cons] at h
      by_cases hp : p c = true
      · rw [if_pos hp] at h
        exact infxOf_cons_of t c rest (ih h)
      · rw [if_neg hp] at h
        exact h

/-- The names referenced through `df['...']` tokens. -/
def dfcolNames (toks : List Tok) : List String :=
  toks.filterMap (fun tk => match tk with | Tok.dfcol s => some s | _ => none)


theorem infxOf_tail (t l : List Char) (h : infxOf t l.tail = true) : infxOf t l = true := by
  cases l with
  | nil => exact h
  | cons c rest => exact infxOf_cons_of t c rest h

theorem lexGo_dfcol_infx :
    ∀ (fuel : Nat) (s : List Char) (toks : List Tok), lexGo fuel s = some toks →
      ∀ nm : String, Tok.dfcol nm ∈ toks → infxOf nm.data s = true := by
  intro fuel
  induction fuel with
  | zero => intro s toks h; cases h
  | succ fuel ih =>
      intro s toks h nm hmem
      cases s with
      | nil =>
          unfold lexGo at h
          cases h
          cases hmem
      | cons c rest =>
          unfold lexGo at h
          by_cases h1 : c = ' '
          · rw [if_pos h1] at h
            exact infxOf_cons_of _ c rest (ih rest toks h nm hmem)
          · rw [if_neg h1] at h
            by_cases h2 : c = '+'
            · rw [if_pos h2] at h
              cases hr : lexGo fuel rest with
              | none => rw [hr] at h; cases h
              | some toks' =>
                  rw [hr] at h
                  cases h
                  rcases List.mem_cons.mp hmem with hx | hx
                  · cases hx
                  · exact infxOf_cons_of _ c rest (ih rest toks' hr nm hx)
            · rw [if_neg h2] at h
              by_cases h3 : c = '-'
              · rw [if_pos h3] at h
                cases hr : lexGo fuel rest with
                | none => rw [hr] at h; cases h
                | some toks' =>
                    rw [hr] at h
                    cases h
                    rcases List.mem_cons.mp hmem with hx | hx
                    · cases hx
                    · exact infxOf_cons_of _ c rest (ih rest toks' hr nm hx)
              · rw [if_neg h3] at h
                by_cases h4 : c = '*'
                · rw [if_pos h4] at h
                  cases hr : lexGo fuel rest with
                  | none => rw [hr] at h; cases h
                  | some toks' =>
                      rw [hr] at h
                      cases h
                      rcases List.mem_cons.mp hmem with hx | hx
                      · cases hx
                      · exact infxOf_cons_of _ c rest (ih rest toks' hr nm hx)
                · rw [if_neg h4] at h
                  by_cases h5 : c.isDigit = true
                  · rw [if_pos h5] at h
                    by_cases h6 : ((c :: rest).dropWhile Char.isDigit).head? = some '.'
                    · rw [if_pos h6] at h
                      cases hr : lexGo fuel
                          ((((c :: rest).dropWhile Char.isDigit).tail).dropWhile Char.isDigit) with
                      | none => rw [hr] at h; cases h
                      | some toks' =>
                          rw [hr] at h
                          cases h
                          rcases List.mem_cons.mp hmem with hx | hx
                          · cases hx
                          · have hin := ih _ toks' hr nm hx
                            exact infxOf_dropWhile nm.data Char.isDigit (c :: rest)
                              (infxOf_tail nm.data _
                                (infxOf_dropWhile nm.data Char.isDigit _ hin))
                    · rw [if_neg h6] at h
                      cases hr : lexGo fuel ((c :: rest).dropWhile Char.isDigit) with
                      | none => rw [hr] at h; cases h
                      | some toks' =>
                          rw [hr] at h
                          cases h
                          rcases List.mem_cons.mp hmem with hx | hx
                          · cases hx
                          · exact infxOf_dropWhile nm.data Char.isDigit (c :: rest)
                              (ih _ toks' hr nm hx)
                  · rw [if_neg h5] at h
                    by_cases h7 : isWordChar c = true
                    · rw [if_pos h7] at h
                      by_cases h8 : (c :: rest).takeWhile isWordChar = ['d', 'f'] ∧
                          ((c :: rest).dropWhile isWordChar).take 2 = ['[', '\'']
                      · rw [if_pos h8] at h
                        by_cases h9 : (((((c :: rest).dropWhile isWordChar).drop 2).dropWhile
                            (fun ch => ch ≠ '\''))).take 2 = ['\'', ']']
                        · rw [if_pos h9] at h
                          cases hr : lexGo fuel
                              ((((((c :: rest).dropWhile isWordChar).drop 2).dropWhile
                                (fun ch => ch ≠ '\''))).drop 2) with
                          | none => rw [hr] at h; cases h
                          | some toks' =>
                              rw [hr] at h
                              cases h
                              rcases List.mem_cons.mp hmem with hx | hx
                              · -- the dfcol token produced here
                                injection hx with hx1
                                rw [hx1]
                                apply infxOf_dropWhile _ isWordChar (c :: rest)
                                apply infxOf_drop _ 2
                                apply infxOf_of_prefix
                                have : ∀ l : List Char, ∀ p : Char → Bool,
                                    (l.takeWhile p).isPrefixOf l = true := by
                                  intro l p
                                  rw [prefixOf_exists]
                                  exact ⟨l.dropWhile p, List.takeWhile_append_dropWhile p l⟩
                                exact this _ _
                              · have hin := ih _ toks' hr nm hx
                                apply infxOf_dropWhile nm.data isWordChar (c :: rest)
                                apply infxOf_drop _ 2
                                apply infxOf_dropWhile nm.data (fun ch => ch ≠ '\'')
                                exact infxOf_drop _ 2 _ hin
                        · rw [if_neg h9] at h
                          cases h
                      · rw [if_neg h8] at h
                        cases hr : lexGo fuel ((c :: rest).dropWhile isWordChar) with
                        | none => rw [hr] at h; cases h
                        | some toks' =>
                            rw [hr] at h
                            cases h
                            rcases List.mem_cons.mp hmem with hx | hx
                            · cases hx
                            · exact infxOf_dropWhile nm.data isWordChar (c :: rest)
                                (ih _ toks' hr nm hx)
                    · rw [if_neg h7] at h
                      cases h

/-- Column names referenced by a parsed expression. -/
def colsOf : PExpr → List String
  | .num _ => []
  | .col s => [s]
  | .ident _ => []
  | .neg e => colsOf e
  | .add a b => colsOf a ++ colsOf b
  | .sub a b => colsOf a ++ colsOf b
  | .mul a b => colsOf a ++ colsOf b

theorem parseAtom_cols (toks : List Tok) (e : PExpr) (rest : List Tok)
    (h : parseAtom toks = some (e, rest)) :
    (∀ s ∈ colsOf e, Tok.dfcol s ∈ toks) ∧ (∀ tk ∈ rest, tk ∈ toks) := by
  cases toks with
  | nil => cases h
  | cons tk toks' =>
      cases tk with
      | num q =>
          cases h
          exact ⟨fun s hs => absurd hs (by simp [colsOf]),
            fun tk htk => List.mem_cons_of_mem _ htk⟩
      | dfcol s0 =>
          cases h
          refine ⟨fun s hs => ?_, fun tk htk => List.mem_cons_of_mem _ htk⟩
          rw [List.mem_singleton.mp hs]
          exact List.mem_cons_self _ _
      | ident s0 =>
          cases h
          exact ⟨fun s hs => absurd hs (by simp [colsOf]),
            fun tk htk => List.mem_cons_of_mem _ htk⟩
      | plus => cases h
      | minus => cases h
      | star => cases h

theorem parseUnary_cols :
    ∀ (fuel : Nat) (toks : List Tok) (e : PExpr) (rest : List Tok),
      parseUnary fuel toks = some (e, rest) →
      (∀ s ∈ colsOf e, Tok.dfcol s ∈ toks) ∧ (∀ tk ∈ rest, tk ∈ toks) := by
  intro fuel
  induction fuel with
  | zero => intro toks e rest h; cases h
  | succ fuel ih =>
      intro toks e rest h
      cases toks with
      | nil => cases h
      | cons tk toks' =>
          cases tk with
          | minus =>
              unfold parseUnary at h
              cases hr : parseUnary fuel toks' with
              | none => rw [hr] at h; cases h
              | some p =>
                  rw [hr] at h
                  cases h
                  obtain ⟨hc, hrest⟩ := ih toks' p.1 p.2 (by rw [hr])
                  exact ⟨fun s hs => List.mem_cons_of_mem _ (hc s hs),
                    fun tk htk => List.mem_cons_of_mem _ (hrest tk htk)⟩
          | plus =>
              unfold parseUnary at h
              obtain ⟨hc, hrest⟩ := ih toks' e rest h
              exact ⟨fun s hs => List.mem_cons_of_mem _ (hc s hs),
                fun tk htk => List.mem_cons_of_mem _ (hrest tk htk)⟩
          | num q => exact parseAtom_cols _ e rest h
          | dfcol s0 => exact parseAtom_cols _ e rest h
          | ident s0 => exact parseAtom_cols _ e rest h
          | star => exact parseAtom_cols _ e rest h

theorem parseTermRest_cols :
    ∀ (fuel : Nat) (acc : PExpr) (toks : List Tok) (e : PExpr) (rest : List Tok),
      parseTermRest fuel acc toks = some (e, rest) →
      (∀ s ∈ colsOf e, s ∈ colsOf acc ∨ Tok.dfcol s ∈ toks) ∧ (∀ tk ∈ rest, tk ∈ toks) := by
  intro fuel
  induction fuel with
  | zero => intro acc toks e rest h; cases h
  | succ fuel ih =>
      intro acc toks e rest h
      cases toks with
      | nil =>
          cases h
          exact ⟨fun s hs => Or.inl hs, fun tk htk => htk⟩
      | cons tk toks' =>
          cases tk with
          | star =>
              unfold parseTermRest at h
              simp only [Option.bind_eq_bind, Option.bind_eq_some] at h
              obtain ⟨⟨u, r⟩, hu, hrec⟩ := h
              obtain ⟨huc, hur⟩ := parseUnary_cols (fuel + 1) toks' u r hu
              obtain ⟨hec, her⟩ := ih (PExpr.mul acc u) r e rest hrec
              constructor
              · intro s hs
                rcases hec s hs with hs1 | hs1
                · rcases List.mem_append.mp hs1 with hs2 | hs2
                  · exact Or.inl hs2
                  · exact Or.inr (List.mem_cons_of_mem _ (huc s hs2))
                · exact Or.inr (List.mem_cons_of_mem _ (hur _ hs1))
              · exact fun tk htk => List.mem_cons_of_mem _ (hur tk (her tk htk))
          | num q =>
              cases h
              exact ⟨fun s hs => Or.inl hs, fun tk htk => htk⟩
          | dfcol s0 =>
              cases h
              exact ⟨fun s hs => Or.inl hs, fun tk htk => htk⟩
          | ident s0 =>
              cases h
              exact ⟨fun s hs => Or.inl hs, fun tk htk => htk⟩
          | plus =>
              cases h
              exact ⟨fun s hs => Or.inl hs, fun tk htk => htk⟩
          | minus =>
              cases h
              exact ⟨fun s hs => Or.inl hs, fun tk htk => htk⟩

theorem parseTerm_cols (fuel : Nat) (toks : List Tok) (e : PExpr) (rest : List Tok)
    (h : parseTerm fuel toks = some (e, rest)) :
    (∀ s ∈ colsOf e, Tok.dfcol s ∈ toks) ∧ (∀ tk ∈ rest, tk ∈ toks) := by
  unfold parseTerm at h
  simp only [Option.bind_eq_bind, Option.bind_eq_some] at h
  obtain ⟨⟨u, r⟩, hu, hrec⟩ := h
  obtain ⟨huc, hur⟩ := parseUnary_cols fuel toks u r hu
  obtain ⟨hec, her⟩ := parseTermRest_cols fuel u r e rest hrec
  constructor
  · intro s hs
    rcases hec s hs with hs1 | hs1
    · exact huc s hs1
    · exact hur _ hs1
  · exact fun tk htk => hur tk (her tk htk)

theorem parseExprRest_cols :
    ∀ (fuel : Nat) (acc : PExpr) (toks : List Tok) (e : PExpr) (rest : List Tok),
      parseExprRest fuel acc toks = some (e, rest) →
      (∀ s ∈ colsOf e, s ∈ colsOf acc ∨ Tok.dfcol s ∈ toks) ∧ (∀ tk ∈ rest, tk ∈ toks) := by
  intro fuel
  induction fuel with
  | zero => intro acc toks e rest h; cases h
  | succ fuel ih =>
      intro acc toks e rest h
      cases toks with
      | nil =>
          cases h
          exact ⟨fun s hs => Or.inl hs, fun tk htk => htk⟩
      | cons tk toks' =>
          cases tk with
          | plus =>
              unfold parseExprRest at h
              simp only [Option.bind_eq_bind, Option.bind_eq_some] at h
              obtain ⟨⟨u, r⟩, hu, hrec⟩ := h
              obtain ⟨huc, hur⟩ := parseTerm_cols (fuel + 1) toks' u r hu
              obtain ⟨hec, her⟩ := ih (PExpr.add acc u) r e rest hrec
              constructor
              · intro s hs
                rcases hec s hs with hs1 | hs1
                · rcases List.mem_append.mp hs1 with hs2 | hs2
                  · exact Or.inl hs2
                  · exact Or.inr (List.mem_cons_of_mem _ (huc s hs2))
                · exact Or.inr (List.mem_cons_of_mem _ (hur _ hs1))
              · exact fun tk htk => List.mem_cons_of_mem _ (hur tk (her tk htk))
          | minus =>
              unfold parseExprRest at h
              simp only [Option.bind_eq_bind, Option.bind_eq_some] at h
              obtain ⟨⟨u, r⟩, hu, hrec⟩ := h
              obtain ⟨huc, hur⟩ := parseTerm_cols (fuel + 1) toks' u r hu
              obtain ⟨hec, her⟩ := ih (PExpr.sub acc u) r e rest hrec
              constructor
              · intro s hs
                rcases hec s hs with hs1 | hs1
                · rcases List.mem_append.mp hs1 with hs2 | hs2
                  · exact Or.inl hs2
                  · exact Or.inr (List.mem_cons_of_mem _ (huc s hs2))
                · exact Or.inr (List.mem_cons_of_mem _ (hur _ hs1))
              · exact fun tk htk => List.mem_cons_of_mem _ (hur tk (her tk htk))
          | num q =>
              cases h
              exact ⟨fun s hs => Or.inl hs, fun tk htk => htk⟩
          | dfcol s0 =>
              cases h
              exact ⟨fun s hs => Or.inl hs, fun tk htk => htk⟩
          | ident s0 =>
              cases h
              exact ⟨fun s hs => Or.inl hs, fun tk htk => htk⟩
          | star =>
              cases h
              exact ⟨fun s hs => Or.inl hs, fun tk htk => htk⟩

theorem parseFormula_cols (toks : List Tok) (e : PExpr) (h : parseFormula toks = some e) :
    ∀ s ∈ colsOf e, Tok.dfcol s ∈ toks := by
  unfold parseFormula at h
  cases hp : parseExpr (toks.length + 1) toks with
  | none => rw [hp] at h; cases h
  | some p =>
      obtain ⟨e1, rest1⟩ := p
      rw [hp] at h
      cases rest1 with
      | nil =>
          have he : e1 = e := by
            simpa using h
          unfold parseExpr at hp
          simp only [Option.bind_eq_bind, Option.bind_eq_some] at hp
          obtain ⟨⟨u, r⟩, hu, hrec⟩ := hp
          obtain ⟨huc, hur⟩ := parseTerm_cols _ toks u r hu
          obtain ⟨hec, _⟩ := parseExprRest_cols _ u r e1 [] hrec
          rw [← he]
          intro s hs
          rcases hec s hs with hs1 | hs1
          · exact huc s hs1
          · exact hur _ hs1
      | cons tk2 rest2 =>
          simp at h

/-- Names of all `df['...']` references in a full parse of the lexed
text are substrings of that text. -/
theorem parsed_cols_infx (s : String) (toks : List Tok) (e : PExpr)
    (hlex : tokenize s = some toks) (hparse : parseFormula toks = some e) :
    ∀ nm ∈ colsOf e, infxOf nm.data s.data = true := by
  intro nm hnm
  exact lexGo_dfcol_infx _ s.data toks hlex nm (parseFormula_cols toks e hparse nm hnm)

/-- Evaluation depends on the table only through the referenced columns
(their presence and their values). -/
theorem evalPE_congr (df df' : Table) :
    ∀ e : PExpr,
      (∀ s ∈ colsOf e, df.colNames.contains s = df'.colNames.contains s ∧
        df.getCol s = df'.getCol s) →
      evalPE df e = evalPE df' e := by
  intro e
  induction e with
  | num q => intro _; rfl
  | col s =>
      intro h
      obtain ⟨h1, h2⟩ := h s (List.mem_singleton.mpr rfl)
      unfold evalPE
      rw [h1, h2]
  | ident s => intro _; rfl
  | neg e ih =>
      intro h
      unfold evalPE
      rw [ih h]
  | add a b iha ihb =>
      intro h
      unfold evalPE
      rw [iha (fun s hs => h s (List.mem_append_left _ hs)),
        ihb (fun s hs => h s (List.mem_append_right _ hs))]
  | sub a b iha ihb =>
      intro h
      unfold evalPE
      rw [iha (fun s hs => h s (List.mem_append_left _ hs)),
        ihb (fun s hs => h s (List.mem_append_right _ hs))]
  | mul a b iha ihb =>
      intro h
      unfold evalPE
      rw [iha (fun s hs => h s (List.mem_append_left _ hs)),
        ihb (fun s hs => h s (List.mem_append_right _ hs))]

/-- Full-formula evaluation depends on the table only through its column
names, its row count, and the values of columns whose names occur in the
substituted text. -/
theorem evalFormula_congr (df df' : Table) (f : String)
    (hnames : df'.colNames = df.colNames) (hrows : df'.nrows = df.nrows)
    (hvals : ∀ s : String, infxOf s.data (substAll df.colNames f).data = true →
      df'.getCol s = df.getCol s) :
    evalFormula df' f = evalFormula df f := by
  unfold evalFormula
  rw [hnames, hrows]
  cases htp : (tokenize (substAll df.colNames f)).bind parseFormula with
  | none => rfl
  | some e =>
      have hcongr : evalPE df' e = evalPE df e := by
        apply evalPE_congr
        intro s hs
        obtain ⟨toks, hlex, hparse⟩ := Option.bind_eq_some.mp htp
        have hinf := parsed_cols_infx _ toks e hlex hparse s hs
        exact ⟨by rw [hnames], hvals s hinf⟩
      simp only [hcongr]

/-- C7: substitution is whole-token only, so a column whose name extends a
formula variable is neither altered nor read. Part (a): recalculation
never writes the non-metric column "MOA2" (it passes through). Part (b):
the values of "MOA2" are never read in place of "MOA"'s — two input
tables that differ exactly in the values of column "MOA2" produce outputs
that agree on every column other than "MOA2" itself. -/
theorem claim_C7 (df df' : Table)
    (hMOA : "MOA" ∈ df.colNames) (hMOA2 : "MOA2" ∈ df.colNames)
    (hnames : df'.colNames = df.colNames)
    (hvals : ∀ n : String, n ≠ "MOA2" → df'.getCol n = df.getCol n)
    (hrows : df'.nrows = df.nrows) :
    ((recalculate_qmood_metrics df).getCol "MOA2" = df.getCol "MOA2") ∧
    (∀ n : String, n ≠ "MOA2" →
      (recalculate_qmood_metrics df').getCol n = (recalculate_qmood_metrics df).getCol n) := by
  constructor
  · exact recalc_getCol_nonmetric df "MOA2" (by decide)
  · intro n hn
    by_cases hmet : ∃ f, (n, f) ∈ QMOOD_FORMULAS
    · obtain ⟨f, hmf⟩ := hmet
      rw [recalc_getCol_metric df' n f hmf, recalc_getCol_metric df n f hmf]
      have hMOA2f : infxOf "MOA2".data f.data = false := by
        fin_cases hmf <;> decide
      have hnoinfx : infxOf "MOA2".data (substAll df.colNames f).data = false :=
        substAll_not_infx "MOA2".data (by decide) (by decide) df.colNames f hMOA2f
      have hev : evalFormula df' f = evalFormula df f := by
        apply evalFormula_congr df df' f hnames hrows
        intro s hinfx
        by_cases hs2 : s = "MOA2"
        · rw [hs2] at hinfx
          rw [hinfx] at hnoinfx
          cases hnoinfx
        · exact hvals s hs2
      unfold metricOutcome
      rw [hev, hnames, hrows, hvals n hn]
    · have hnm : ∀ mf ∈ QMOOD_FORMULAS, n ≠ mf.1 := by
        intro mf hmf heq
        refine hmet ⟨mf.2, ?_⟩
        have hmfe : (n, mf.2) = mf := by rw [heq]
        rw [hmfe]
        exact hmf
      rw [recalc_getCol_nonmetric df' n hnm, recalc_getCol_nonmetric df n hnm]
      exact hvals n hn

def wD7 : Table := ⟨[("MOA", [Value.num 1]), ("MOA2", [Value.num 7])]⟩

def wD7x : Table := ⟨[("MOA", [Value.num 1]), ("MOA2", [Value.num 8])]⟩

theorem claim_C7_witness :
    ("MOA" : String) ∈ wD7.colNames ∧ ("MOA2" : String) ∈ wD7.colNames ∧
    wD7x.colNames = wD7.colNames ∧
    (∀ n : String, n ≠ "MOA2" → wD7x.getCol n = wD7.getCol n) ∧
    wD7x.nrows = wD7.nrows ∧
    (((recalculate_qmood_metrics wD7).getCol "MOA2" = wD7.getCol "MOA2") ∧
      (∀ n : String, n ≠ "MOA2" →
        (recalculate_qmood_metrics wD7x).getCol n = (recalculate_qmood_metrics wD7).getCol n)) :=
  ⟨by decide, by decide, by decide,
    by
      intro n hn
      unfold wD7x wD7 Table.getCol
      simp only [List.find?]
      by_cases h1 : ("MOA" == n) = true
      · rw [h1]
      · rw [Bool.not_eq_true] at h1
        rw [h1]
        have h2 : ("MOA2" == n) = false := by
          simp only [beq_eq_false_iff_ne]
          exact fun hh => hn hh.symm
        rw [h2],
    by decide,
    claim_C7 wD7 wD7x (by decide) (by decide) (by decide)
      (by
        intro n hn
        unfold wD7x wD7 Table.getCol
        simp only [List.find?]
        by_cases h1 : ("MOA" == n) = true
        · rw [h1]
        · rw [Bool.not_eq_true] at h1
          rw [h1]
          have h2 : ("MOA2" == n) = false := by
            simp only [beq_eq_false_iff_ne]
            exact fun hh => hn hh.symm
          rw [h2])
      (by decide)⟩

/-! ## C8: idempotence machinery -/

theorem not_infx_substAll_of_char (cols : List String) (f : String) (t : List Char) (c : Char)
    (hc : c ∈ t) (hcf : c ∉ f.data) (hcfr : c ∉ frameChars) :
    infxOf t (substAll cols f).data = false := by
  apply not_infx_of_missing_char t _ c hc
  intro hmem
  rcases mem_substAll_chars cols f c hmem with h | h
  · exact hcf h
  · exact hcfr h

/-- No metric name can ever occur as a substring of a substituted formula
text: each metric name contains a character absent both from every
formula and from the wrapper characters. -/
theorem metric_not_infx_subst (cols : List String) :
    ∀ m ∈ QMOOD_METRICS, ∀ mf ∈ QMOOD_FORMULAS,
      infxOf m.data (substAll cols mf.2).data = false := by
  intro m hm mf hmf
  fin_cases hm
  · fin_cases hmf <;>
      exact not_infx_substAll_of_char cols _ _ 'R' (by decide) (by decide) (by decide)
  · fin_cases hmf <;>
      exact not_infx_substAll_of_char cols _ _ 'x' (by decide) (by decide) (by decide)
  · fin_cases hmf <;>
      exact not_infx_substAll_of_char cols _ _ 'U' (by decide) (by decide) (by decide)
  · fin_cases hmf <;>
      exact not_infx_substAll_of_char cols _ _ 'u' (by decide) (by decide) (by decide)
  · fin_cases hmf <;>
      exact not_infx_substAll_of_char cols _ _ 'x' (by decide) (by decide) (by decide)
  · fin_cases hmf <;>
      exact not_infx_substAll_of_char cols _ _ 'v' (by decide) (by decide) (by decide)

theorem substAll_append (A B : List String) (f : String) :
    substAll (A ++ B) f = substAll B (substAll A f) := by
  unfold substAll
  rw [List.foldl_append]

theorem substAll_ext_noop (A : List String) (mf : String × String) (hmf : mf ∈ QMOOD_FORMULAS) :
    ∀ extra : List String, (∀ x ∈ extra, x ∈ QMOOD_METRICS) →
      substAll extra (substAll A mf.2) = substAll A mf.2 := by
  intro extra
  induction extra with
  | nil => intro _; rfl
  | cons m rest ih =>
      intro h
      have hf := metric_not_infx_subst A m (h m (List.mem_cons_self _ _)) mf hmf
      have hnoop : substituteCol (substAll A mf.2) m = substAll A mf.2 := by
        unfold substituteCol
        rw [if_neg (by rw [hf]; exact Bool.false_ne_true)]
      show substAll rest (substituteCol (substAll A mf.2) m) = _
      rw [hnoop]
      exact ih (fun x hx => h x (List.mem_cons_of_mem _ hx))

theorem seqOpt_length : ∀ (l : List (Option Value)) (vs : List Value),
    seqOpt l = some vs → vs.length = l.length := by
  intro l
  induction l with
  | nil => intro vs h; cases h; rfl
  | cons x rest ih =>
      intro vs h
      cases x with
      | none => cases h
      | some v =>
          unfold seqOpt at h
          cases hr : seqOpt rest with
          | none => rw [hr] at h; cases h
          | some vs' =>
              rw [hr] at h
              cases h
              simp [ih vs' hr]

/-- Length discipline of intermediate values: any series has length `N`. -/
def okLen (N : Nat) : EvalV → Prop
  | .scalar _ => True
  | .series xs => xs.length = N

theorem evBin_okLen (op : Value → Value → Option Value) (N : Nat) (a b : EvalV) (r : EvalV)
    (ha : okLen N a) (hb : okLen N b) (h : evBin op a b = some r) : okLen N r := by
  cases a with
  | scalar qa =>
      cases b with
      | scalar qb =>
          simp only [evBin] at h
          cases hq : op (Value.num qa) (Value.num qb) with
          | none => rw [hq] at h; cases h
          | some v =>
              rw [hq] at h
              cases v with
              | num q => cases h; trivial
              | str s => cases h
              | na => cases h
      | series xs =>
          simp only [evBin] at h
          cases hs : seqOpt (xs.map (fun v => op (Value.num qa) v)) with
          | none => rw [hs] at h; cases h
          | some vs =>
              rw [hs] at h
              cases h
              show vs.length = N
              rw [seqOpt_length _ vs hs, List.length_map]
              exact hb
  | series xs =>
      cases b with
      | scalar qb =>
          simp only [evBin] at h
          cases hs : seqOpt (xs.map (fun v => op v (Value.num qb))) with
          | none => rw [hs] at h; cases h
          | some vs =>
              rw [hs] at h
              cases h
              show vs.length = N
              rw [seqOpt_length _ vs hs, List.length_map]
              exact ha
      | series ys =>
          simp only [evBin] at h
          by_cases hl : xs.length = ys.length
          · rw [if_pos hl] at h
            cases hs : seqOpt ((xs.zip ys).map (fun p => op p.1 p.2)) with
            | none => rw [hs] at h; cases h
            | some vs =>
                rw [hs] at h
                cases h
                show vs.length = N
                rw [seqOpt_length _ vs hs, List.length_map, List.length_zip, ← hl,
                  Nat.min_self]
                exact ha
          · rw [if_neg hl] at h
            cases h

theorem evNeg_okLen (N : Nat) (a r : EvalV) (ha : okLen N a) (h : evNeg a = some r) :
    okLen N r := by
  cases a with
  | scalar q => cases h; trivial
  | series xs =>
      simp only [evNeg] at h
      cases hs : seqOpt (xs.map vNeg) with
      | none => rw [hs] at h; cases h
      | some vs =>
          rw [hs] at h
          cases h
          show vs.length = N
          rw [seqOpt_length _ vs hs, List.length_map]
          exact ha

theorem evalPE_okLen (df : Table) (N : Nat) (hwf : ∀ c ∈ df.cols, c.2.length = N) :
    ∀ (e : PExpr) (r : EvalV), evalPE df e = some r → okLen N r := by
  intro e
  induction e with
  | num q => intro r h; cases h; trivial
  | col s =>
      intro r h
      simp only [evalPE] at h
      by_cases hc : df.colNames.contains s = true
      · rw [if_pos hc] at h
        cases h
        show (df.getCol s).length = N
        cases hf : df.cols.find? (fun c => c.1 == s) with
        | none =>
            exfalso
            have hm : s ∈ df.colNames := by simpa using hc
            obtain ⟨c, hcm, hp⟩ := List.any_eq_true.mp ((any_key_iff_mem df s).mpr hm)
            exact (List.find?_eq_none.mp hf c hcm) hp
        | some c =>
            have hg : df.getCol s = c.2 := by unfold Table.getCol; rw [hf]; rfl
            rw [hg]
            exact hwf c (List.mem_of_find?_eq_some hf)
      · rw [if_neg hc] at h
        cases h
  | ident s => intro r h; cases h
  | neg e ih =>
      intro r h
      simp only [evalPE] at h
      cases he : evalPE df e with
      | none => rw [he] at h; cases h
      | some a =>
          rw [he] at h
          exact evNeg_okLen N a r (ih a he) h
  | add a b iha ihb =>
      intro r h
      simp only [evalPE] at h
      cases hea : evalPE df a with
      | none => rw [hea] at h; cases h
      | some va =>
          rw [hea] at h
          cases heb : evalPE df b with
          | none => rw [heb] at h; cases h
          | some vb =>
              rw [heb] at h
              exact evBin_okLen vAdd N va vb r (iha va hea) (ihb vb heb) h
  | sub a b iha ihb =>
      intro r h
      simp only [evalPE] at h
      cases hea : evalPE df a with
      | none => rw [hea] at h; cases h
      | some va =>
          rw [hea] at h
          cases heb : evalPE df b with
          | none => rw [heb] at h; cases h
          | some vb =>
              rw [heb] at h
              exact evBin_okLen vSub N va vb r (iha va hea) (ihb vb heb) h
  | mul a b iha ihb =>
      intro r h
      simp only [evalPE] at h
      cases hea : evalPE df a with
      | none => rw [hea] at h; cases h
      | some va =>
          rw [hea] at h
          cases heb : evalPE df b with
          | none => rw [heb] at h; cases h
          | some vb =>
              rw [heb] at h
              exact evBin_okLen vMul N va vb r (iha va hea) (ihb vb heb) h

theorem evalFormula_len (df : Table) (hwf : ∀ c ∈ df.cols, c.2.length = df.nrows)
    (f : String) (vs : List Value) (h : evalFormula df f = some vs) :
    vs.length = df.nrows := by
  unfold evalFormula at h
  cases hp : (tokenize (substAll df.colNames f)).bind parseFormula with
  | none => rw [hp] at h; cases h
  | some e =>
      rw [hp] at h
      have h2 : (match evalPE df e with
          | some (EvalV.series xs) => some xs
          | some (EvalV.scalar q) => some (List.replicate df.nrows (Value.num q))
          | none => none) = some vs := h
      cases he : evalPE df e with
      | none => rw [he] at h2; cases h2
      | some r =>
          rw [he] at h2
          cases r with
          | series xs =>
              cases h2
              exact evalPE_okLen df df.nrows hwf e _ he
          | scalar q =>
              cases h2
              exact List.length_replicate _ _

theorem allColsLen_setCol (t : Table) (N : Nat) (h : ∀ c ∈ t.cols, c.2.length = N)
    (n : String) (vs : List Value) (hvs : vs.length = N) :
    ∀ c ∈ (t.setCol n vs).cols, c.2.length = N := by
  intro c hc
  unfold Table.setCol at hc
  by_cases ha : t.cols.any (fun c => c.1 == n) = true
  · rw [if_pos ha] at hc
    obtain ⟨c0, hc0, hceq⟩ := List.mem_map.mp hc
    by_cases hk : (c0.1 == n) = true
    · rw [if_pos hk] at hceq
      rw [← hceq]
      exact hvs
    · rw [if_neg hk] at hceq
      rw [← hceq]
      exact h c0 hc0
  · rw [if_neg ha] at hc
    rcases List.mem_append.mp hc with hc | hc
    · exact h c hc
    · rcases List.mem_singleton.mp hc with rfl
      exact hvs

theorem nrows_mk_cons (c : String × List Value) (l : List (String × List Value)) :
    (Table.mk (c :: l)).nrows = c.2.length := rfl

theorem nrows_setCol (t : Table) (N : Nat) (hn : t.nrows = N) (n : String)
    (vs : List Value) (hvs : vs.length = N) : (t.setCol n vs).nrows = N := by
  obtain ⟨cols⟩ := t
  cases cols with
  | nil =>
      show (Table.setCol ⟨[]⟩ n vs).nrows = N
      unfold Table.setCol
      rw [List.any_nil, if_neg Bool.false_ne_true]
      show vs.length = N
      exact hvs
  | cons c0 rest =>
      show (Table.setCol ⟨c0 :: rest⟩ n vs).nrows = N
      unfold Table.setCol
      by_cases ha : (c0 :: rest).any (fun c => c.1 == n) = true
      · rw [if_pos ha, List.map_cons, nrows_mk_cons]
        by_cases hk : (c0.1 == n) = true
        · rw [if_pos hk]
          exact hvs
        · rw [if_neg hk]
          exact hn
      · rw [if_neg ha, List.cons_append, nrows_mk_cons]
        exact hn

theorem colNames_recalcStep (df acc : Table) (mf : String × String) :
    (recalcStep df acc mf).colNames =
      if mf.1 ∈ acc.colNames then acc.colNames else acc.colNames ++ [mf.1] := by
  unfold recalcStep
  cases he : evalFormula df mf.2 with
  | some vs => exact colNames_setCol acc mf.1 vs
  | none =>
      by_cases hc : acc.colNames.contains mf.1 = true
      · rw [if_pos hc, if_pos (show mf.1 ∈ acc.colNames by simpa using hc)]
      · rw [if_neg hc, colNames_setCol]

theorem colNames_nodup_recalcStep (df acc : Table) (mf : String × String)
    (h : acc.colNames.Nodup) : (recalcStep df acc mf).colNames.Nodup := by
  rw [colNames_recalcStep]
  by_cases hm : mf.1 ∈ acc.colNames
  · rw [if_pos hm]
    exact h
  · rw [if_neg hm]
    rw [List.nodup_append]
    exact ⟨h, List.nodup_singleton _, fun a ha hb => hm (by rw [List.mem_singleton] at hb; rw [← hb]; exact ha)⟩

theorem colNames_nodup_fold (df : Table) :
    ∀ (L : List (String × String)) (acc : Table), acc.colNames.Nodup →
      (L.foldl (recalcStep df) acc).colNames.Nodup := by
  intro L
  induction L with
  | nil => intro acc h; exact h
  | cons mf rest ih =>
      intro acc h
      exact ih (recalcStep df acc mf) (colNames_nodup_recalcStep df acc mf h)

theorem colNames_fold_extends (df : Table) :
    ∀ (L : List (String × String)) (acc : Table),
      ∃ extra : List String,
        (L.foldl (recalcStep df) acc).colNames = acc.colNames ++ extra ∧
        ∀ x ∈ extra, x ∈ L.map Prod.fst := by
  intro L
  induction L with
  | nil =>
      intro acc
      exact ⟨[], (List.append_nil _).symm, fun x hx => absurd hx (List.not_mem_nil x)⟩
  | cons mf rest ih =>
      intro acc
      obtain ⟨extra, heq, hsub⟩ := ih (recalcStep df acc mf)
      by_cases hm : mf.1 ∈ acc.colNames
      · refine ⟨extra, ?_, ?_⟩
        · show (rest.foldl (recalcStep df) (recalcStep df acc mf)).colNames = _
          rw [heq, colNames_recalcStep, if_pos hm]
        · intro x hx
          exact List.mem_cons_of_mem _ (hsub x hx)
      · refine ⟨mf.1 :: extra, ?_, ?_⟩
        · show (rest.foldl (recalcStep df) (recalcStep df acc mf)).colNames = _
          rw [heq, colNames_recalcStep, if_neg hm, List.append_assoc, List.singleton_append]
        · intro x hx
          rcases List.mem_cons.mp hx with rfl | hx
          · exact List.mem_cons_self _ _
          · exact List.mem_cons_of_mem _ (hsub x hx)

theorem recalc_shape_fold (df : Table) (N : Nat) (hdf : ∀ c ∈ df.cols, c.2.length = N)
    (hN : df.nrows = N) :
    ∀ (L : List (String × String)) (acc : Table),
      (∀ c ∈ acc.cols, c.2.length = N) → acc.nrows = N →
      (∀ c ∈ (L.foldl (recalcStep df) acc).cols, c.2.length = N) ∧
        (L.foldl (recalcStep df) acc).nrows = N := by
  intro L
  induction L with
  | nil => intro acc h1 h2; exact ⟨h1, h2⟩
  | cons mf rest ih =>
      intro acc h1 h2
      have hstep : (∀ c ∈ (recalcStep df acc mf).cols, c.2.length = N) ∧
          (recalcStep df acc mf).nrows = N := by
        unfold recalcStep
        cases he : evalFormula df mf.2 with
        | some vs =>
            have hlen : vs.length = N := by
              rw [← hN]
              exact evalFormula_len df (fun c hc => by rw [hN]; exact hdf c hc) mf.2 vs he
            exact ⟨allColsLen_setCol acc N h1 mf.1 vs hlen,
              nrows_setCol acc N h2 mf.1 vs hlen⟩
        | none =>
            by_cases hc : acc.colNames.contains mf.1 = true
            · rw [if_pos hc]
              exact ⟨h1, h2⟩
            · rw [if_neg hc]
              have hlen : (List.replicate df.nrows (Value.num 0)).length = N := by
                rw [List.length_replicate]
                exact hN
              exact ⟨allColsLen_setCol acc N h1 mf.1 _ hlen,
                nrows_setCol acc N h2 mf.1 _ hlen⟩
      exact ih (recalcStep df acc mf) hstep.1 hstep.2

theorem recalc_WF_shape (df : Table) (hwf : df.WF) :
    (∀ c ∈ (recalculate_qmood_metrics df).cols, c.2.length = df.nrows) ∧
    (recalculate_qmood_metrics df).nrows = df.nrows :=
  recalc_shape_fold df df.nrows hwf.1 rfl QMOOD_FORMULAS df hwf.1 rfl

theorem contains_false_of_not_mem (l : List String) (s : String) (h : s ∉ l) :
    l.contains s = false := by
  cases hcb : l.contains s with
  | false => rfl
  | true => exact absurd (by simpa using hcb) h

theorem evalFormula_congr2 (df df' : Table) (f : String)
    (hsub : substAll df'.colNames f = substAll df.colNames f)
    (hrows : df'.nrows = df.nrows)
    (hcols : ∀ s : String, infxOf s.data (substAll df.colNames f).data = true →
      df'.colNames.contains s = df.colNames.contains s ∧ df'.getCol s = df.getCol s) :
    evalFormula df' f = evalFormula df f := by
  unfold evalFormula
  rw [hsub, hrows]
  cases htp : (tokenize (substAll df.colNames f)).bind parseFormula with
  | none => rfl
  | some e =>
      have hcongr : evalPE df' e = evalPE df e := by
        apply evalPE_congr
        intro s hs
        obtain ⟨toks, hlex, hparse⟩ := Option.bind_eq_some.mp htp
        exact hcols s (parsed_cols_infx _ toks e hlex hparse s hs)
      simp only [hcongr]

theorem recalc_eval_agree (T : Table) (hwf : T.WF) (mf : String × String)
    (hmf : mf ∈ QMOOD_FORMULAS) :
    evalFormula (recalculate_qmood_metrics T) mf.2 = evalFormula T mf.2 := by
  obtain ⟨extra, heq, hsub⟩ := colNames_fold_extends T QMOOD_FORMULAS T
  have h1 : (recalculate_qmood_metrics T).colNames = T.colNames ++ extra := heq
  have hmap : QMOOD_FORMULAS.map Prod.fst = QMOOD_METRICS := by decide
  have hextram : ∀ x ∈ extra, x ∈ QMOOD_METRICS := by
    intro x hx
    have hxm := hsub x hx
    rw [hmap] at hxm
    exact hxm
  apply evalFormula_congr2
  · rw [h1, substAll_append]
    exact substAll_ext_noop T.colNames mf hmf extra hextram
  · exact (recalc_WF_shape T hwf).2
  · intro s hinfx
    have hsm : s ∉ QMOOD_METRICS := by
      intro hmem
      rw [metric_not_infx_subst T.colNames s hmem mf hmf] at hinfx
      exact Bool.false_ne_true hinfx
    constructor
    · by_cases hm : s ∈ T.colNames
      · have hm1 : s ∈ (recalculate_qmood_metrics T).colNames := by
          rw [h1]
          exact List.mem_append_left _ hm
        have c1 : (recalculate_qmood_metrics T).colNames.contains s = true := by
          simpa using hm1
        have c2 : T.colNames.contains s = true := by simpa using hm
        rw [c1, c2]
      · have hm1 : s ∉ (recalculate_qmood_metrics T).colNames := by
          rw [h1]
          intro hmem
          rcases List.mem_append.mp hmem with h | h
          · exact hm h
          · exact hsm (hextram s h)
        rw [contains_false_of_not_mem _ s hm1, contains_false_of_not_mem _ s hm]
    · apply recalc_getCol_nonmetric
      intro mf' hmf' hne
      apply hsm
      rw [hne, ← hmap]
      exact List.mem_map_of_mem Prod.fst hmf'

theorem find?_key_of_nodup (l : List (String × List Value)) (c : String × List Value)
    (hnd : (l.map Prod.fst).Nodup) (hc : c ∈ l) :
    l.find? (fun x => x.1 == c.1) = some c := by
  induction l with
  | nil => cases hc
  | cons d rest ih =>
      rcases List.mem_cons.mp hc with rfl | hcr
      · exact List.find?_cons_of_pos _ (by simp)
      · have hnm : d.1 ∉ rest.map Prod.fst := by
          rw [List.map_cons] at hnd
          exact (List.nodup_cons.mp hnd).1
        have hc1 : c.1 ∈ rest.map Prod.fst := List.mem_map_of_mem Prod.fst hcr
        have hdf : (d.1 == c.1) = false := by
          cases hbb : (d.1 == c.1) with
          | false => rfl
          | true =>
              have heq : d.1 = c.1 := by simpa using hbb
              rw [heq] at hnm
              exact absurd hc1 hnm
        have hstep : List.find? (fun x : String × List Value => x.1 == c.1) (d :: rest) =
            List.find? (fun x : String × List Value => x.1 == c.1) rest := by
          show (match (d.1 == c.1) with
            | true => some d
            | false => List.find? (fun x : String × List Value => x.1 == c.1) rest) = _
          rw [hdf]
        rw [hstep]
        apply ih
        · rw [List.map_cons] at hnd
          exact (List.nodup_cons.mp hnd).2
        · exact hcr

theorem map_id_of_eq {α : Type} (l : List α) (f : α → α) (h : ∀ x ∈ l, f x = x) :
    l.map f = l := by
  induction l with
  | nil => rfl
  | cons a rest ih =>
      rw [List.map_cons, h a (List.mem_cons_self _ _),
        ih (fun x hx => h x (List.mem_cons_of_mem _ hx))]

theorem setCol_eq_self (t : Table) (n : String) (vs : List Value)
    (hn : n ∈ t.colNames) (hnd : t.colNames.Nodup) (hv : t.getCol n = vs) :
    t.setCol n vs = t := by
  unfold Table.setCol
  rw [if_pos ((any_key_iff_mem t n).mpr hn)]
  suffices h : t.cols.map (fun c => if c.1 == n then (c.1, vs) else c) = t.cols by
    rw [h]
  apply map_id_of_eq
  intro c hc
  by_cases hk : (c.1 == n) = true
  · rw [if_pos hk]
    have heq : c.1 = n := by simpa using hk
    have hf : t.cols.find? (fun x => x.1 == c.1) = some c :=
      find?_key_of_nodup t.cols c hnd hc
    have hg : t.getCol n = c.2 := by
      unfold Table.getCol
      rw [← heq, hf]
      rfl
    rw [← hv, hg]
  · rw [if_neg hk]

theorem recalcStep_id (df acc : Table) (mf : String × String)
    (hnd : acc.colNames.Nodup) (hmem : mf.1 ∈ acc.colNames)
    (hval : ∀ vs, evalFormula df mf.2 = some vs → acc.getCol mf.1 = vs) :
    recalcStep df acc mf = acc := by
  unfold recalcStep
  cases he : evalFormula df mf.2 with
  | some vs => exact setCol_eq_self acc mf.1 vs hmem hnd (hval vs he)
  | none => rw [if_pos (show acc.colNames.contains mf.1 = true by simpa using hmem)]

theorem foldl_recalcStep_id (df acc : Table) :
    ∀ L : List (String × String), (∀ mf ∈ L, recalcStep df acc mf = acc) →
      L.foldl (recalcStep df) acc = acc := by
  intro L
  induction L with
  | nil => intro _; rfl
  | cons mf rest ih =>
      intro h
      show rest.foldl (recalcStep df) (recalcStep df acc mf) = acc
      rw [h mf (List.mem_cons_self _ _)]
      exact ih (fun x hx => h x (List.mem_cons_of_mem _ hx))

/-- `row.isNum`: the value is a float (used to state that required
columns hold numeric data). -/
def Value.isNum : Value → Bool
  | .num _ => true
  | _ => false

/-- The column names referenced by the six metric formulas. -/
def requiredCols : List String :=
  ["DCC", "lcc", "CIS", "DSC", "DAM", "MOA", "NOP", "ANA", "WMC", "NOH", "MFA"]

/-- C8: recalculation is idempotent. For a well-formed table in which the
eleven columns referenced by the six metric formulas are present with
numeric values, running `recalculate_qmood_metrics` a second time changes
nothing: the second pass substitutes and evaluates each formula to the
very values the first pass already wrote (the metric columns added by the
first pass are never substituted into any formula, since no metric name
can occur in a substituted formula text). -/
theorem claim_C8 (T : Table) (hwf : T.WF)
    (hreq : ∀ v ∈ requiredCols, v ∈ T.colNames)
    (hnum : ∀ v ∈ requiredCols, ∀ x ∈ T.getCol v, x.isNum = true) :
    recalculate_qmood_metrics (recalculate_qmood_metrics T) =
      recalculate_qmood_metrics T := by
  have hnd1 : (recalculate_qmood_metrics T).colNames.Nodup :=
    colNames_nodup_fold T QMOOD_FORMULAS T hwf.2
  show QMOOD_FORMULAS.foldl (recalcStep (recalculate_qmood_metrics T))
    (recalculate_qmood_metrics T) = recalculate_qmood_metrics T
  apply foldl_recalcStep_id
  intro mf hmf
  apply recalcStep_id
  · exact hnd1
  · exact recalc_mem_metric T mf.1 mf.2 hmf
  · intro vs hvs
    rw [recalc_eval_agree T hwf mf hmf] at hvs
    rw [recalc_getCol_metric T mf.1 mf.2 hmf]
    unfold metricOutcome
    rw [hvs]

def wC8 : Table :=
  ⟨[("DCC", [Value.num 2]), ("lcc", [Value.num 1]), ("CIS", [Value.num 3]),
    ("DSC", [Value.num 1]), ("DAM", [Value.num 1]), ("MOA", [Value.num 1]),
    ("NOP", [Value.num 1]), ("ANA", [Value.num 1]), ("WMC", [Value.num 1]),
    ("NOH", [Value.num 1]), ("MFA", [Value.num 1])]⟩

theorem claim_C8_witness :
    wC8.WF ∧ (∀ v ∈ requiredCols, v ∈ wC8.colNames) ∧
    recalculate_qmood_metrics (recalculate_qmood_metrics wC8) =
      recalculate_qmood_metrics wC8 :=
  ⟨by decide, by decide, claim_C8 wC8 (by decide) (by decide) (by decide)⟩

/-! ## C6: whole-token substitution on letter-only column names -/

def isLetterCh (c : Char) : Bool := c.isUpper || c.isLower

theorem letter_isWord (ch : Char) (h : isLetterCh ch = true) : isWordChar ch = true := by
  unfold isWordChar Char.isAlphanum Char.isAlpha
  unfold isLetterCh at h
  rw [h]
  rfl

/-- Does the pattern match (as `\b pat \b`) anywhere in `s`, with `prev`
the character before the scan start? -/
def hasTok (pat : List Char) : Option Char → List Char → Bool
  | prev, [] => matchAt pat prev []
  | prev, c :: rest => matchAt pat prev (c :: rest) || hasTok pat (some c) rest

theorem subGoF_noop (pat repl : List Char) :
    ∀ (fuel : Nat) (prev : Option Char) (s : List Char),
      hasTok pat prev s = false → subGoF pat repl fuel prev s = s := by
  intro fuel
  induction fuel with
  | zero => intro prev s _; rfl
  | succ n ih =>
      intro prev s h
      cases s with
      | nil => rfl
      | cons c rest =>
          have h' : (matchAt pat prev (c :: rest) || hasTok pat (some c) rest) = false := h
          cases hm : matchAt pat prev (c :: rest) with
          | true => rw [hm] at h'; simp at h'
          | false =>
              rw [hm] at h'
              simp at h'
              show (if matchAt pat prev (c :: rest) = true then
                  repl ++ subGoF pat repl n pat.getLast? ((c :: rest).drop pat.length)
                else c :: subGoF pat repl n (some c) rest) = c :: rest
              rw [hm, if_neg Bool.false_ne_true, ih (some c) rest h']

theorem token_eq_takeWhile :
    ∀ (pat s : List Char), pat.isPrefixOf s = true →
      (∀ ch ∈ pat, isWordChar ch = true) →
      headIsWord (s.drop pat.length) = false →
      pat = s.takeWhile isWordChar := by
  intro pat
  induction pat with
  | nil =>
      intro s _ _ hnext
      cases s with
      | nil => rfl
      | cons c rest =>
          have hcw : isWordChar c = false := hnext
          rw [List.takeWhile_cons, hcw, if_neg Bool.false_ne_true]
  | cons pc prest ih =>
      intro s hpre hall hnext
      cases s with
      | nil =>
          have hf : (pc :: prest).isPrefixOf ([] : List Char) = false := rfl
          rw [hf] at hpre
          exact absurd hpre Bool.false_ne_true
      | cons c rest =>
          have hpre' : (pc == c && prest.isPrefixOf rest) = true := hpre
          rw [Bool.and_eq_true] at hpre'
          have hc : pc = c := by simpa using hpre'.1
          have hw : isWordChar c = true := by
            rw [← hc]
            exact hall pc (List.mem_cons_self _ _)
          rw [List.takeWhile_cons, hw, if_pos rfl]
          have htail : prest = rest.takeWhile isWordChar :=
            ih rest hpre'.2 (fun ch hch => hall ch (List.mem_cons_of_mem _ hch)) hnext
          rw [hc, htail]

theorem lastIsWord_of_all :
    ∀ (l : List Char), l ≠ [] → (∀ ch ∈ l, isWordChar ch = true) →
      lastIsWord l = true := by
  intro l
  induction l with
  | nil => intro h _; exact absurd rfl h
  | cons a as ih =>
      intro _ hw
      cases as with
      | nil =>
          unfold lastIsWord
          rw [show ([a] : List Char).getLast? = some a from rfl]
          exact hw a (List.mem_cons_self _ _)
      | cons b bs =>
          have h1 : lastIsWord (b :: bs) = true :=
            ih (by simp) (fun ch hch => hw ch (List.mem_cons_of_mem _ hch))
          unfold lastIsWord
          rw [show (a :: b :: bs).getLast? = (b :: bs).getLast? from rfl]
          unfold lastIsWord at h1
          exact h1

/-- The word tokens of `s`: at every position whose previous character is
not a word character, the maximal word-character run starting there. -/
def maxRuns : Option Char → List Char → List (List Char)
  | _, [] => []
  | prev, c :: rest =>
      if prevIsWord prev then maxRuns (some c) rest
      else (c :: rest).takeWhile isWordChar :: maxRuns (some c) rest

theorem hasTok_mem_maxRuns (pat : List Char) (hw : ∀ ch ∈ pat, isWordChar ch = true)
    (hne : pat ≠ []) :
    ∀ (s : List Char) (prev : Option Char), hasTok pat prev s = true →
      pat ∈ maxRuns prev s := by
  intro s
  induction s with
  | nil =>
      intro prev h
      exfalso
      cases pat with
      | nil => exact hne rfl
      | cons a as =>
          have hm : matchAt (a :: as) prev [] = false := by
            unfold matchAt
            rw [show (a :: as).isPrefixOf ([] : List Char) = false from rfl]
            rfl
          have h' : matchAt (a :: as) prev [] = true := h
          rw [hm] at h'
          exact Bool.false_ne_true h'
  | cons c rest ih =>
      intro prev h
      have hhead : headIsWord pat = true := by
        cases pat with
        | nil => exact absurd rfl hne
        | cons a as => exact hw a (List.mem_cons_self _ _)
      by_cases hm : matchAt pat prev (c :: rest) = true
      · have hm' : ((pat.isPrefixOf (c :: rest) &&
            (prevIsWord prev != headIsWord pat)) &&
            (lastIsWord pat != headIsWord ((c :: rest).drop pat.length))) = true := hm
        rw [Bool.and_eq_true, Bool.and_eq_true] at hm'
        have hlast : lastIsWord pat = true := lastIsWord_of_all pat hne hw
        have hnext : headIsWord ((c :: rest).drop pat.length) = false := by
          have h2 := hm'.2
          rw [hlast] at h2
          simpa using h2
        have hprev : prevIsWord prev = false := by
          have h2 := hm'.1.2
          rw [hhead] at h2
          simpa using h2
        have hp : pat = (c :: rest).takeWhile isWordChar :=
          token_eq_takeWhile pat (c :: rest) hm'.1.1 hw hnext
        show pat ∈ (if prevIsWord prev = true then maxRuns (some c) rest
          else (c :: rest).takeWhile isWordChar :: maxRuns (some c) rest)
        rw [if_neg (by rw [hprev]; exact Bool.false_ne_true), hp]
        exact List.mem_cons_self _ _
      · have h' : (matchAt pat prev (c :: rest) || hasTok pat (some c) rest) = true := h
        have hmf : matchAt pat prev (c :: rest) = false := by
          cases hmm : matchAt pat prev (c :: rest) with
          | false => rfl
          | true => exact absurd hmm hm
        rw [hmf] at h'
        simp at h'
        have hrec : pat ∈ maxRuns (some c) rest := ih (some c) h'
        show pat ∈ (if prevIsWord prev = true then maxRuns (some c) rest
          else (c :: rest).takeWhile isWordChar :: maxRuns (some c) rest)
        by_cases hpw : prevIsWord prev = true
        · rw [if_pos hpw]; exact hrec
        · rw [if_neg hpw]; exact List.mem_cons_of_mem _ hrec

/-- The Understandability formula text with any subset of its seven
variables already replaced by their column references. -/
def vsubB (b : Bool) (v : String) : String :=
  if b then "df['" ++ v ++ "']" else v

def formU (fa fd fc fl fn fw fs : Bool) : String :=
  "-0.33 * " ++ vsubB fa "ANA" ++ " + 0.33 * " ++ vsubB fd "DAM" ++ " - 0.33 * " ++
    vsubB fc "DCC" ++ " + 0.33 * " ++ vsubB fl "lcc" ++ " - 0.33 * " ++ vsubB fn "NOP" ++
    " - 0.33 * " ++ vsubB fw "WMC" ++ " + - 0.33 * " ++ vsubB fs "DSC"

theorem formU_false : formU false false false false false false false =
    "-0.33 * ANA + 0.33 * DAM - 0.33 * DCC + 0.33 * lcc - 0.33 * NOP - 0.33 * WMC + - 0.33 * DSC" :=
  rfl

set_option maxRecDepth 100000

theorem substU_ANA : ∀ fd fc fl fn fw fs : Bool,
    substituteCol (formU false fd fc fl fn fw fs) "ANA" = formU true fd fc fl fn fw fs := by
  decide

theorem substU_DAM : ∀ fa fc fl fn fw fs : Bool,
    substituteCol (formU fa false fc fl fn fw fs) "DAM" = formU fa true fc fl fn fw fs := by
  decide

theorem substU_DCC : ∀ fa fd fl fn fw fs : Bool,
    substituteCol (formU fa fd false fl fn fw fs) "DCC" = formU fa fd true fl fn fw fs := by
  decide

theorem substU_lcc : ∀ fa fd fc fn fw fs : Bool,
    substituteCol (formU fa fd fc false fn fw fs) "lcc" = formU fa fd fc true fn fw fs := by
  decide

theorem substU_NOP : ∀ fa fd fc fl fw fs : Bool,
    substituteCol (formU fa fd fc fl false fw fs) "NOP" = formU fa fd fc fl true fw fs := by
  decide

theorem substU_WMC : ∀ fa fd fc fl fn fs : Bool,
    substituteCol (formU fa fd fc fl fn false fs) "WMC" = formU fa fd fc fl fn true fs := by
  decide

theorem substU_DSC : ∀ fa fd fc fl fn fw : Bool,
    substituteCol (formU fa fd fc fl fn fw false) "DSC" = formU fa fd fc fl fn fw true := by
  decide

/-- In any partial substitution state of the Understandability formula,
the only nonempty all-letter word tokens are the seven variables and
`df`. -/
theorem formU_runs : ∀ fa fd fc fl fn fw fs : Bool,
    ∀ r ∈ maxRuns none (formU fa fd fc fl fn fw fs).data, r ≠ [] →
      (∀ ch ∈ r, isLetterCh ch = true) →
        (r = "ANA".data ∨ r = "DAM".data ∨ r = "DCC".data ∨ r = "lcc".data ∨
         r = "NOP".data ∨ r = "WMC".data ∨ r = "DSC".data ∨ r = "df".data) := by
  decide

theorem wordBoundSub_noop (col expr : String) (hne : col.data ≠ [])
    (htok : hasTok col.data none expr.data = false) :
    wordBoundSub col expr = expr := by
  obtain ⟨cd⟩ := col
  cases cd with
  | nil => exact absurd rfl hne
  | cons a as =>
      show String.mk (subGoF (a :: as) ("df['".data ++ (a :: as) ++ "']".data)
        (expr.data.length + 1) none expr.data) = expr
      rw [subGoF_noop (a :: as) _ (expr.data.length + 1) none expr.data htok]

theorem substituteCol_noop (expr c : String) (hne : c.data ≠ [])
    (hnotok : hasTok c.data none expr.data = false) :
    substituteCol expr c = expr := by
  unfold substituteCol
  by_cases hinf : infxOf c.data expr.data = true
  · rw [if_pos hinf]
    exact wordBoundSub_noop c expr hne hnotok
  · rw [if_neg hinf]

theorem formU_noTok (fa fd fc fl fn fw fs : Bool) (c : String)
    (hne : c.data ≠ []) (hlet : ∀ ch ∈ c.data, isLetterCh ch = true)
    (hnot : ¬(c = "ANA" ∨ c = "DAM" ∨ c = "DCC" ∨ c = "lcc" ∨ c = "NOP" ∨
      c = "WMC" ∨ c = "DSC" ∨ c = "df")) :
    hasTok c.data none (formU fa fd fc fl fn fw fs).data = false := by
  cases hht : hasTok c.data none (formU fa fd fc fl fn fw fs).data with
  | false => rfl
  | true =>
      exfalso
      have hword : ∀ ch ∈ c.data, isWordChar ch = true :=
        fun ch hch => letter_isWord ch (hlet ch hch)
      have hmem := hasTok_mem_maxRuns c.data hword hne _ none hht
      have h8 := formU_runs fa fd fc fl fn fw fs c.data hmem hne hlet
      apply hnot
      obtain ⟨cd⟩ := c
      rcases h8 with h|h|h|h|h|h|h|h
      · exact Or.inl (by rw [show cd = "ANA".data from h])
      · exact Or.inr (Or.inl (by rw [show cd = "DAM".data from h]))
      · exact Or.inr (Or.inr (Or.inl (by rw [show cd = "DCC".data from h])))
      · exact Or.inr (Or.inr (Or.inr (Or.inl (by rw [show cd = "lcc".data from h]))))
      · exact Or.inr (Or.inr (Or.inr (Or.inr (Or.inl (by
          rw [show cd = "NOP".data from h])))))
      · exact Or.inr (Or.inr (Or.inr (Or.inr (Or.inr (Or.inl (by
          rw [show cd = "WMC".data from h]))))))
      · exact Or.inr (Or.inr (Or.inr (Or.inr (Or.inr (Or.inr (Or.inl (by
          rw [show cd = "DSC".data from h])))))))
      · exact Or.inr (Or.inr (Or.inr (Or.inr (Or.inr (Or.inr (Or.inr (by
          rw [show cd = "df".data from h])))))))

theorem contains_cons_self (a : String) (l : List String) : (a :: l).contains a = true := by
  simp

theorem contains_cons_of_ne (a b : String) (l : List String) (h : ¬ b = a) :
    (a :: l).contains b = l.contains b := by
  have hba : (b == a) = false := beq_eq_false_iff_ne.mpr h
  show (match b == a with | true => true | false => List.elem b l) = List.elem b l
  rw [hba]

set_option maxHeartbeats 4000000 in
/-- The substitution loop on the Understandability formula over a list of
nonempty all-letter column names (none equal to `df`): every occurrence of
one of the seven variables gets replaced exactly once, every other column
name is a no-op. -/
theorem substFold_U :
    ∀ (cols : List String) (fa fd fc fl fn fw fs : Bool),
      (∀ c ∈ cols, c.data ≠ [] ∧ (∀ ch ∈ c.data, isLetterCh ch = true) ∧ c ≠ "df") →
      cols.Nodup →
      (fa = true → "ANA" ∉ cols) → (fd = true → "DAM" ∉ cols) →
      (fc = true → "DCC" ∉ cols) → (fl = true → "lcc" ∉ cols) →
      (fn = true → "NOP" ∉ cols) → (fw = true → "WMC" ∉ cols) →
      (fs = true → "DSC" ∉ cols) →
      List.foldl substituteCol (formU fa fd fc fl fn fw fs) cols =
        formU (fa || cols.contains "ANA") (fd || cols.contains "DAM")
          (fc || cols.contains "DCC") (fl || cols.contains "lcc")
          (fn || cols.contains "NOP") (fw || cols.contains "WMC")
          (fs || cols.contains "DSC") := by
  intro cols
  induction cols with
  | nil =>
      intro fa fd fc fl fn fw fs _ _ _ _ _ _ _ _ _
      simp
  | cons c rest ih =>
      intro fa fd fc fl fn fw fs hgood hnd hA hD hC hL hN hW hS
      have hgr : ∀ x ∈ rest, x.data ≠ [] ∧ (∀ ch ∈ x.data, isLetterCh ch = true) ∧ x ≠ "df" :=
        fun x hx => hgood x (List.mem_cons_of_mem _ hx)
      have hndr : rest.Nodup := (List.nodup_cons.mp hnd).2
      have hcr : c ∉ rest := (List.nodup_cons.mp hnd).1
      by_cases h1 : c = "ANA"
      · subst h1
        have hfa : fa = false := by
          cases hfa : fa with
          | false => rfl
          | true => exact absurd (List.mem_cons_self _ _) (hA hfa)
        subst hfa
        rw [List.foldl_cons,
          substU_ANA fd fc fl fn fw fs, contains_cons_self,
          contains_cons_of_ne _ _ _ (by decide : ¬("DAM" : String) = "ANA"),
          contains_cons_of_ne _ _ _ (by decide : ¬("DCC" : String) = "ANA"),
          contains_cons_of_ne _ _ _ (by decide : ¬("lcc" : String) = "ANA"),
          contains_cons_of_ne _ _ _ (by decide : ¬("NOP" : String) = "ANA"),
          contains_cons_of_ne _ _ _ (by decide : ¬("WMC" : String) = "ANA"),
          contains_cons_of_ne _ _ _ (by decide : ¬("DSC" : String) = "ANA")]
        exact ih true fd fc fl fn fw fs hgr hndr (fun _ => hcr)
          (fun h hm => hD h (List.mem_cons_of_mem _ hm))
          (fun h hm => hC h (List.mem_cons_of_mem _ hm))
          (fun h hm => hL h (List.mem_cons_of_mem _ hm))
          (fun h hm => hN h (List.mem_cons_of_mem _ hm))
          (fun h hm => hW h (List.mem_cons_of_mem _ hm))
          (fun h hm => hS h (List.mem_cons_of_mem _ hm))
      · by_cases h2 : c = "DAM"
        · subst h2
          have hfd : fd = false := by
            cases hfd : fd with
            | false => rfl
            | true => exact absurd (List.mem_cons_self _ _) (hD hfd)
          subst hfd
          rw [List.foldl_cons,
            substU_DAM fa fc fl fn fw fs, contains_cons_self,
            contains_cons_of_ne _ _ _ (by decide : ¬("ANA" : String) = "DAM"),
            contains_cons_of_ne _ _ _ (by decide : ¬("DCC" : String) = "DAM"),
            contains_cons_of_ne _ _ _ (by decide : ¬("lcc" : String) = "DAM"),
            contains_cons_of_ne _ _ _ (by decide : ¬("NOP" : String) = "DAM"),
            contains_cons_of_ne _ _ _ (by decide : ¬("WMC" : String) = "DAM"),
            contains_cons_of_ne _ _ _ (by decide : ¬("DSC" : String) = "DAM")]
          exact ih fa true fc fl fn fw fs hgr hndr
            (fun h hm => hA h (List.mem_cons_of_mem _ hm)) (fun _ => hcr)
            (fun h hm => hC h (List.mem_cons_of_mem _ hm))
            (fun h hm => hL h (List.mem_cons_of_mem _ hm))
            (fun h hm => hN h (List.mem_cons_of_mem _ hm))
            (fun h hm => hW h (List.mem_cons_of_mem _ hm))
            (fun h hm => hS h (List.mem_cons_of_mem _ hm))
        · by_cases h3 : c = "DCC"
          · subst h3
            have hfc : fc = false := by
              cases hfc : fc with
              | false => rfl
              | true => exact absurd (List.mem_cons_self _ _) (hC hfc)
            subst hfc
            rw [List.foldl_cons,
              substU_DCC fa fd fl fn fw fs, contains_cons_self,
              contains_cons_of_ne _ _ _ (by decide : ¬("ANA" : String) = "DCC"),
              contains_cons_of_ne _ _ _ (by decide : ¬("DAM" : String) = "DCC"),
              contains_cons_of_ne _ _ _ (by decide : ¬("lcc" : String) = "DCC"),
              contains_cons_of_ne _ _ _ (by decide : ¬("NOP" : String) = "DCC"),
              contains_cons_of_ne _ _ _ (by decide : ¬("WMC" : String) = "DCC"),
              contains_cons_of_ne _ _ _ (by decide : ¬("DSC" : String) = "DCC")]
            exact ih fa fd true fl fn fw fs hgr hndr
              (fun h hm => hA h (List.mem_cons_of_mem _ hm))
              (fun h hm => hD h (List.mem_cons_of_mem _ hm)) (fun _ => hcr)
              (fun h hm => hL h (List.mem_cons_of_mem _ hm))
              (fun h hm => hN h (List.mem_cons_of_mem _ hm))
              (fun h hm => hW h (List.mem_cons_of_mem _ hm))
              (fun h hm => hS h (List.mem_cons_of_mem _ hm))
          · by_cases h4 : c = "lcc"
            · subst h4
              have hfl : fl = false := by
                cases hfl : fl with
                | false => rfl
                | true => exact absurd (List.mem_cons_self _ _) (hL hfl)
              subst hfl
              rw [List.foldl_cons,
                substU_lcc fa fd fc fn fw fs, contains_cons_self,
                contains_cons_of_ne _ _ _ (by decide : ¬("ANA" : String) = "lcc"),
                contains_cons_of_ne _ _ _ (by decide : ¬("DAM" : String) = "lcc"),
                contains_cons_of_ne _ _ _ (by decide : ¬("DCC" : String) = "lcc"),
                contains_cons_of_ne _ _ _ (by decide : ¬("NOP" : String) = "lcc"),
                contains_cons_of_ne _ _ _ (by decide : ¬("WMC" : String) = "lcc"),
                contains_cons_of_ne _ _ _ (by decide : ¬("DSC" : String) = "lcc")]
              exact ih fa fd fc true fn fw fs hgr hndr
                (fun h hm => hA h (List.mem_cons_of_mem _ hm))
                (fun h hm => hD h (List.mem_cons_of_mem _ hm))
                (fun h hm => hC h (List.mem_cons_of_mem _ hm)) (fun _ => hcr)
                (fun h hm => hN h (List.mem_cons_of_mem _ hm))
                (fun h hm => hW h (List.mem_cons_of_mem _ hm))
                (fun h hm => hS h (List.mem_cons_of_mem _ hm))
            · by_cases h5 : c = "NOP"
              · subst h5
                have hfn : fn = false := by
                  cases hfn : fn with
                  | false => rfl
                  | true => exact absurd (List.mem_cons_self _ _) (hN hfn)
                subst hfn
                rw [List.foldl_cons,
                  substU_NOP fa fd fc fl fw fs, contains_cons_self,
                  contains_cons_of_ne _ _ _ (by decide : ¬("ANA" : String) = "NOP"),
                  contains_cons_of_ne _ _ _ (by decide : ¬("DAM" : String) = "NOP"),
                  contains_cons_of_ne _ _ _ (by decide : ¬("DCC" : String) = "NOP"),
                  contains_cons_of_ne _ _ _ (by decide : ¬("lcc" : String) = "NOP"),
                  contains_cons_of_ne _ _ _ (by decide : ¬("WMC" : String) = "NOP"),
                  contains_cons_of_ne _ _ _ (by decide : ¬("DSC" : String) = "NOP")]
                exact ih fa fd fc fl true fw fs hgr hndr
                  (fun h hm => hA h (List.mem_cons_of_mem _ hm))
                  (fun h hm => hD h (List.mem_cons_of_mem _ hm))
                  (fun h hm => hC h (List.mem_cons_of_mem _ hm))
                  (fun h hm => hL h (List.mem_cons_of_mem _ hm)) (fun _ => hcr)
                  (fun h hm => hW h (List.mem_cons_of_mem _ hm))
                  (fun h hm => hS h (List.mem_cons_of_mem _ hm))
              · by_cases h6 : c = "WMC"
                · subst h6
                  have hfw : fw = false := by
                    cases hfw : fw with
                    | false => rfl
                    | true => exact absurd (List.mem_cons_self _ _) (hW hfw)
                  subst hfw
                  rw [List.foldl_cons,
                    substU_WMC fa fd fc fl fn fs, contains_cons_self,
                    contains_cons_of_ne _ _ _ (by decide : ¬("ANA" : String) = "WMC"),
                    contains_cons_of_ne _ _ _ (by decide : ¬("DAM" : String) = "WMC"),
                    contains_cons_of_ne _ _ _ (by decide : ¬("DCC" : String) = "WMC"),
                    contains_cons_of_ne _ _ _ (by decide : ¬("lcc" : String) = "WMC"),
                    contains_cons_of_ne _ _ _ (by decide : ¬("NOP" : String) = "WMC"),
                    contains_cons_of_ne _ _ _ (by decide : ¬("DSC" : String) = "WMC")]
                  exact ih fa fd fc fl fn true fs hgr hndr
                    (fun h hm => hA h (List.mem_cons_of_mem _ hm))
                    (fun h hm => hD h (List.mem_cons_of_mem _ hm))
                    (fun h hm => hC h (List.mem_cons_of_mem _ hm))
                    (fun h hm => hL h (List.mem_cons_of_mem _ hm))
                    (fun h hm => hN h (List.mem_cons_of_mem _ hm)) (fun _ => hcr)
                    (fun h hm => hS h (List.mem_cons_of_mem _ hm))
                · by_cases h7 : c = "DSC"
                  · subst h7
                    have hfs : fs = false := by
                      cases hfs : fs with
                      | false => rfl
                      | true => exact absurd (List.mem_cons_self _ _) (hS hfs)
                    subst hfs
                    rw [List.foldl_cons,
                      substU_DSC fa fd fc fl fn fw, contains_cons_self,
                      contains_cons_of_ne _ _ _ (by decide : ¬("ANA" : String) = "DSC"),
                      contains_cons_of_ne _ _ _ (by decide : ¬("DAM" : String) = "DSC"),
                      contains_cons_of_ne _ _ _ (by decide : ¬("DCC" : String) = "DSC"),
                      contains_cons_of_ne _ _ _ (by decide : ¬("lcc" : String) = "DSC"),
                      contains_cons_of_ne _ _ _ (by decide : ¬("NOP" : String) = "DSC"),
                      contains_cons_of_ne _ _ _ (by decide : ¬("WMC" : String) = "DSC")]
                    exact ih fa fd fc fl fn fw true hgr hndr
                      (fun h hm => hA h (List.mem_cons_of_mem _ hm))
                      (fun h hm => hD h (List.mem_cons_of_mem _ hm))
                      (fun h hm => hC h (List.mem_cons_of_mem _ hm))
                      (fun h hm => hL h (List.mem_cons_of_mem _ hm))
                      (fun h hm => hN h (List.mem_cons_of_mem _ hm))
                      (fun h hm => hW h (List.mem_cons_of_mem _ hm)) (fun _ => hcr)
                  · have hgc := hgood c (List.mem_cons_self _ _)
                    have hnot : ¬(c = "ANA" ∨ c = "DAM" ∨ c = "DCC" ∨ c = "lcc" ∨
                        c = "NOP" ∨ c = "WMC" ∨ c = "DSC" ∨ c = "df") := by
                      intro hor
                      rcases hor with h|h|h|h|h|h|h|h
                      · exact h1 h
                      · exact h2 h
                      · exact h3 h
                      · exact h4 h
                      · exact h5 h
                      · exact h6 h
                      · exact h7 h
                      · exact hgc.2.2 h
                    rw [List.foldl_cons,
                      substituteCol_noop (formU fa fd fc fl fn fw fs) c hgc.1
                        (formU_noTok fa fd fc fl fn fw fs c hgc.1 hgc.2.1 hnot),
                      contains_cons_of_ne _ _ _ (fun he => h1 he.symm),
                      contains_cons_of_ne _ _ _ (fun he => h2 he.symm),
                      contains_cons_of_ne _ _ _ (fun he => h3 he.symm),
                      contains_cons_of_ne _ _ _ (fun he => h4 he.symm),
                      contains_cons_of_ne _ _ _ (fun he => h5 he.symm),
                      contains_cons_of_ne _ _ _ (fun he => h6 he.symm),
                      contains_cons_of_ne _ _ _ (fun he => h7 he.symm)]
                    exact ih fa fd fc fl fn fw fs hgr hndr
                      (fun h hm => hA h (List.mem_cons_of_mem _ hm))
                      (fun h hm => hD h (List.mem_cons_of_mem _ hm))
                      (fun h hm => hC h (List.mem_cons_of_mem _ hm))
                      (fun h hm => hL h (List.mem_cons_of_mem _ hm))
                      (fun h hm => hN h (List.mem_cons_of_mem _ hm))
                      (fun h hm => hW h (List.mem_cons_of_mem _ hm))
                      (fun h hm => hS h (List.mem_cons_of_mem _ hm))

theorem substAll_U (cols : List String)
    (hgood : ∀ c ∈ cols, c.data ≠ [] ∧ (∀ ch ∈ c.data, isLetterCh ch = true) ∧ c ≠ "df")
    (hnd : cols.Nodup)
    (hA : "ANA" ∈ cols) (hD : "DAM" ∈ cols) (hC : "DCC" ∈ cols) (hL : "lcc" ∈ cols)
    (hN : "NOP" ∈ cols) (hW : "WMC" ∈ cols) (hS : "DSC" ∈ cols) :
    substAll cols
      "-0.33 * ANA + 0.33 * DAM - 0.33 * DCC + 0.33 * lcc - 0.33 * NOP - 0.33 * WMC + - 0.33 * DSC" =
      formU true true true true true true true := by
  unfold substAll
  rw [← formU_false]
  rw [substFold_U cols false false false false false false false hgood hnd
    (fun h => absurd h Bool.false_ne_true) (fun h => absurd h Bool.false_ne_true)
    (fun h => absurd h Bool.false_ne_true) (fun h => absurd h Bool.false_ne_true)
    (fun h => absurd h Bool.false_ne_true) (fun h => absurd h Bool.false_ne_true)
    (fun h => absurd h Bool.false_ne_true)]
  rw [show cols.contains "ANA" = true by simpa using hA,
    show cols.contains "DAM" = true by simpa using hD,
    show cols.contains "DCC" = true by simpa using hC,
    show cols.contains "lcc" = true by simpa using hL,
    show cols.contains "NOP" = true by simpa using hN,
    show cols.contains "WMC" = true by simpa using hW,
    show cols.contains "DSC" = true by simpa using hS]
  rfl

/-- The parse tree of the fully substituted Understandability formula. -/
def UAST : PExpr :=
  .add (.sub (.sub (.add (.sub (.add (.mul (.neg (.num (33/100))) (.col "ANA"))
    (.mul (.num (33/100)) (.col "DAM"))) (.mul (.num (33/100)) (.col "DCC")))
    (.mul (.num (33/100)) (.col "lcc"))) (.mul (.num (33/100)) (.col "NOP")))
    (.mul (.num (33/100)) (.col "WMC"))) (.mul (.neg (.num (33/100))) (.col "DSC"))

unseal Rat.mul Rat.inv Rat.add Rat.sub in
theorem parse_UAST :
    (tokenize (formU true true true true true true true)).bind parseFormula = some UAST := by
  decide

theorem evalPE_neg_eq (df : Table) (a : PExpr) (va r : EvalV)
    (ha : evalPE df a = some va) (hr : evNeg va = some r) :
    evalPE df (.neg a) = some r := by
  show (evalPE df a).bind evNeg = some r
  rw [ha]
  exact hr

theorem evalPE_mul_eq (df : Table) (a b : PExpr) (va vb r : EvalV)
    (ha : evalPE df a = some va) (hb : evalPE df b = some vb)
    (hr : evBin vMul va vb = some r) : evalPE df (.mul a b) = some r := by
  show (evalPE df a).bind (fun x => (evalPE df b).bind (fun y => evBin vMul x y)) = some r
  rw [ha, hb]
  exact hr

theorem evalPE_add_eq (df : Table) (a b : PExpr) (va vb r : EvalV)
    (ha : evalPE df a = some va) (hb : evalPE df b = some vb)
    (hr : evBin vAdd va vb = some r) : evalPE df (.add a b) = some r := by
  show (evalPE df a).bind (fun x => (evalPE df b).bind (fun y => evBin vAdd x y)) = some r
  rw [ha, hb]
  exact hr

theorem evalPE_sub_eq (df : Table) (a b : PExpr) (va vb r : EvalV)
    (ha : evalPE df a = some va) (hb : evalPE df b = some vb)
    (hr : evBin vSub va vb = some r) : evalPE df (.sub a b) = some r := by
  show (evalPE df a).bind (fun x => (evalPE df b).bind (fun y => evBin vSub x y)) = some r
  rw [ha, hb]
  exact hr

theorem evalPE_col_num (df : Table) (v : String) (xs : List Rat)
    (hc : df.colNames.contains v = true) (hg : df.getCol v = xs.map Value.num) :
    evalPE df (.col v) = some (.series (xs.map Value.num)) := by
  simp only [evalPE]
  rw [hc, if_pos rfl, hg]

theorem seqOpt_op_scalar_num (op : Value → Value → Option Value) (g : Rat → Rat → Rat)
    (hop : ∀ a b : Rat, op (Value.num a) (Value.num b) = some (Value.num (g a b)))
    (q : Rat) : ∀ xs : List Rat,
      seqOpt ((xs.map Value.num).map (fun v => op (Value.num q) v)) =
        some ((xs.map (fun x => g q x)).map Value.num) := by
  intro xs
  induction xs with
  | nil => rfl
  | cons x rest ih =>
      show seqOpt (op (Value.num q) (Value.num x) ::
        (rest.map Value.num).map (fun v => op (Value.num q) v)) = _
      rw [hop q x]
      show (seqOpt ((rest.map Value.num).map (fun v => op (Value.num q) v))).map
        (Value.num (g q x) :: ·) = _
      rw [ih]
      rfl

theorem evBin_scalar_series (op : Value → Value → Option Value) (g : Rat → Rat → Rat)
    (hop : ∀ a b : Rat, op (Value.num a) (Value.num b) = some (Value.num (g a b)))
    (q : Rat) (xs : List Rat) :
    evBin op (.scalar q) (.series (xs.map Value.num)) =
      some (.series ((xs.map (fun x => g q x)).map Value.num)) := by
  simp only [evBin]
  rw [seqOpt_op_scalar_num op g hop q xs]
  rfl

theorem seqOpt_op_zip_num (op : Value → Value → Option Value) (g : Rat → Rat → Rat)
    (hop : ∀ a b : Rat, op (Value.num a) (Value.num b) = some (Value.num (g a b))) :
    ∀ (xs ys : List Rat), xs.length = ys.length →
      seqOpt (((xs.map Value.num).zip (ys.map Value.num)).map (fun p => op p.1 p.2)) =
        some ((List.zipWith g xs ys).map Value.num) := by
  intro xs
  induction xs with
  | nil => intro ys _; rfl
  | cons x xr ih =>
      intro ys h
      cases ys with
      | nil => simp at h
      | cons y yr =>
          have h' : xr.length = yr.length := by simpa using h
          show seqOpt (op (Value.num x) (Value.num y) ::
            ((xr.map Value.num).zip (yr.map Value.num)).map (fun p => op p.1 p.2)) = _
          rw [hop x y]
          show (seqOpt (((xr.map Value.num).zip (yr.map Value.num)).map
            (fun p => op p.1 p.2))).map (Value.num (g x y) :: ·) = _
          rw [ih yr h']
          rfl

theorem evBin_series_series (op : Value → Value → Option Value) (g : Rat → Rat → Rat)
    (hop : ∀ a b : Rat, op (Value.num a) (Value.num b) = some (Value.num (g a b)))
    (xs ys : List Rat) (h : xs.length = ys.length) :
    evBin op (.series (xs.map Value.num)) (.series (ys.map Value.num)) =
      some (.series ((List.zipWith g xs ys).map Value.num)) := by
  simp only [evBin]
  rw [List.length_map, List.length_map, if_pos h]
  rw [seqOpt_op_zip_num op g hop xs ys h]
  rfl

/-- The elementwise value of the substituted Understandability expression,
mirroring the evaluation order of the parsed tree. -/
def uList (as ds cs ls ns ws ss : List Rat) : List Rat :=
  List.zipWith (fun x y => x + y)
    (List.zipWith (fun x y => x - y)
      (List.zipWith (fun x y => x - y)
        (List.zipWith (fun x y => x + y)
          (List.zipWith (fun x y => x - y)
            (List.zipWith (fun x y => x + y)
              (as.map (fun x => -(33/100 : Rat) * x))
              (ds.map (fun x => (33/100 : Rat) * x)))
            (cs.map (fun x => (33/100 : Rat) * x)))
          (ls.map (fun x => (33/100 : Rat) * x)))
        (ns.map (fun x => (33/100 : Rat) * x)))
      (ws.map (fun x => (33/100 : Rat) * x)))
    (ss.map (fun x => -(33/100 : Rat) * x))

theorem evalPE_UAST (df : Table) (as ds cs ls ns ws ss : List Rat) (N : Nat)
    (hlA : as.length = N) (hlD : ds.length = N) (hlC : cs.length = N) (hlL : ls.length = N)
    (hlN : ns.length = N) (hlW : ws.length = N) (hlS : ss.length = N)
    (hcA : df.colNames.contains "ANA" = true) (hgA : df.getCol "ANA" = as.map Value.num)
    (hcD : df.colNames.contains "DAM" = true) (hgD : df.getCol "DAM" = ds.map Value.num)
    (hcC : df.colNames.contains "DCC" = true) (hgC : df.getCol "DCC" = cs.map Value.num)
    (hcL : df.colNames.contains "lcc" = true) (hgL : df.getCol "lcc" = ls.map Value.num)
    (hcN : df.colNames.contains "NOP" = true) (hgN : df.getCol "NOP" = ns.map Value.num)
    (hcW : df.colNames.contains "WMC" = true) (hgW : df.getCol "WMC" = ws.map Value.num)
    (hcS : df.colNames.contains "DSC" = true) (hgS : df.getCol "DSC" = ss.map Value.num) :
    evalPE df UAST = some (.series ((uList as ds cs ls ns ws ss).map Value.num)) := by
  have hopMul : ∀ a b : Rat, vMul (Value.num a) (Value.num b) = some (Value.num (a * b)) :=
    fun a b => rfl
  have hopAdd : ∀ a b : Rat, vAdd (Value.num a) (Value.num b) = some (Value.num (a + b)) :=
    fun a b => rfl
  have hopSub : ∀ a b : Rat, vSub (Value.num a) (Value.num b) = some (Value.num (a - b)) :=
    fun a b => rfl
  have e1 : evalPE df (.mul (.neg (.num (33/100))) (.col "ANA")) =
      some (.series ((as.map (fun x => -(33/100 : Rat) * x)).map Value.num)) :=
    evalPE_mul_eq df _ _ _ _ _ (evalPE_neg_eq df _ _ _ rfl rfl)
      (evalPE_col_num df "ANA" as hcA hgA)
      (evBin_scalar_series vMul (fun a b => a * b) hopMul (-(33/100)) as)
  have e2 : evalPE df (.mul (.num (33/100)) (.col "DAM")) =
      some (.series ((ds.map (fun x => (33/100 : Rat) * x)).map Value.num)) :=
    evalPE_mul_eq df _ _ _ _ _ rfl (evalPE_col_num df "DAM" ds hcD hgD)
      (evBin_scalar_series vMul (fun a b => a * b) hopMul (33/100) ds)
  have e3 : evalPE df (.mul (.num (33/100)) (.col "DCC")) =
      some (.series ((cs.map (fun x => (33/100 : Rat) * x)).map Value.num)) :=
    evalPE_mul_eq df _ _ _ _ _ rfl (evalPE_col_num df "DCC" cs hcC hgC)
      (evBin_scalar_series vMul (fun a b => a * b) hopMul (33/100) cs)
  have e4 : evalPE df (.mul (.num (33/100)) (.col "lcc")) =
      some (.series ((ls.map (fun x => (33/100 : Rat) * x)).map Value.num)) :=
    evalPE_mul_eq df _ _ _ _ _ rfl (evalPE_col_num df "lcc" ls hcL hgL)
      (evBin_scalar_series vMul (fun a b => a * b) hopMul (33/100) ls)
  have e5 : evalPE df (.mul (.num (33/100)) (.col "NOP")) =
      some (.series ((ns.map (fun x => (33/100 : Rat) * x)).map Value.num)) :=
    evalPE_mul_eq df _ _ _ _ _ rfl (evalPE_col_num df "NOP" ns hcN hgN)
      (evBin_scalar_series vMul (fun a b => a * b) hopMul (33/100) ns)
  have e6 : evalPE df (.mul (.num (33/100)) (.col "WMC")) =
      some (.series ((ws.map (fun x => (33/100 : Rat) * x)).map Value.num)) :=
    evalPE_mul_eq df _ _ _ _ _ rfl (evalPE_col_num df "WMC" ws hcW hgW)
      (evBin_scalar_series vMul (fun a b => a * b) hopMul (33/100) ws)
  have e7 : evalPE df (.mul (.neg (.num (33/100))) (.col "DSC")) =
      some (.series ((ss.map (fun x => -(33/100 : Rat) * x)).map Value.num)) :=
    evalPE_mul_eq df _ _ _ _ _ (evalPE_neg_eq df _ _ _ rfl rfl)
      (evalPE_col_num df "DSC" ss hcS hgS)
      (evBin_scalar_series vMul (fun a b => a * b) hopMul (-(33/100)) ss)
  have E2 : evalPE df (.add (.mul (.neg (.num (33/100))) (.col "ANA"))
      (.mul (.num (33/100)) (.col "DAM"))) =
      some (.series ((List.zipWith (fun x y => x + y)
        (as.map (fun x => -(33/100 : Rat) * x))
        (ds.map (fun x => (33/100 : Rat) * x))).map Value.num)) :=
    evalPE_add_eq df _ _ _ _ _ e1 e2
      (evBin_series_series vAdd (fun x y => x + y) hopAdd _ _
        (by rw [List.length_map, List.length_map, hlA, hlD]))
  have E3 : evalPE df (.sub (.add (.mul (.neg (.num (33/100))) (.col "ANA"))
      (.mul (.num (33/100)) (.col "DAM"))) (.mul (.num (33/100)) (.col "DCC"))) =
      some (.series ((List.zipWith (fun x y => x - y)
        (List.zipWith (fun x y => x + y)
          (as.map (fun x => -(33/100 : Rat) * x))
          (ds.map (fun x => (33/100 : Rat) * x)))
        (cs.map (fun x => (33/100 : Rat) * x))).map Value.num)) :=
    evalPE_sub_eq df _ _ _ _ _ E2 e3
      (evBin_series_series vSub (fun x y => x - y) hopSub _ _
        (by rw [List.length_zipWith, List.length_map, List.length_map, List.length_map,
          hlA, hlD, hlC]; exact Nat.min_self N))
  have E4 : evalPE df (.add (.sub (.add (.mul (.neg (.num (33/100))) (.col "ANA"))
      (.mul (.num (33/100)) (.col "DAM"))) (.mul (.num (33/100)) (.col "DCC")))
      (.mul (.num (33/100)) (.col "lcc"))) =
      some (.series ((List.zipWith (fun x y => x + y)
        (List.zipWith (fun x y => x - y)
          (List.zipWith (fun x y => x + y)
            (as.map (fun x => -(33/100 : Rat) * x))
            (ds.map (fun x => (33/100 : Rat) * x)))
          (cs.map (fun x => (33/100 : Rat) * x)))
        (ls.map (fun x => (33/100 : Rat) * x))).map Value.num)) :=
    evalPE_add_eq df _ _ _ _ _ E3 e4
      (evBin_series_series vAdd (fun x y => x + y) hopAdd _ _
        (by rw [List.length_zipWith, List.length_zipWith, List.length_map, List.length_map,
          List.length_map, List.length_map, hlA, hlD, hlC, hlL, Nat.min_self,
          Nat.min_self]))
  have E5 : evalPE df (.sub (.add (.sub (.add (.mul (.neg (.num (33/100))) (.col "ANA"))
      (.mul (.num (33/100)) (.col "DAM"))) (.mul (.num (33/100)) (.col "DCC")))
      (.mul (.num (33/100)) (.col "lcc"))) (.mul (.num (33/100)) (.col "NOP"))) =
      some (.series ((List.zipWith (fun x y => x - y)
        (List.zipWith (fun x y => x + y)
          (List.zipWith (fun x y => x - y)
            (List.zipWith (fun x y => x + y)
              (as.map (fun x => -(33/100 : Rat) * x))
              (ds.map (fun x => (33/100 : Rat) * x)))
            (cs.map (fun x => (33/100 : Rat) * x)))
          (ls.map (fun x => (33/100 : Rat) * x)))
        (ns.map (fun x => (33/100 : Rat) * x))).map Value.num)) :=
    evalPE_sub_eq df _ _ _ _ _ E4 e5
      (evBin_series_series vSub (fun x y => x - y) hopSub _ _
        (by rw [List.length_zipWith, List.length_zipWith, List.length_zipWith,
          List.length_map, List.length_map, List.length_map, List.length_map,
          List.length_map, hlA, hlD, hlC, hlL, hlN, Nat.min_self, Nat.min_self,
          Nat.min_self]))
  have E6 : evalPE df (.sub (.sub (.add (.sub (.add (.mul (.neg (.num (33/100))) (.col "ANA"))
      (.mul (.num (33/100)) (.col "DAM"))) (.mul (.num (33/100)) (.col "DCC")))
      (.mul (.num (33/100)) (.col "lcc"))) (.mul (.num (33/100)) (.col "NOP")))
      (.mul (.num (33/100)) (.col "WMC"))) =
      some (.series ((List.zipWith (fun x y => x - y)
        (List.zipWith (fun x y => x - y)
          (List.zipWith (fun x y => x + y)
            (List.zipWith (fun x y => x - y)
              (List.zipWith (fun x y => x + y)
                (as.map (fun x => -(33/100 : Rat) * x))
                (ds.map (fun x => (33/100 : Rat) * x)))
              (cs.map (fun x => (33/100 : Rat) * x)))
            (ls.map (fun x => (33/100 : Rat) * x)))
          (ns.map (fun x => (33/100 : Rat) * x)))
        (ws.map (fun x => (33/100 : Rat) * x))).map Value.num)) :=
    evalPE_sub_eq df _ _ _ _ _ E5 e6
      (evBin_series_series vSub (fun x y => x - y) hopSub _ _
        (by rw [List.length_zipWith, List.length_zipWith, List.length_zipWith,
          List.length_zipWith, List.length_map, List.length_map, List.length_map,
          List.length_map, List.length_map, List.length_map, hlA, hlD, hlC, hlL,
          hlN, hlW, Nat.min_self, Nat.min_self, Nat.min_self, Nat.min_self]))
  exact evalPE_add_eq df _ _ _ _ _ E6 e7
    (evBin_series_series vAdd (fun x y => x + y) hopAdd _ _
      (by rw [List.length_zipWith, List.length_zipWith, List.length_zipWith,
        List.length_zipWith, List.length_zipWith, List.length_map, List.length_map,
        List.length_map, List.length_map, List.length_map, List.length_map,
        List.length_map, hlA, hlD, hlC, hlL, hlN, hlW, hlS, Nat.min_self,
        Nat.min_self, Nat.min_self, Nat.min_self, Nat.min_self]))

theorem evalFormula_eq_of (df : Table) (f : String) (e : PExpr) (vs : List Value)
    (hp : (tokenize (substAll df.colNames f)).bind parseFormula = some e)
    (he : evalPE df e = some (.series vs)) : evalFormula df f = some vs := by
  unfold evalFormula
  rw [hp]
  have h2 : (match evalPE df e with
      | some (EvalV.series xs) => some xs
      | some (EvalV.scalar q) => some (List.replicate df.nrows (Value.num q))
      | none => none) = some vs := by rw [he]
  exact h2

theorem getCol_len_of_mem (df : Table) (hwf : ∀ c ∈ df.cols, c.2.length = df.nrows)
    (n : String) (hm : n ∈ df.colNames) : (df.getCol n).length = df.nrows := by
  obtain ⟨c, hcm, hp⟩ := List.any_eq_true.mp ((any_key_iff_mem df n).mpr hm)
  cases hf : df.cols.find? (fun c => c.1 == n) with
  | none => exact absurd hp (List.find?_eq_none.mp hf c hcm)
  | some c0 =>
      have hg : df.getCol n = c0.2 := by
        unfold Table.getCol
        rw [hf]
        rfl
      rw [hg]
      exact hwf c0 (List.mem_of_find?_eq_some hf)

theorem getD_zipWith_rat (f : Rat → Rat → Rat) :
    ∀ (xs ys : List Rat) (i : Nat), i < xs.length → i < ys.length →
      (List.zipWith f xs ys).getD i 0 = f (xs.getD i 0) (ys.getD i 0) := by
  intro xs
  induction xs with
  | nil => intro ys i h _; exact absurd h (Nat.not_lt_zero i)
  | cons x xr ih =>
      intro ys i h1 h2
      cases ys with
      | nil => exact absurd h2 (Nat.not_lt_zero i)
      | cons y yr =>
          cases i with
          | zero => rfl
          | succ j =>
              show (List.zipWith f xr yr).getD j 0 = f (xr.getD j 0) (yr.getD j 0)
              exact ih yr j (Nat.lt_of_succ_lt_succ h1) (Nat.lt_of_succ_lt_succ h2)

theorem getD_map_rat (g : Rat → Rat) :
    ∀ (xs : List Rat) (i : Nat), i < xs.length →
      (xs.map g).getD i 0 = g (xs.getD i 0) := by
  intro xs
  induction xs with
  | nil => intro i h; exact absurd h (Nat.not_lt_zero i)
  | cons x xr ih =>
      intro i h
      cases i with
      | zero => rfl
      | succ j =>
          show (xr.map g).getD j 0 = g (xr.getD j 0)
          exact ih j (Nat.lt_of_succ_lt_succ h)

theorem getD_map_num :
    ∀ (xs : List Rat) (i : Nat), i < xs.length →
      (xs.map Value.num).getD i Value.na = Value.num (xs.getD i 0) := by
  intro xs
  induction xs with
  | nil => intro i h; exact absurd h (Nat.not_lt_zero i)
  | cons x xr ih =>
      intro i h
      cases i with
      | zero => rfl
      | succ j =>
          show (xr.map Value.num).getD j Value.na = Value.num (xr.getD j 0)
          exact ih j (Nat.lt_of_succ_lt_succ h)

def wD6 : Table :=
  ⟨[("ANA", [Value.num 1]), ("DAM", [Value.num 2]), ("DCC", [Value.num 3]),
    ("lcc", [Value.num 4]), ("NOP", [Value.num 5]), ("WMC", [Value.num 6]),
    ("DSC", [Value.num 7]), ("0", [Value.num 9])]⟩

unseal Rat.mul Rat.inv Rat.add Rat.sub in
/-- C6 counterexample: a table holding all seven numeric formula columns
plus one extra numeric column named "0". Because `"0" in formula` is true
(the formula text contains the digit 0) and `\b0\b` matches the leading
digit of every coefficient `0.33`, the substitution pass for column "0"
garbles the formula text; evaluation then fails and the recalculated
Understandability column is the `0.0` fallback — not the per-row value
−0.33·ANA + 0.33·DAM − 0.33·DCC + 0.33·lcc − 0.33·NOP − 0.33·WMC − 0.33·DSC
(which is −132/25 for this row). -/
theorem claim_C6_counterexample :
    wD6.WF ∧
    (∀ v ∈ ["ANA", "DAM", "DCC", "lcc", "NOP", "WMC", "DSC"],
      v ∈ wD6.colNames ∧ ∀ x ∈ wD6.getCol v, x.isNum = true) ∧
    ¬((recalculate_qmood_metrics wD6).getCol "Understandability" =
      [Value.num (-(33/100 : Rat) * 1 + (33/100 : Rat) * 2 - (33/100 : Rat) * 3 +
        (33/100 : Rat) * 4 - (33/100 : Rat) * 5 - (33/100 : Rat) * 6 +
        -(33/100 : Rat) * 7)]) := by
  refine ⟨by decide, by decide, by decide⟩

/-- C6 (amended): for every well-formed table whose column names are all
nonempty, purely alphabetic, and distinct from `df`, and which holds the
seven numeric columns ANA, DAM, DCC, lcc, NOP, WMC and DSC, the
recalculated Understandability value of each row equals
−0.33·ANA + 0.33·DAM − 0.33·DCC + 0.33·lcc − 0.33·NOP − 0.33·WMC − 0.33·DSC
evaluated on that row's values. -/
theorem claim_C6_amended (df : Table) (hwf : df.WF)
    (hgood : ∀ c ∈ df.colNames, c.data ≠ [] ∧ (∀ ch ∈ c.data, isLetterCh ch = true) ∧ c ≠ "df")
    (as ds cs ls ns ws ss : List Rat)
    (hA : "ANA" ∈ df.colNames) (hgA : df.getCol "ANA" = as.map Value.num)
    (hD : "DAM" ∈ df.colNames) (hgD : df.getCol "DAM" = ds.map Value.num)
    (hC : "DCC" ∈ df.colNames) (hgC : df.getCol "DCC" = cs.map Value.num)
    (hL : "lcc" ∈ df.colNames) (hgL : df.getCol "lcc" = ls.map Value.num)
    (hN : "NOP" ∈ df.colNames) (hgN : df.getCol "NOP" = ns.map Value.num)
    (hW : "WMC" ∈ df.colNames) (hgW : df.getCol "WMC" = ws.map Value.num)
    (hS : "DSC" ∈ df.colNames) (hgS : df.getCol "DSC" = ss.map Value.num) :
    (recalculate_qmood_metrics df).getCol "Understandability" =
      (uList as ds cs ls ns ws ss).map Value.num ∧
    ∀ i, i < df.nrows →
      ((recalculate_qmood_metrics df).getCol "Understandability").getD i Value.na =
        Value.num (-(33/100 : Rat) * as.getD i 0 + (33/100 : Rat) * ds.getD i 0 -
          (33/100 : Rat) * cs.getD i 0 + (33/100 : Rat) * ls.getD i 0 -
          (33/100 : Rat) * ns.getD i 0 - (33/100 : Rat) * ws.getD i 0 +
          -(33/100 : Rat) * ss.getD i 0) := by
  have hlA : as.length = df.nrows := by
    have h := getCol_len_of_mem df hwf.1 "ANA" hA
    rw [hgA, List.length_map] at h
    exact h
  have hlD : ds.length = df.nrows := by
    have h := getCol_len_of_mem df hwf.1 "DAM" hD
    rw [hgD, List.length_map] at h
    exact h
  have hlC : cs.length = df.nrows := by
    have h := getCol_len_of_mem df hwf.1 "DCC" hC
    rw [hgC, List.length_map] at h
    exact h
  have hlL : ls.length = df.nrows := by
    have h := getCol_len_of_mem df hwf.1 "lcc" hL
    rw [hgL, List.length_map] at h
    exact h
  have hlN : ns.length = df.nrows := by
    have h := getCol_len_of_mem df hwf.1 "NOP" hN
    rw [hgN, List.length_map] at h
    exact h
  have hlW : ws.length = df.nrows := by
    have h := getCol_len_of_mem df hwf.1 "WMC" hW
    rw [hgW, List.length_map] at h
    exact h
  have hlS : ss.length = df.nrows := by
    have h := getCol_len_of_mem df hwf.1 "DSC" hS
    rw [hgS, List.length_map] at h
    exact h
  have hUF : (("Understandability" : String),
      ("-0.33 * ANA + 0.33 * DAM - 0.33 * DCC + 0.33 * lcc - 0.33 * NOP - 0.33 * WMC + - 0.33 * DSC" : String)) ∈
      QMOOD_FORMULAS := by decide
  have hev : evalFormula df
      "-0.33 * ANA + 0.33 * DAM - 0.33 * DCC + 0.33 * lcc - 0.33 * NOP - 0.33 * WMC + - 0.33 * DSC" =
      some ((uList as ds cs ls ns ws ss).map Value.num) := by
    apply evalFormula_eq_of df _ UAST
    · rw [substAll_U df.colNames hgood hwf.2 hA hD hC hL hN hW hS]
      exact parse_UAST
    · exact evalPE_UAST df as ds cs ls ns ws ss df.nrows hlA hlD hlC hlL hlN hlW hlS
        (by simpa using hA) hgA (by simpa using hD) hgD (by simpa using hC) hgC
        (by simpa using hL) hgL (by simpa using hN) hgN (by simpa using hW) hgW
        (by simpa using hS) hgS
  have h1 : (recalculate_qmood_metrics df).getCol "Understandability" =
      (uList as ds cs ls ns ws ss).map Value.num := by
    rw [recalc_getCol_metric df "Understandability" _ hUF]
    unfold metricOutcome
    rw [hev]
  refine ⟨h1, ?_⟩
  have lm1 : (as.map (fun x => -(33/100 : Rat) * x)).length = df.nrows := by
    rw [List.length_map]; exact hlA
  have lm2 : (ds.map (fun x => (33/100 : Rat) * x)).length = df.nrows := by
    rw [List.length_map]; exact hlD
  have lm3 : (cs.map (fun x => (33/100 : Rat) * x)).length = df.nrows := by
    rw [List.length_map]; exact hlC
  have lm4 : (ls.map (fun x => (33/100 : Rat) * x)).length = df.nrows := by
    rw [List.length_map]; exact hlL
  have lm5 : (ns.map (fun x => (33/100 : Rat) * x)).length = df.nrows := by
    rw [List.length_map]; exact hlN
  have lm6 : (ws.map (fun x => (33/100 : Rat) * x)).length = df.nrows := by
    rw [List.length_map]; exact hlW
  have lm7 : (ss.map (fun x => -(33/100 : Rat) * x)).length = df.nrows := by
    rw [List.length_map]; exact hlS
  have z1 : (List.zipWith (fun x y => x + y)
      (as.map (fun x => -(33/100 : Rat) * x))
      (ds.map (fun x => (33/100 : Rat) * x))).length = df.nrows := by
    rw [List.length_zipWith, lm1, lm2]; exact Nat.min_self _
  have z2 : (List.zipWith (fun x y => x - y)
      (List.zipWith (fun x y => x + y)
        (as.map (fun x => -(33/100 : Rat) * x))
        (ds.map (fun x => (33/100 : Rat) * x)))
      (cs.map (fun x => (33/100 : Rat) * x))).length = df.nrows := by
    rw [List.length_zipWith, z1, lm3]; exact Nat.min_self _
  have z3 : (List.zipWith (fun x y => x + y)
      (List.zipWith (fun x y => x - y)
        (List.zipWith (fun x y => x + y)
          (as.map (fun x => -(33/100 : Rat) * x))
          (ds.map (fun x => (33/100 : Rat) * x)))
        (cs.map (fun x => (33/100 : Rat) * x)))
      (ls.map (fun x => (33/100 : Rat) * x))).length = df.nrows := by
    rw [List.length_zipWith, z2, lm4]; exact Nat.min_self _
  have z4 : (List.zipWith (fun x y => x - y)
      (List.zipWith (fun x y => x + y)
        (List.zipWith (fun x y => x - y)
          (List.zipWith (fun x y => x + y)
            (as.map (fun x => -(33/100 : Rat) * x))
            (ds.map (fun x => (33/100 : Rat) * x)))
          (cs.map (fun x => (33/100 : Rat) * x)))
        (ls.map (fun x => (33/100 : Rat) * x)))
      (ns.map (fun x => (33/100 : Rat) * x))).length = df.nrows := by
    rw [List.length_zipWith, z3, lm5]; exact Nat.min_self _
  have z5 : (List.zipWith (fun x y => x - y)
      (List.zipWith (fun x y => x - y)
        (List.zipWith (fun x y => x + y)
          (List.zipWith (fun x y => x - y)
            (List.zipWith (fun x y => x + y)
              (as.map (fun x => -(33/100 : Rat) * x))
              (ds.map (fun x => (33/100 : Rat) * x)))
            (cs.map (fun x => (33/100 : Rat) * x)))
          (ls.map (fun x => (33/100 : Rat) * x)))
        (ns.map (fun x => (33/100 : Rat) * x)))
      (ws.map (fun x => (33/100 : Rat) * x))).length = df.nrows := by
    rw [List.length_zipWith, z4, lm6]; exact Nat.min_self _
  have hlen_u : (uList as ds cs ls ns ws ss).length = df.nrows := by
    unfold uList
    rw [List.length_zipWith, z5, lm7]; exact Nat.min_self _
  intro i hi
  rw [h1, getD_map_num _ i (by rw [hlen_u]; exact hi)]
  unfold uList
  rw [getD_zipWith_rat (fun x y => x + y) _ _ i (by rw [z5]; exact hi) (by rw [lm7]; exact hi),
    getD_zipWith_rat (fun x y => x - y) _ _ i (by rw [z4]; exact hi) (by rw [lm6]; exact hi),
    getD_zipWith_rat (fun x y => x - y) _ _ i (by rw [z3]; exact hi) (by rw [lm5]; exact hi),
    getD_zipWith_rat (fun x y => x + y) _ _ i (by rw [z2]; exact hi) (by rw [lm4]; exact hi),
    getD_zipWith_rat (fun x y => x - y) _ _ i (by rw [z1]; exact hi) (by rw [lm3]; exact hi),
    getD_zipWith_rat (fun x y => x + y) _ _ i (by rw [lm1]; exact hi) (by rw [lm2]; exact hi),
    getD_map_rat _ as i (by rw [hlA]; exact hi),
    getD_map_rat _ ds i (by rw [hlD]; exact hi),
    getD_map_rat _ cs i (by rw [hlC]; exact hi),
    getD_map_rat _ ls i (by rw [hlL]; exact hi),
    getD_map_rat _ ns i (by rw [hlN]; exact hi),
    getD_map_rat _ ws i (by rw [hlW]; exact hi),
    getD_map_rat _ ss i (by rw [hlS]; exact hi)]

def wU : Table :=
  ⟨[("ANA", [Value.num 1]), ("DAM", [Value.num 2]), ("DCC", [Value.num 3]),
    ("lcc", [Value.num 4]), ("NOP", [Value.num 5]), ("WMC", [Value.num 6]),
    ("DSC", [Value.num 7])]⟩

theorem claim_C6_amended_witness :
    wU.WF ∧
    ((recalculate_qmood_metrics wU).getCol "Understandability" =
      (uList [1] [2] [3] [4] [5] [6] [7]).map Value.num ∧
     ∀ i, i < wU.nrows →
      ((recalculate_qmood_metrics wU).getCol "Understandability").getD i Value.na =
        Value.num (-(33/100 : Rat) * ([1] : List Rat).getD i 0 +
          (33/100 : Rat) * ([2] : List Rat).getD i 0 -
          (33/100 : Rat) * ([3] : List Rat).getD i 0 +
          (33/100 : Rat) * ([4] : List Rat).getD i 0 -
          (33/100 : Rat) * ([5] : List Rat).getD i 0 -
          (33/100 : Rat) * ([6] : List Rat).getD i 0 +
          -(33/100 : Rat) * ([7] : List Rat).getD i 0)) :=
  ⟨by decide, claim_C6_amended wU (by decide) (by decide) [1] [2] [3] [4] [5] [6] [7]
    (by decide) rfl (by decide) rfl (by decide) rfl (by decide) rfl (by decide) rfl
    (by decide) rfl (by decide) rfl⟩
